import Mathlib

/-!
# MorseCodeDecoder: a shallow embedding of `MorseCodeDecoder.cpp`

The C++ class `MorseCodeDecoder` is embedded as a record of its member
variables together with one Lean function per member function.

* Unsigned machine integers are natural numbers reduced modulo `2 ^ width`
  at every place where the C++ code stores into a narrower type.
* The two heap buffers (`userInput`, `decodedMessage`) are total maps from an
  index to a cell; the allocated extent is `[0, userInputMax)` respectively
  `[0, decodedMessageMax)`.  A store outside the extent is therefore visible
  as a change of a cell outside the extent.
* The alphabet table `morseCodeInternational` lives in a header that is not
  part of the sources at hand; it is a parameter of the decoder.
* The widths of `int` and `long` depend on the compilation target and are
  given by `Target`.
-/

namespace MorseCodeDecoder

/-- Integer data models of the compilation targets: 8-bit AVR boards
(`int` 16 bits, `long` 32 bits), 32-bit boards (`int` and `long` 32 bits) and
64-bit hosts (`int` 32 bits, `long` 64 bits). -/
inductive Target where
  | avr
  | ilp32
  | lp64
  deriving DecidableEq, Repr

/-- Width of `long` and `unsigned long`. -/
def Target.longBits : Target → Nat
  | .avr => 32
  | .ilp32 => 32
  | .lp64 => 64

/-- Width of `int` and `unsigned int`. -/
def Target.intBits : Target → Nat
  | .avr => 16
  | .ilp32 => 32
  | .lp64 => 32

/-- The constant `UINT16_MAX`. -/
def UINT16_MAX : Nat := 65535

/-- The constant `__LONG_MAX__`. -/
def LONG_MAX (T : Target) : Nat := 2 ^ (T.longBits - 1) - 1

/-- Conversion of a value to `uint8_t`. -/
def u8 (x : Nat) : Nat := x % 256

/-- Conversion of a value to `uint16_t`. -/
def u16 (x : Nat) : Nat := x % 65536

/-- Conversion of a `long` to `unsigned long`. -/
def toULong (T : Target) (x : Int) : Nat := (x % (2 ^ T.longBits : Nat)).toNat

/-- Subtraction `a - b` of two `unsigned long` values. -/
def subULong (T : Target) (a b : Nat) : Nat := (a + 2 ^ T.longBits - b) % 2 ^ T.longBits

/-- The product `k * x` of a `uint16_t` member `x` and a small constant, in the
type the operand is promoted to: `int` where `int` is wider than 16 bits (the
product then fits), `unsigned int` of 16 bits otherwise (the product wraps). -/
def mulPromoted (T : Target) (k x : Nat) : Nat :=
  if 16 < T.intBits then k * x else (k * x) % 65536

/-- The expression `x << 1` on a `uint16_t` member `x`. -/
def shl1 (T : Target) (x : Nat) : Nat := mulPromoted T 2 x

/-- The expression `1UL << n`.  A shift count of `longBits` or more is
undefined in C++; the embedding takes the mathematical value reduced to the
width of `unsigned long`, which is `0` there. -/
def shlUL (T : Target) (n : Nat) : Nat := (1 <<< n) % 2 ^ T.longBits

/-- A store `m[i] = v` into a buffer. -/
def poke {ι α : Type} [DecidableEq ι] (m : ι → α) (i : ι) (v : α) : ι → α :=
  fun j => if j = i then v else m j

/-- The member variables of `class MorseCodeDecoder`. -/
structure Decoder where
  decodedMessage : Int → Char
  messageDecoded : Bool
  decodedMessageMax : Nat
  newMessageIndex : Nat
  newMessageReady : Bool
  timeUnitUpperLimitMs : Nat
  debounceIntervalMs : Nat
  finishedTypingMs : Nat
  userInput : Nat → Nat
  userInputCounter : Nat
  userInputMax : Nat
  lastMillis : Nat
  lastUserInputMs : Nat
  keyHoldCounterMs : Nat
  lowestInputHoldMs : Nat
  highestInputHoldMs : Nat
  keyReleaseCounterMs : Nat
  lowestInputReleaseMs : Nat
  listening : Bool

/-- The constructor `MorseCodeDecoder(userInputMax, decodedMessageMax)`.  The
argument `raw` is the content of the object's storage and of the two freshly
allocated buffers before the constructor body runs: the members the body does
not assign (`newMessageReady`, `lastMillis`, `listening`) and the buffer cells
keep it. -/
def construct (T : Target) (raw : Decoder) (userInputMax decodedMessageMax : Nat) : Decoder :=
  { raw with
    timeUnitUpperLimitMs := 100
    debounceIntervalMs := 20
    finishedTypingMs := 1500
    newMessageIndex := 0
    messageDecoded := true
    decodedMessageMax := u16 decodedMessageMax
    userInputCounter := 0
    lastUserInputMs := LONG_MAX T
    keyHoldCounterMs := 0
    keyReleaseCounterMs := 0
    lowestInputHoldMs := UINT16_MAX
    highestInputHoldMs := 0
    lowestInputReleaseMs := UINT16_MAX
    userInputMax := u16 userInputMax }

/-- The setter `setTimeUnitUpperLimitMs(uint16_t)`. -/
def setTimeUnitUpperLimitMs (s : Decoder) (timeUnitUpperLimitMs : Nat) : Decoder :=
  { s with timeUnitUpperLimitMs := u16 timeUnitUpperLimitMs }

/-- The setter `setDebounceIntervalMs(uint8_t)`. -/
def setDebounceIntervalMs (s : Decoder) (debounceIntervalMs : Nat) : Decoder :=
  { s with debounceIntervalMs := u8 debounceIntervalMs }

/-- The setter `setFinishedTypingMs(uint16_t)`. -/
def setFinishedTypingMs (s : Decoder) (finishedTypingMs : Nat) : Decoder :=
  { s with finishedTypingMs := u16 finishedTypingMs }

/-- The member function `acknowledgeMessage()`. -/
def acknowledgeMessage (s : Decoder) : Decoder :=
  { s with userInputCounter := 0, newMessageReady := false }

/-- The member function `getDecodedMessage()`. -/
def getDecodedMessage (s : Decoder) : Int → Char := s.decodedMessage

/-- The member function `getDecodedMessageSize()`. -/
def getDecodedMessageSize (s : Decoder) : Nat := s.newMessageIndex

/-- The member function `getUserInputSize()`. -/
def getUserInputSize (s : Decoder) : Nat := s.userInputCounter

/-- The local variables of the loop of `decodeMessage()`. -/
structure Locals where
  i : Nat
  charBuilderIndex : Nat
  charBuilder : Nat
  deriving DecidableEq, Repr

/-- The `switch` of `decodeMessage()` that fills the bits below the last
written bit. -/
def padBits (charBuilderIndex charBuilder : Nat) : Nat :=
  match charBuilderIndex with
  | 5 => charBuilder ||| 0b00011111
  | 4 => charBuilder ||| 0b00001111
  | 3 => charBuilder ||| 0b00000111
  | 2 => charBuilder ||| 0b00000011
  | 1 => charBuilder ||| 0b00000001
  | _ => charBuilder

/-- The condition of the `for` loop of `decodeMessage()`. -/
def decodeCond (s : Decoder) (l : Locals) : Bool :=
  decide (l.i < s.userInputCounter) && decide (s.newMessageIndex < s.decodedMessageMax)

/-- The value of `charBuilder` after the first `if` of the loop body: the bit
at `charBuilderIndex` is set when the hold at `i` is longer than twice the
lowest hold. -/
def classifyBit (T : Target) (s : Decoder) (l : Locals) : Nat :=
  if shl1 T s.lowestInputHoldMs < s.userInput l.i then
    u8 (l.charBuilder ||| shlUL T l.charBuilderIndex)
  else l.charBuilder

/-- The condition of the second `if` of the loop body: the character ends at
the hold at `i`. -/
def closesChar (T : Target) (s : Decoder) (l : Locals) : Bool :=
  decide ((l.i : Int) = (s.userInputCounter : Int) - 1)
    || decide (shl1 T s.lowestInputReleaseMs < s.userInput (l.i + 1))
    || decide (s.newMessageIndex = s.decodedMessageMax)

/-- The lookup code handed to the alphabet table when the character ends at the
hold at `i`. -/
def lookupCode (T : Target) (s : Decoder) (l : Locals) : Nat :=
  let charBuilder := classifyBit T s l
  if (charBuilder >>> l.charBuilderIndex) &&& 0x01 = 0 then
    u8 (padBits l.charBuilderIndex charBuilder)
  else charBuilder

/-- The condition of the innermost `if` of the loop body, evaluated after the
character was stored: a space follows. -/
def emitsSpace (T : Target) (s : Decoder) (l : Locals) : Bool :=
  decide ((l.i : Int) < (s.userInputCounter : Int) - 1)
    && decide (s.newMessageIndex < s.decodedMessageMax)
    && decide (mulPromoted T 6 s.lowestInputReleaseMs < s.userInput (l.i + 1))

/-- One pass through the body of the `for` loop of `decodeMessage()`, its
increment `i += 2` included. -/
def decodeBody (T : Target) (morseCodeInternational : Nat → Char) (s : Decoder) (l : Locals) :
    Decoder × Locals :=
  let charBuilder := classifyBit T s l
  if closesChar T s l then
    let s1 : Decoder :=
      { s with
        decodedMessage :=
          poke s.decodedMessage (s.newMessageIndex : Int)
            (morseCodeInternational (lookupCode T s l))
        newMessageIndex := u16 (s.newMessageIndex + 1) }
    let s2 : Decoder :=
      if emitsSpace T s1 l then
        { s1 with
          decodedMessage := poke s1.decodedMessage (s1.newMessageIndex : Int) ' '
          newMessageIndex := u16 (s1.newMessageIndex + 1) }
      else s1
    (s2, { i := u16 (l.i + 2), charBuilderIndex := u8 (6 + 255), charBuilder := 0 })
  else
    (s, { i := u16 (l.i + 2), charBuilderIndex := u8 (l.charBuilderIndex + 255),
          charBuilder := charBuilder })

/-- The `for` loop of `decodeMessage()`, run for at most `fuel` passes. -/
def decodeLoop (T : Target) (morseCodeInternational : Nat → Char) :
    Nat → Decoder → Locals → Decoder × Locals
  | 0, s, l => (s, l)
  | fuel + 1, s, l =>
    if decodeCond s l then
      let r := decodeBody T morseCodeInternational s l
      decodeLoop T morseCodeInternational fuel r.1 r.2
    else (s, l)

/-- A number of passes that the loop of `decodeMessage()` never exceeds (see
`decodeLoop_exits`): `i` runs through at most 32768 even values before it
wraps, and it only wraps after a character was stored. -/
def decodeFuel (s : Decoder) : Nat := 32768 * (s.decodedMessageMax + 1)

/-- The degenerate-input correction at the head of `decodeMessage()`. -/
def correctLowestHold (T : Target) (s : Decoder) : Decoder :=
  if s.timeUnitUpperLimitMs ≤ s.lowestInputHoldMs
      ∧ (s.highestInputHoldMs = s.lowestInputHoldMs
          ∨ s.highestInputHoldMs ≤ shl1 T s.lowestInputHoldMs) then
    { s with lowestInputHoldMs := 0 }
  else s

/-- The tail of `decodeMessage()`: the terminator is stored after the last
character, or over it when the buffer is full. -/
def terminate (s : Decoder) : Decoder :=
  if s.newMessageIndex < s.decodedMessageMax then
    { s with decodedMessage := poke s.decodedMessage (s.newMessageIndex : Int) '\x00' }
  else
    { s with
      decodedMessage := poke s.decodedMessage ((s.newMessageIndex : Int) - 1) '\x00'
      newMessageIndex := u16 (s.newMessageIndex + 65535) }

/-- The state of the decoder and of the loop variables when the loop of
`decodeMessage()` is left. -/
def decodeScan (T : Target) (morseCodeInternational : Nat → Char) (s : Decoder) :
    Decoder × Locals :=
  let s0 := { correctLowestHold T s with newMessageIndex := 0 }
  decodeLoop T morseCodeInternational (decodeFuel s0) s0
    { i := 0, charBuilderIndex := 5, charBuilder := 0 }

/-- The member function `decodeMessage()`. -/
def decodeMessage (T : Target) (morseCodeInternational : Nat → Char) (s : Decoder) : Decoder :=
  terminate (decodeScan T morseCodeInternational s).1

/-- The branch of `monitorUserInput` taken while the key is held. -/
def keyDownTick (s : Decoder) (now : Nat) : Decoder :=
  let s1 : Decoder := { s with lastUserInputMs := now, messageDecoded := false }
  let s2 : Decoder :=
    if s1.debounceIntervalMs < s1.keyReleaseCounterMs ∧ s1.userInputCounter < s1.userInputMax then
      { s1 with
        userInput := poke s1.userInput s1.userInputCounter s1.keyReleaseCounterMs
        lowestInputReleaseMs :=
          if s1.keyReleaseCounterMs < s1.lowestInputReleaseMs then s1.keyReleaseCounterMs
          else s1.lowestInputReleaseMs
        userInputCounter := u16 (s1.userInputCounter + 1)
        keyReleaseCounterMs := 0 }
    else s1
  { s2 with keyHoldCounterMs := u16 (s2.keyHoldCounterMs + 1) }

/-- The branch of `monitorUserInput` taken while the key is released and the
user is still typing. -/
def keyUpTick (s : Decoder) : Decoder :=
  let s2 : Decoder :=
    if s.debounceIntervalMs < s.keyHoldCounterMs ∧ s.userInputCounter < s.userInputMax then
      { s with
        userInput := poke s.userInput s.userInputCounter s.keyHoldCounterMs
        highestInputHoldMs :=
          if s.highestInputHoldMs < s.keyHoldCounterMs then s.keyHoldCounterMs
          else s.highestInputHoldMs
        lowestInputHoldMs :=
          if s.keyHoldCounterMs < s.lowestInputHoldMs then s.keyHoldCounterMs
          else s.lowestInputHoldMs
        userInputCounter := u16 (s.userInputCounter + 1)
        keyHoldCounterMs := 0 }
    else s
  { s2 with keyReleaseCounterMs := u16 (s2.keyReleaseCounterMs + 1) }

/-- The branch of `monitorUserInput` taken when the user finished typing and
the message was not decoded yet. -/
def decodeTick (T : Target) (morseCodeInternational : Nat → Char) (s : Decoder) : Decoder :=
  { decodeMessage T morseCodeInternational s with
    newMessageReady := true
    keyReleaseCounterMs := 0
    keyHoldCounterMs := 0
    messageDecoded := true
    lowestInputHoldMs := UINT16_MAX
    highestInputHoldMs := 0
    lowestInputReleaseMs := UINT16_MAX }

/-- The local `currentlyTyping` of `monitorUserInput`. -/
def currentlyTyping (T : Target) (s : Decoder) (now : Nat) : Bool :=
  decide (subULong T now s.lastUserInputMs ≤ s.finishedTypingMs)

/-- The state after `monitorUserInput(sensorStatus, currMillis)`. -/
def monitorState (T : Target) (morseCodeInternational : Nat → Char) (s : Decoder)
    (sensorStatus : Bool) (currMillis : Int) : Decoder :=
  let now := toULong T currMillis
  if now ≠ s.lastMillis then
    let s1 : Decoder :=
      if sensorStatus then keyDownTick s now
      else if currentlyTyping T s now then keyUpTick s
      else if !s.messageDecoded then decodeTick T morseCodeInternational s
      else s
    { s1 with lastMillis := now }
  else s

/-- The member function `monitorUserInput(sensorStatus, currMillis)`: the state
after the call and the value it returns. -/
def monitorUserInput (T : Target) (morseCodeInternational : Nat → Char) (s : Decoder)
    (sensorStatus : Bool) (currMillis : Int) : Decoder × Bool :=
  let s1 := monitorState T morseCodeInternational s sensorStatus currMillis
  (s1, s1.newMessageReady)

/-- A call of one of the public member functions that change the decoder. -/
inductive Call where
  | monitor (sensorStatus : Bool) (currMillis : Int)
  | acknowledge
  | setUpperLimit (timeUnitUpperLimitMs : Nat)
  | setDebounce (debounceIntervalMs : Nat)
  | setFinishedTyping (finishedTypingMs : Nat)
  deriving DecidableEq, Repr

/-- The state after one call. -/
def Call.apply (T : Target) (morseCodeInternational : Nat → Char) (s : Decoder) : Call → Decoder
  | .monitor sensorStatus currMillis =>
    (monitorUserInput T morseCodeInternational s sensorStatus currMillis).1
  | .acknowledge => acknowledgeMessage s
  | .setUpperLimit v => setTimeUnitUpperLimitMs s v
  | .setDebounce v => setDebounceIntervalMs s v
  | .setFinishedTyping v => setFinishedTypingMs s v

/-- The state after a sequence of calls, the first call of the list first. -/
def runCalls (T : Target) (morseCodeInternational : Nat → Char) : Decoder → List Call → Decoder
  | s, [] => s
  | s, c :: cs => runCalls T morseCodeInternational (c.apply T morseCodeInternational s) cs

/-- Whether a call is `setDebounceIntervalMs`. -/
def Call.isSetDebounce : Call → Bool
  | .setDebounce _ => true
  | _ => false

/-- The state after one `monitorUserInput` call per millisecond: the key
values of the list are fed with the timestamps `t`, `t + 1`, ... -/
def feed (T : Target) (morseCodeInternational : Nat → Char) : Decoder → Int → List Bool → Decoder
  | s, _, [] => s
  | s, t, k :: ks =>
    feed T morseCodeInternational (monitorUserInput T morseCodeInternational s k t).1 (t + 1) ks

/-- The committed samples `userInput[0 .. userInputCounter)`. -/
def committed (s : Decoder) : List Nat := (List.range s.userInputCounter).map s.userInput

/-- Storage in which every byte is zero, as for an object of static storage
duration before its constructor runs. -/
def zeroStorage : Decoder :=
  { decodedMessage := fun _ => Char.ofNat 0
    messageDecoded := false
    decodedMessageMax := 0
    newMessageIndex := 0
    newMessageReady := false
    timeUnitUpperLimitMs := 0
    debounceIntervalMs := 0
    finishedTypingMs := 0
    userInput := fun _ => 0
    userInputCounter := 0
    userInputMax := 0
    lastMillis := 0
    lastUserInputMs := 0
    keyHoldCounterMs := 0
    lowestInputHoldMs := 0
    highestInputHoldMs := 0
    keyReleaseCounterMs := 0
    lowestInputReleaseMs := 0
    listening := false }

/-- Storage whose bytes are not zero, as for an object in automatic or heap
storage that was used before. -/
def dirtyStorage : Decoder :=
  { zeroStorage with
    decodedMessage := fun _ => 'x'
    newMessageReady := true
    userInput := fun _ => 43690
    lastMillis := 1
    listening := true }

/-- An alphabet table used for the concrete examples: the entries for the
codes of `E`, `I`, `S` and `O`, and `#` everywhere else. -/
def sampleAlphabet : Nat → Char := fun code =>
  if code = 31 then 'E' else if code = 15 then 'I' else if code = 7 then 'S'
  else if code = 56 then 'O' else '#'

/-- Every committed sample is longer than the debounce interval. -/
def Debounced (s : Decoder) : Prop :=
  ∀ j, j < s.userInputCounter → s.debounceIntervalMs < s.userInput j

/-- The quantity that decreases with every pass of the loop of
`decodeMessage()`. -/
def loopMeasure (s : Decoder) (l : Locals) : Nat :=
  (s.decodedMessageMax - s.newMessageIndex) * 32768 + (65536 - l.i) / 2

/-- The facts about the state and the loop variables that every pass of the
loop of `decodeMessage()` preserves. -/
structure LoopInv (s : Decoder) (l : Locals) : Prop where
  even : l.i % 2 = 0
  counter : s.userInputCounter ≤ 65535
  capacity : s.decodedMessageMax ≤ 65535
  index : s.newMessageIndex ≤ s.decodedMessageMax

/-- The cells outside the extent `[0, decodedMessageMax)` agree. -/
def SameOutside (s r : Decoder) : Prop :=
  ∀ j : Int, (j < 0 ∨ (s.decodedMessageMax : Int) ≤ j) → r.decodedMessage j = s.decodedMessage j

/-- A decoder with the configuration of a fresh one that holds the given
committed samples and tracker values, as the sampler leaves them when the
user finished typing. -/
def loaded (T : Target) (samples : List Nat) (lowestHold highestHold lowestRelease : Nat)
    (decodedMessageMax : Nat) : Decoder :=
  { construct T zeroStorage 65535 decodedMessageMax with
    userInput := fun j => samples.getD j 0
    userInputCounter := samples.length
    lowestInputHoldMs := lowestHold
    highestInputHoldMs := highestHold
    lowestInputReleaseMs := lowestRelease
    messageDecoded := false }

/-- The characters `decodedMessage[0 .. n)`. -/
def decodedPrefix (s : Decoder) (n : Nat) : List Char :=
  (List.range n).map (fun (j : Nat) => s.decodedMessage (j : Int))

/-- The decoded message up to and including the terminator slot. -/
def decodedText (s : Decoder) : List Char := decodedPrefix s (s.newMessageIndex + 1)

/-- The samples of `SOS` keyed with a dot of 50 ms: holds 50, 50, 50, 150, 150,
150, 50, 50, 50 and gaps 50, 50, 150, 50, 50, 150, 50, 50. -/
def sosSamples : List Nat :=
  [50, 50, 50, 50, 50, 150, 150, 50, 150, 50, 150, 150, 50, 50, 50, 50, 50]

/-- The value of `charBuilder` after the first `if` of the loop body, as a
function of the symbol. -/
def setBit (T : Target) (charBuilderIndex charBuilder : Nat) (dash : Bool) : Nat :=
  if dash then u8 (charBuilder ||| shlUL T charBuilderIndex) else charBuilder

/-- The lookup code when the character ends with the given symbol. -/
def closeCode (T : Target) (charBuilderIndex charBuilder : Nat) (dash : Bool) : Nat :=
  if (setBit T charBuilderIndex charBuilder dash >>> charBuilderIndex) &&& 0x01 = 0 then
    u8 (padBits charBuilderIndex (setBit T charBuilderIndex charBuilder dash))
  else setBit T charBuilderIndex charBuilder dash

/-- The values of `charBuilderIndex` and `charBuilder` after the given symbols
were written without the character ending. -/
def packOpen (T : Target) : Nat → Nat → List Bool → Nat × Nat
  | charBuilderIndex, charBuilder, [] => (charBuilderIndex, charBuilder)
  | charBuilderIndex, charBuilder, dash :: rest =>
    packOpen T (u8 (charBuilderIndex + 255)) (setBit T charBuilderIndex charBuilder dash) rest

/-- The lookup code of a character that starts at bit 5 and consists of the
given symbols. -/
def packCode (T : Target) (symbols : List Bool) : Nat :=
  closeCode T (packOpen T 5 0 symbols.dropLast).1 (packOpen T 5 0 symbols.dropLast).2
    (symbols.getLastD false)

/-- The lookup code of a character as the specification states it: the sum of
`s_j * 2 ^ (6 - j)` over the symbols `s_1 .. s_k`, plus `2 ^ (6 - k) - 1` when
the last symbol is a dot. -/
def specLookupCode (symbols : List Bool) : Nat :=
  ((List.range symbols.length).map
      (fun j => if symbols.getD j false then 2 ^ (6 - (j + 1)) else 0)).sum
    + (if symbols.getLastD true then 0 else 2 ^ (6 - symbols.length) - 1)

/-- The symbol of a hold: a dash when the hold is longer than twice the lowest
hold. -/
def symbolOf (s : Decoder) (hold : Nat) : Bool := decide (2 * s.lowestInputHoldMs < hold)

/-- A message that fills a sample buffer of the largest capacity: 32768 holds
of 50 ms, the first gap 50 ms and every other gap 150 ms, which are 65535
samples, with the tracker values the sampler records for them, and an output
buffer of 32769 cells. -/
def longMessage (T : Target) : Decoder :=
  { construct T zeroStorage 65535 32769 with
    userInput := fun j => if j % 2 = 0 then 50 else if j = 1 then 50 else 150
    userInputCounter := 65535
    lowestInputHoldMs := 50
    highestInputHoldMs := 50
    lowestInputReleaseMs := 50
    messageDecoded := false }

/-- The members of `longMessage` that decide where characters end. -/
structure LongShape (s : Decoder) : Prop where
  counter : s.userInputCounter = 65535
  capacity : s.decodedMessageMax = 32769
  release : s.lowestInputReleaseMs = 50
  samples : s.userInput = fun j => if j % 2 = 0 then 50 else if j = 1 then 50 else 150

/-- The samples of `SOS` with the gap after the `O` widened from 150 ms to
350 ms. -/
def sosWideSamples : List Nat :=
  [50, 50, 50, 50, 50, 150, 150, 50, 150, 50, 150, 350, 50, 50, 50, 50, 50]

/-- The key values of alternating runs: `n₁` ticks with the key at `key`, then
`n₂` ticks with the key at `!key`, and so on. -/
def keyRuns : Bool → List Nat → List Bool
  | _, [] => []
  | key, n :: ns => List.replicate n key ++ keyRuns (!key) ns

/-- The samples of a message keyed as the hold `h₁` followed by the pairs
(gap, hold) of `rest`: `[h₁, r₁, h₂, ..., r₍ₙ₋₁₎, hₙ]`. -/
def messageSamples (h1 : Nat) : List (Nat × Nat) → List Nat
  | [] => [h1]
  | (r, h) :: rest => h1 :: r :: messageSamples h rest

/-- The holds `h₁, ..., hₙ` of a message. -/
def holdsOf (h1 : Nat) (rest : List (Nat × Nat)) : List Nat := h1 :: rest.map Prod.snd

/-- The gaps `r₁, ..., r₍ₙ₋₁₎` of a message. -/
def gapsOf (rest : List (Nat × Nat)) : List Nat := rest.map Prod.fst

/-- The state of a decoder that waits for a new message: nothing committed,
both run counters at zero and the trackers at their sentinel values. -/
structure Rested (s : Decoder) : Prop where
  counter : s.userInputCounter = 0
  hold : s.keyHoldCounterMs = 0
  release : s.keyReleaseCounterMs = 0
  lowestHold : s.lowestInputHoldMs = UINT16_MAX
  highestHold : s.highestInputHoldMs = 0
  lowestRelease : s.lowestInputReleaseMs = UINT16_MAX

/-- The decoder `s` has the configuration of `cfg`, has committed exactly the
samples `c`, and its trackers hold `lo`, `hi` and `lr`. -/
structure Recorded (cfg s : Decoder) (c : List Nat) (lo hi lr : Nat) : Prop where
  debounce : s.debounceIntervalMs = cfg.debounceIntervalMs
  finished : s.finishedTypingMs = cfg.finishedTypingMs
  max : s.userInputMax = cfg.userInputMax
  counter : s.userInputCounter = c.length
  samples : ∀ j, j < c.length → s.userInput j = c.getD j 0
  lowestHold : s.lowestInputHoldMs = lo
  highestHold : s.highestInputHoldMs = hi
  lowestRelease : s.lowestInputReleaseMs = lr

/-- The sampler in the middle of a message: `s` has recorded `c`, its run
counters hold `hold` and `rel`, the last key-down tick had the timestamp `tl`
and the next tick has the timestamp `t`. -/
structure Running (T : Target) (cfg s : Decoder) (c : List Nat) (lo hi lr hold rel : Nat)
    (tl t : Int) : Prop where
  recorded : Recorded cfg s c lo hi lr
  holdCounter : s.keyHoldCounterMs = hold
  releaseCounter : s.keyReleaseCounterMs = rel
  lastInput : s.lastUserInputMs = toULong T tl
  clock : toULong T t ≠ s.lastMillis
  typing : s.messageDecoded = false

/-- Whether the call `monitorUserInput(sensorStatus, currMillis)` in the state
`s` runs the decoder. -/
def decodes (T : Target) (s : Decoder) (sensorStatus : Bool) (currMillis : Int) : Bool :=
  decide (toULong T currMillis ≠ s.lastMillis) && !sensorStatus
    && !currentlyTyping T s (toULong T currMillis) && !s.messageDecoded

/-- The bookkeeping of C7 for one call: the flag is raised by a call that runs
the decoder and lowered by `acknowledgeMessage`. -/
def readyStep (T : Target) (s : Decoder) (ready : Bool) : Call → Bool
  | .monitor sensorStatus currMillis => ready || decodes T s sensorStatus currMillis
  | .acknowledge => false
  | _ => ready

/-- The bookkeeping of C7 along a sequence of calls, starting from `ready`. -/
def readyAfter (T : Target) (morseCodeInternational : Nat → Char) :
    Decoder → Bool → List Call → Bool
  | _, ready, [] => ready
  | s, ready, c :: cs =>
    readyAfter T morseCodeInternational (c.apply T morseCodeInternational s)
      (readyStep T s ready c) cs

/-- The members that the loop of `decodeMessage()` reads and never writes
agree in `s` and `r`. -/
structure SameInput (s r : Decoder) : Prop where
  userInput : r.userInput = s.userInput
  counter : r.userInputCounter = s.userInputCounter
  capacity : r.decodedMessageMax = s.decodedMessageMax
  lowestHold : r.lowestInputHoldMs = s.lowestInputHoldMs
  lowestRelease : r.lowestInputReleaseMs = s.lowestInputReleaseMs

/-- The first two alternatives of the condition that ends a character: the
hold at `i` is the last sample, or the gap after it is a character gap. -/
def endsChar (T : Target) (s : Decoder) (i : Nat) : Bool :=
  decide ((i : Int) = (s.userInputCounter : Int) - 1)
    || decide (shl1 T s.lowestInputReleaseMs < s.userInput (i + 1))

/-- The part of the condition for a space that does not depend on the output
index: the hold at `i` is not the last sample and the gap after it is a word
gap. -/
def spaceAfter (T : Target) (s : Decoder) (i : Nat) : Bool :=
  decide ((i : Int) < (s.userInputCounter : Int) - 1)
    && decide (mulPromoted T 6 s.lowestInputReleaseMs < s.userInput (i + 1))

/-- The characters that the loop of `decodeMessage()` stores from the position
`l` on when the output buffer never fills (and `i` never wraps), for at most
`fuel` passes. -/
def emitFrom (T : Target) (morseCodeInternational : Nat → Char) (s : Decoder) :
    Nat → Locals → List Char
  | 0, _ => []
  | fuel + 1, l =>
    if l.i < s.userInputCounter then
      if endsChar T s l.i then
        morseCodeInternational (lookupCode T s l)
          :: ((if spaceAfter T s l.i then [' '] else [])
              ++ emitFrom T morseCodeInternational s fuel
                  { i := l.i + 2, charBuilderIndex := 5, charBuilder := 0 })
      else
        emitFrom T morseCodeInternational s fuel
          { i := l.i + 2, charBuilderIndex := u8 (l.charBuilderIndex + 255),
            charBuilder := classifyBit T s l }
    else []

/-- The message that `decodeMessage()` decodes when the output buffer never
fills. -/
def unboundedText (T : Target) (morseCodeInternational : Nat → Char) (s : Decoder) : List Char :=
  emitFrom T morseCodeInternational (correctLowestHold T s) s.userInputCounter
    { i := 0, charBuilderIndex := 5, charBuilder := 0 }

/-- What the decoder puts out: a character, given by its symbols (`true` is a
dash), or a space. -/
inductive Piece where
  | char (symbols : List Bool)
  | space
  deriving DecidableEq, Repr

/-- The boundary rule as the specification states it, for the message
`h, r₁, h₂, ...` with the symbols `acc` of the current character already
read: a character closes after a hold exactly when the hold is the last one or
the gap after it exceeds `2 * m`, and a space follows exactly when that gap
exceeds `6 * m`. -/
def specPieces (dash : Nat → Bool) (m : Nat) : List Bool → Nat → List (Nat × Nat) → List Piece
  | acc, h, [] => [.char (acc ++ [dash h])]
  | acc, h, (r, h') :: rest =>
    if 2 * m < r then
      .char (acc ++ [dash h])
        :: ((if 6 * m < r then [.space] else []) ++ specPieces dash m [] h' rest)
    else specPieces dash m (acc ++ [dash h]) h' rest

/-- The output cell of a piece, with the lookup code as the specification
states it. -/
def Piece.render (morseCodeInternational : Nat → Char) : Piece → Char
  | .char symbols => morseCodeInternational (specLookupCode symbols)
  | .space => ' '

/-- The output cell of a piece, with the lookup code as the decoder packs it. -/
def Piece.renderPacked (T : Target) (morseCodeInternational : Nat → Char) : Piece → Char
  | .char symbols => morseCodeInternational (packCode T symbols)
  | .space => ' '

/-- Whether every character of the pieces has at most five symbols. -/
def Piece.short : Piece → Bool
  | .char symbols => decide (symbols.length ≤ 5)
  | .space => true

/-- The symbol the decoder assigns to a hold. -/
def dashAt (T : Target) (s : Decoder) (hold : Nat) : Bool :=
  decide (shl1 T s.lowestInputHoldMs < hold)

/-- Two messages keyed without an `acknowledgeMessage` between them, with a
debounce interval of 1 ms and an inactivity window of 3 ms: the calls of the
first message (a hold of 2 ms, decoded by the call at 6 ms). -/
def firstMessageCalls : List Call :=
  [.setDebounce 1, .setFinishedTyping 3, .monitor true 1, .monitor true 2, .monitor false 3,
   .monitor false 4, .monitor false 5, .monitor false 6]

/-- The calls of the second message (again a hold of 2 ms, decoded by the call
at 12 ms). -/
def secondMessageCalls : List Call :=
  [.monitor true 7, .monitor true 8, .monitor false 9, .monitor false 10, .monitor false 11,
   .monitor false 12]

/-- Seven holds of 50 ms separated by gaps of 50 ms: seven dots without a
character gap between them. -/
def sevenDotSamples : List Nat := [50, 50, 50, 50, 50, 50, 50, 50, 50, 50, 50, 50, 50]

/-- The decoder that holds `sevenDotSamples` when the loop of `decodeMessage()`
is entered (the degenerate-input correction does not apply, the lowest hold
being below the limit of 100 ms). -/
def sevenDots (T : Target) : Decoder :=
  { correctLowestHold T (loaded T sevenDotSamples 50 50 50 16) with newMessageIndex := 0 }

/-- A hold of 90 ms, a gap of 50 ms and a hold of 150 ms, with the tracker
values the sampler records for them and the default limit of 100 ms. -/
def nearLimitMessage (T : Target) : Decoder := loaded T [90, 50, 150] 90 150 50 10

/-- Five holds of 150 ms separated by gaps of 150 ms. -/
def fiveDashSamples : List Nat := [150, 150, 150, 150, 150, 150, 150, 150, 150]

/-- Two holds of 40000 ms and 50000 ms separated by a gap of 50 ms, with the
tracker values the sampler records for them. -/
def slowMessage (T : Target) : Decoder := loaded T [40000, 50, 50000] 40000 50000 50 10

/-- The calls of a message that ends with a bounce, with a debounce interval of
1 ms and an inactivity window of 3 ms: a hold of 2 ms, a gap of 2 ms, a
key-down tick of 1 ms (a bounce) and three key-up ticks inside the window. -/
def trailingBounceCalls : List Call :=
  [.setDebounce 1, .setFinishedTyping 3, .monitor true 1, .monitor true 2, .monitor false 3,
   .monitor false 4, .monitor true 5, .monitor false 6, .monitor false 7, .monitor false 8]

/-! ## Elementary facts -/

theorem toULong_lt (T : Target) (t : Int) : toULong T t < 2 ^ T.longBits := by
  cases T <;> simp [toULong, Target.longBits] <;> omega

theorem toULong_succ_ne (T : Target) (t : Int) : toULong T (t + 1) ≠ toULong T t := by
  cases T <;> simp [toULong, Target.longBits] <;> omega

theorem monitorState_lastMillis (T : Target) (tbl : Nat → Char) (s : Decoder) (k : Bool)
    (t : Int) : (monitorState T tbl s k t).lastMillis = toULong T t := by
  unfold monitorState
  by_cases h : toULong T t = s.lastMillis <;> simp [h]

theorem monitorState_skip (T : Target) (tbl : Nat → Char) (s : Decoder) (k : Bool) (t : Int)
    (h : toULong T t = s.lastMillis) : monitorState T tbl s k t = s := by
  simp [monitorState, h]

theorem monitorState_keyDown (T : Target) (tbl : Nat → Char) (s : Decoder) (t : Int)
    (h : toULong T t ≠ s.lastMillis) :
    monitorState T tbl s true t
      = { keyDownTick s (toULong T t) with lastMillis := toULong T t } := by
  simp [monitorState, h]

theorem monitorState_keyUp (T : Target) (tbl : Nat → Char) (s : Decoder) (t : Int)
    (h : toULong T t ≠ s.lastMillis)
    (hty : subULong T (toULong T t) s.lastUserInputMs ≤ s.finishedTypingMs) :
    monitorState T tbl s false t = { keyUpTick s with lastMillis := toULong T t } := by
  simp [monitorState, h, currentlyTyping, hty]

theorem monitorState_decode (T : Target) (tbl : Nat → Char) (s : Decoder) (t : Int)
    (h : toULong T t ≠ s.lastMillis)
    (hty : s.finishedTypingMs < subULong T (toULong T t) s.lastUserInputMs)
    (hmd : s.messageDecoded = false) :
    monitorState T tbl s false t = { decodeTick T tbl s with lastMillis := toULong T t } := by
  simp [monitorState, h, currentlyTyping, Nat.not_le.mpr hty, hmd]

theorem monitorState_idle (T : Target) (tbl : Nat → Char) (s : Decoder) (t : Int)
    (h : toULong T t ≠ s.lastMillis)
    (hty : s.finishedTypingMs < subULong T (toULong T t) s.lastUserInputMs)
    (hmd : s.messageDecoded = true) :
    monitorState T tbl s false t = { s with lastMillis := toULong T t } := by
  simp [monitorState, h, currentlyTyping, Nat.not_le.mpr hty, hmd]

/-! ## What `decodeMessage` leaves alone -/

theorem decodeBody_frame (T : Target) (tbl : Nat → Char) (s : Decoder) (l : Locals) :
    ∃ n m, (decodeBody T tbl s l).1 = { s with newMessageIndex := n, decodedMessage := m } := by
  unfold decodeBody
  by_cases hc : closesChar T s l = true
  · simp only [hc, if_true]
    split
    · exact ⟨_, _, rfl⟩
    · exact ⟨_, _, rfl⟩
  · simp only [hc]
    exact ⟨s.newMessageIndex, s.decodedMessage, rfl⟩

theorem decodeLoop_frame (T : Target) (tbl : Nat → Char) (fuel : Nat) :
    ∀ (s : Decoder) (l : Locals),
      ∃ n m, (decodeLoop T tbl fuel s l).1 = { s with newMessageIndex := n, decodedMessage := m } := by
  induction fuel with
  | zero => intro s l; exact ⟨s.newMessageIndex, s.decodedMessage, rfl⟩
  | succ fuel ih =>
    intro s l
    unfold decodeLoop
    by_cases hc : decodeCond s l = true
    · simp only [hc, if_true]
      obtain ⟨n, m, h⟩ := decodeBody_frame T tbl s l
      obtain ⟨n', m', h'⟩ := ih (decodeBody T tbl s l).1 (decodeBody T tbl s l).2
      refine ⟨n', m', ?_⟩
      rw [h', h]
    · simp only [hc]
      exact ⟨s.newMessageIndex, s.decodedMessage, rfl⟩

theorem decodeMessage_frame (T : Target) (tbl : Nat → Char) (s : Decoder) :
    ∃ n m low, decodeMessage T tbl s
      = { s with newMessageIndex := n, decodedMessage := m, lowestInputHoldMs := low } := by
  unfold decodeMessage decodeScan
  obtain ⟨n, m, h⟩ := decodeLoop_frame T tbl
    (decodeFuel { correctLowestHold T s with newMessageIndex := 0 })
    { correctLowestHold T s with newMessageIndex := 0 }
    { i := 0, charBuilderIndex := 5, charBuilder := 0 }
  simp only [] at h ⊢
  rw [h]
  unfold terminate correctLowestHold
  split <;> split <;> exact ⟨_, _, _, rfl⟩

/-! ## The sampler: one tick -/

theorem keyDownTick_counter (s : Decoder) (now : Nat) :
    (keyDownTick s now).userInputCounter
      = if s.debounceIntervalMs < s.keyReleaseCounterMs ∧ s.userInputCounter < s.userInputMax
        then u16 (s.userInputCounter + 1) else s.userInputCounter := by
  unfold keyDownTick
  by_cases h : s.debounceIntervalMs < s.keyReleaseCounterMs ∧ s.userInputCounter < s.userInputMax
  · simp [h]
  · simp [h]

theorem keyDownTick_userInput (s : Decoder) (now : Nat) :
    (keyDownTick s now).userInput
      = if s.debounceIntervalMs < s.keyReleaseCounterMs ∧ s.userInputCounter < s.userInputMax
        then poke s.userInput s.userInputCounter s.keyReleaseCounterMs else s.userInput := by
  unfold keyDownTick
  by_cases h : s.debounceIntervalMs < s.keyReleaseCounterMs ∧ s.userInputCounter < s.userInputMax
  · simp [h]
  · simp [h]

theorem keyUpTick_counter (s : Decoder) :
    (keyUpTick s).userInputCounter
      = if s.debounceIntervalMs < s.keyHoldCounterMs ∧ s.userInputCounter < s.userInputMax
        then u16 (s.userInputCounter + 1) else s.userInputCounter := by
  unfold keyUpTick
  by_cases h : s.debounceIntervalMs < s.keyHoldCounterMs ∧ s.userInputCounter < s.userInputMax
  · simp [h]
  · simp [h]

theorem keyUpTick_userInput (s : Decoder) :
    (keyUpTick s).userInput
      = if s.debounceIntervalMs < s.keyHoldCounterMs ∧ s.userInputCounter < s.userInputMax
        then poke s.userInput s.userInputCounter s.keyHoldCounterMs else s.userInput := by
  unfold keyUpTick
  by_cases h : s.debounceIntervalMs < s.keyHoldCounterMs ∧ s.userInputCounter < s.userInputMax
  · simp [h]
  · simp [h]

theorem keyDownTick_config (s : Decoder) (now : Nat) :
    (keyDownTick s now).userInputMax = s.userInputMax
    ∧ (keyDownTick s now).debounceIntervalMs = s.debounceIntervalMs
    ∧ (keyDownTick s now).newMessageReady = s.newMessageReady
    ∧ (keyDownTick s now).decodedMessage = s.decodedMessage
    ∧ (keyDownTick s now).newMessageIndex = s.newMessageIndex := by
  unfold keyDownTick
  by_cases h : s.debounceIntervalMs < s.keyReleaseCounterMs ∧ s.userInputCounter < s.userInputMax
  · simp [h]
  · simp [h]

theorem keyUpTick_config (s : Decoder) :
    (keyUpTick s).userInputMax = s.userInputMax
    ∧ (keyUpTick s).debounceIntervalMs = s.debounceIntervalMs
    ∧ (keyUpTick s).newMessageReady = s.newMessageReady
    ∧ (keyUpTick s).decodedMessage = s.decodedMessage
    ∧ (keyUpTick s).newMessageIndex = s.newMessageIndex := by
  unfold keyUpTick
  by_cases h : s.debounceIntervalMs < s.keyHoldCounterMs ∧ s.userInputCounter < s.userInputMax
  · simp [h]
  · simp [h]

theorem decodeTick_samples (T : Target) (tbl : Nat → Char) (s : Decoder) :
    (decodeTick T tbl s).userInputCounter = s.userInputCounter
    ∧ (decodeTick T tbl s).userInput = s.userInput
    ∧ (decodeTick T tbl s).userInputMax = s.userInputMax
    ∧ (decodeTick T tbl s).debounceIntervalMs = s.debounceIntervalMs := by
  obtain ⟨n, m, low, h⟩ := decodeMessage_frame T tbl s
  unfold decodeTick
  rw [h]
  exact ⟨rfl, rfl, rfl, rfl⟩

/-- The four ways a tick with a new timestamp can go. -/
theorem monitorState_cases (T : Target) (tbl : Nat → Char) (s : Decoder) (k : Bool) (t : Int) :
    monitorState T tbl s k t = s
    ∨ monitorState T tbl s k t = { s with lastMillis := toULong T t }
    ∨ (k = true ∧ monitorState T tbl s k t
        = { keyDownTick s (toULong T t) with lastMillis := toULong T t })
    ∨ (k = false ∧ monitorState T tbl s k t = { keyUpTick s with lastMillis := toULong T t })
    ∨ (k = false ∧ monitorState T tbl s k t
        = { decodeTick T tbl s with lastMillis := toULong T t }) := by
  by_cases h : toULong T t = s.lastMillis
  · exact Or.inl (monitorState_skip T tbl s k t h)
  · cases k with
    | true => exact Or.inr (Or.inr (Or.inl ⟨rfl, monitorState_keyDown T tbl s t h⟩))
    | false =>
      by_cases hty : subULong T (toULong T t) s.lastUserInputMs ≤ s.finishedTypingMs
      · exact Or.inr (Or.inr (Or.inr (Or.inl ⟨rfl, monitorState_keyUp T tbl s t h hty⟩)))
      · have hty' := Nat.not_le.mp hty
        by_cases hmd : s.messageDecoded = true
        · exact Or.inr (Or.inl (monitorState_idle T tbl s t h hty' hmd))
        · have hmd' : s.messageDecoded = false := by simpa using hmd
          exact Or.inr (Or.inr (Or.inr (Or.inr ⟨rfl, monitorState_decode T tbl s t h hty' hmd'⟩)))

theorem u16_le (x : Nat) : u16 x ≤ x := Nat.mod_le _ _

theorem monitorState_userInputMax (T : Target) (tbl : Nat → Char) (s : Decoder) (k : Bool)
    (t : Int) : (monitorState T tbl s k t).userInputMax = s.userInputMax := by
  rcases monitorState_cases T tbl s k t with h | h | ⟨_, h⟩ | ⟨_, h⟩ | ⟨_, h⟩ <;> rw [h]
  · exact (keyDownTick_config s _).1
  · exact (keyUpTick_config s).1
  · exact (decodeTick_samples T tbl s).2.2.1

theorem monitorState_debounce (T : Target) (tbl : Nat → Char) (s : Decoder) (k : Bool)
    (t : Int) : (monitorState T tbl s k t).debounceIntervalMs = s.debounceIntervalMs := by
  rcases monitorState_cases T tbl s k t with h | h | ⟨_, h⟩ | ⟨_, h⟩ | ⟨_, h⟩ <;> rw [h]
  · exact (keyDownTick_config s _).2.1
  · exact (keyUpTick_config s).2.1
  · exact (decodeTick_samples T tbl s).2.2.2

theorem monitorState_counter_le (T : Target) (tbl : Nat → Char) (s : Decoder) (k : Bool)
    (t : Int) (h : s.userInputCounter ≤ s.userInputMax) :
    (monitorState T tbl s k t).userInputCounter ≤ s.userInputMax := by
  rcases monitorState_cases T tbl s k t with e | e | ⟨_, e⟩ | ⟨_, e⟩ | ⟨_, e⟩ <;> rw [e]
  · exact h
  · exact h
  · show (keyDownTick s _).userInputCounter ≤ _
    rw [keyDownTick_counter]
    split
    · rename_i hc; exact Nat.le_trans (u16_le _) hc.2
    · exact h
  · show (keyUpTick s).userInputCounter ≤ _
    rw [keyUpTick_counter]
    split
    · rename_i hc; exact Nat.le_trans (u16_le _) hc.2
    · exact h
  · show (decodeTick T tbl s).userInputCounter ≤ _
    rw [(decodeTick_samples T tbl s).1]; exact h

/-- A tick on a full sample buffer commits nothing. -/
theorem monitorState_full (T : Target) (tbl : Nat → Char) (s : Decoder) (k : Bool)
    (t : Int) (h : s.userInputCounter = s.userInputMax) :
    (monitorState T tbl s k t).userInputCounter = s.userInputCounter
    ∧ (monitorState T tbl s k t).userInput = s.userInput := by
  have hn : ¬ s.userInputCounter < s.userInputMax := by omega
  rcases monitorState_cases T tbl s k t with e | e | ⟨_, e⟩ | ⟨_, e⟩ | ⟨_, e⟩ <;> rw [e]
  · exact ⟨rfl, rfl⟩
  · exact ⟨rfl, rfl⟩
  · refine ⟨?_, ?_⟩
    · show (keyDownTick s _).userInputCounter = _
      rw [keyDownTick_counter]; simp [hn]
    · show (keyDownTick s _).userInput = _
      rw [keyDownTick_userInput]; simp [hn]
  · refine ⟨?_, ?_⟩
    · show (keyUpTick s).userInputCounter = _
      rw [keyUpTick_counter]; simp [hn]
    · show (keyUpTick s).userInput = _
      rw [keyUpTick_userInput]; simp [hn]
  · exact ⟨(decodeTick_samples T tbl s).1, (decodeTick_samples T tbl s).2.1⟩

/-! ## The sampler: sequences of calls -/

theorem Call.apply_userInputMax (T : Target) (tbl : Nat → Char) (s : Decoder) (c : Call) :
    (c.apply T tbl s).userInputMax = s.userInputMax := by
  cases c with
  | monitor k t => exact monitorState_userInputMax T tbl s k t
  | acknowledge => rfl
  | setUpperLimit v => rfl
  | setDebounce v => rfl
  | setFinishedTyping v => rfl

theorem Call.apply_counter_le (T : Target) (tbl : Nat → Char) (s : Decoder) (c : Call)
    (h : s.userInputCounter ≤ s.userInputMax) :
    (c.apply T tbl s).userInputCounter ≤ s.userInputMax := by
  cases c with
  | monitor k t => exact monitorState_counter_le T tbl s k t h
  | acknowledge => exact Nat.zero_le _
  | setUpperLimit v => exact h
  | setDebounce v => exact h
  | setFinishedTyping v => exact h

theorem runCalls_capacity (T : Target) (tbl : Nat → Char) (cs : List Call) :
    ∀ s : Decoder, s.userInputCounter ≤ s.userInputMax →
      (runCalls T tbl s cs).userInputMax = s.userInputMax
      ∧ (runCalls T tbl s cs).userInputCounter ≤ s.userInputMax := by
  induction cs with
  | nil => intro s h; exact ⟨rfl, h⟩
  | cons c cs ih =>
    intro s h
    have h1 := Call.apply_userInputMax T tbl s c
    have h2 := Call.apply_counter_le T tbl s c h
    have := ih (c.apply T tbl s) (by rw [h1]; exact h2)
    rw [h1] at this
    exact this

theorem poke_debounced (s : Decoder) (v : Nat) (h : Debounced s) (hv : s.debounceIntervalMs < v) :
    ∀ j, j < u16 (s.userInputCounter + 1) →
      s.debounceIntervalMs < poke s.userInput s.userInputCounter v j := by
  intro j hj
  have := u16_le (s.userInputCounter + 1)
  unfold poke
  by_cases e : j = s.userInputCounter
  · simp [e, hv]
  · simp only [e, if_false]
    exact h j (by omega)

theorem monitorState_debounced (T : Target) (tbl : Nat → Char) (s : Decoder) (k : Bool)
    (t : Int) (h : Debounced s) : Debounced (monitorState T tbl s k t) := by
  intro j hj
  rw [monitorState_debounce]
  rcases monitorState_cases T tbl s k t with e | e | ⟨_, e⟩ | ⟨_, e⟩ | ⟨_, e⟩ <;> rw [e] at hj ⊢
  · exact h j hj
  · exact h j hj
  · change j < (keyDownTick s _).userInputCounter at hj
    show _ < (keyDownTick s _).userInput j
    rw [keyDownTick_counter] at hj
    rw [keyDownTick_userInput]
    split at hj
    · rename_i hc
      rw [if_pos hc]
      exact poke_debounced s _ h hc.1 j hj
    · rename_i hc
      rw [if_neg hc]
      exact h j hj
  · change j < (keyUpTick s).userInputCounter at hj
    show _ < (keyUpTick s).userInput j
    rw [keyUpTick_counter] at hj
    rw [keyUpTick_userInput]
    split at hj
    · rename_i hc
      rw [if_pos hc]
      exact poke_debounced s _ h hc.1 j hj
    · rename_i hc
      rw [if_neg hc]
      exact h j hj
  · change j < (decodeTick T tbl s).userInputCounter at hj
    show _ < (decodeTick T tbl s).userInput j
    rw [(decodeTick_samples T tbl s).1] at hj
    rw [(decodeTick_samples T tbl s).2.1]
    exact h j hj

theorem runCalls_debounced (T : Target) (tbl : Nat → Char) (cs : List Call) :
    ∀ s : Decoder, Debounced s → (∀ c ∈ cs, c.isSetDebounce = false) →
      (runCalls T tbl s cs).debounceIntervalMs = s.debounceIntervalMs
      ∧ Debounced (runCalls T tbl s cs) := by
  induction cs with
  | nil => intro s h _; exact ⟨rfl, h⟩
  | cons c cs ih =>
    intro s h hcs
    have hc := hcs c (List.mem_cons_self _ _)
    have htl : ∀ c' ∈ cs, c'.isSetDebounce = false :=
      fun c' hc' => hcs c' (List.mem_cons_of_mem _ hc')
    have step : (c.apply T tbl s).debounceIntervalMs = s.debounceIntervalMs
        ∧ Debounced (c.apply T tbl s) := by
      cases c with
      | monitor k t =>
        exact ⟨monitorState_debounce T tbl s k t, monitorState_debounced T tbl s k t h⟩
      | acknowledge => exact ⟨rfl, fun j hj => absurd hj (Nat.not_lt_zero j)⟩
      | setUpperLimit v => exact ⟨rfl, h⟩
      | setDebounce v => simp [Call.isSetDebounce] at hc
      | setFinishedTyping v => exact ⟨rfl, h⟩
    have := ih (c.apply T tbl s) step.2 htl
    rw [step.1] at this
    exact this

/-- A tick whose run counter does not exceed the debounce interval writes no
sample. -/
theorem monitorState_absorbs (T : Target) (tbl : Nat → Char) (s : Decoder) (k : Bool) (t : Int)
    (h : if k then s.keyReleaseCounterMs ≤ s.debounceIntervalMs
         else s.keyHoldCounterMs ≤ s.debounceIntervalMs) :
    (monitorState T tbl s k t).userInputCounter = s.userInputCounter
    ∧ (monitorState T tbl s k t).userInput = s.userInput := by
  rcases monitorState_cases T tbl s k t with e | e | ⟨hk, e⟩ | ⟨hk, e⟩ | ⟨_, e⟩ <;> rw [e]
  · exact ⟨rfl, rfl⟩
  · exact ⟨rfl, rfl⟩
  · subst hk
    simp only [if_true] at h
    have hn : ¬ s.debounceIntervalMs < s.keyReleaseCounterMs := by omega
    refine ⟨?_, ?_⟩
    · show (keyDownTick s _).userInputCounter = _
      rw [keyDownTick_counter]; simp [hn]
    · show (keyDownTick s _).userInput = _
      rw [keyDownTick_userInput]; simp [hn]
  · subst hk
    simp only [Bool.false_eq_true, if_false] at h
    have hn : ¬ s.debounceIntervalMs < s.keyHoldCounterMs := by omega
    refine ⟨?_, ?_⟩
    · show (keyUpTick s).userInputCounter = _
      rw [keyUpTick_counter]; simp [hn]
    · show (keyUpTick s).userInput = _
      rw [keyUpTick_userInput]; simp [hn]
  · exact ⟨(decodeTick_samples T tbl s).1, (decodeTick_samples T tbl s).2.1⟩

/-! ## The claims about the sampler -/

/-- C2: in every state reachable from construction with capacity `userInputMax`
by calls of `monitorUserInput`, `acknowledgeMessage` and the setters,
`userInputCounter ≤ userInputMax`; and when `userInputCounter = userInputMax`
a further tick leaves the count and the stored samples unchanged. -/
theorem sample_capacity_safety (T : Target) (tbl : Nat → Char) (raw : Decoder)
    (userInputMax decodedMessageMax : Nat) (cs : List Call) :
    (runCalls T tbl (construct T raw userInputMax decodedMessageMax) cs).userInputMax
        = u16 userInputMax
    ∧ (runCalls T tbl (construct T raw userInputMax decodedMessageMax) cs).userInputCounter
        ≤ u16 userInputMax
    ∧ ∀ (k : Bool) (t : Int),
        (runCalls T tbl (construct T raw userInputMax decodedMessageMax) cs).userInputCounter
            = u16 userInputMax →
        (monitorUserInput T tbl
            (runCalls T tbl (construct T raw userInputMax decodedMessageMax) cs)
            k t).1.userInputCounter = u16 userInputMax
        ∧ (monitorUserInput T tbl
            (runCalls T tbl (construct T raw userInputMax decodedMessageMax) cs) k t).1.userInput
          = (runCalls T tbl (construct T raw userInputMax decodedMessageMax) cs).userInput := by
  have h := runCalls_capacity T tbl cs (construct T raw userInputMax decodedMessageMax)
    (Nat.zero_le _)
  refine ⟨h.1, h.2, ?_⟩
  intro k t hfull
  have := monitorState_full T tbl _ k t (hfull.trans h.1.symm)
  exact ⟨this.1.trans hfull, this.2⟩

/-- Witness of C2: with capacity 1 and one committed hold the buffer is full,
and the next key-down tick commits nothing. -/
theorem sample_capacity_safety_witness :
    (runCalls .avr sampleAlphabet (construct .avr zeroStorage 1 4)
        [.setDebounce 0, .monitor true 1, .monitor false 2]).userInputCounter = u16 1
    ∧ (monitorUserInput .avr sampleAlphabet
        (runCalls .avr sampleAlphabet (construct .avr zeroStorage 1 4)
          [.setDebounce 0, .monitor true 1, .monitor false 2]) true 3).1.userInputCounter = u16 1
    ∧ (monitorUserInput .avr sampleAlphabet
        (runCalls .avr sampleAlphabet (construct .avr zeroStorage 1 4)
          [.setDebounce 0, .monitor true 1, .monitor false 2]) true 3).1.userInput
      = (runCalls .avr sampleAlphabet (construct .avr zeroStorage 1 4)
          [.setDebounce 0, .monitor true 1, .monitor false 2]).userInput :=
  ⟨by decide,
   (sample_capacity_safety .avr sampleAlphabet zeroStorage 1 4
      [.setDebounce 0, .monitor true 1, .monitor false 2]).2.2 true 3 (by decide)⟩

/-- C4: with the debounce interval set once and then left alone, every
committed sample of every reachable state is strictly longer than
`debounceIntervalMs`; and a tick that finds the run counter of the other phase
at or below `debounceIntervalMs` writes nothing to the sample buffer. -/
theorem debounce_filtering (T : Target) (tbl : Nat → Char) (raw : Decoder)
    (userInputMax decodedMessageMax debounce : Nat) (cs : List Call)
    (hcs : ∀ c ∈ cs, c.isSetDebounce = false) :
    (runCalls T tbl
        (setDebounceIntervalMs (construct T raw userInputMax decodedMessageMax) debounce)
        cs).debounceIntervalMs = u8 debounce
    ∧ (∀ j, j < (runCalls T tbl
          (setDebounceIntervalMs (construct T raw userInputMax decodedMessageMax) debounce)
          cs).userInputCounter →
        u8 debounce < (runCalls T tbl
          (setDebounceIntervalMs (construct T raw userInputMax decodedMessageMax) debounce)
          cs).userInput j)
    ∧ ∀ (s : Decoder) (k : Bool) (t : Int),
        (if k then s.keyReleaseCounterMs ≤ s.debounceIntervalMs
         else s.keyHoldCounterMs ≤ s.debounceIntervalMs) →
        (monitorUserInput T tbl s k t).1.userInputCounter = s.userInputCounter
        ∧ (monitorUserInput T tbl s k t).1.userInput = s.userInput := by
  have h := runCalls_debounced T tbl cs
    (setDebounceIntervalMs (construct T raw userInputMax decodedMessageMax) debounce)
    (fun j hj => absurd hj (Nat.not_lt_zero j)) hcs
  refine ⟨h.1, ?_, ?_⟩
  · intro j hj
    have := h.2 j hj
    rw [h.1] at this
    exact this
  · intro s k t hk
    exact monitorState_absorbs T tbl s k t hk

/-- Witness of C4: a hold of 3 ms with a debounce interval of 2 ms is committed
and exceeds the interval, and a key-up tick after a hold of 1 ms writes
nothing. -/
theorem debounce_filtering_witness :
    (∀ c ∈ [Call.monitor true 1, .monitor true 2, .monitor true 3, .monitor false 4],
        c.isSetDebounce = false)
    ∧ (runCalls .avr sampleAlphabet (setDebounceIntervalMs (construct .avr zeroStorage 4 4) 2)
        [.monitor true 1, .monitor true 2, .monitor true 3, .monitor false 4]).userInputCounter = 1
    ∧ u8 2 < (runCalls .avr sampleAlphabet
        (setDebounceIntervalMs (construct .avr zeroStorage 4 4) 2)
        [.monitor true 1, .monitor true 2, .monitor true 3, .monitor false 4]).userInput 0
    ∧ (monitorUserInput .avr sampleAlphabet
        (runCalls .avr sampleAlphabet (construct .avr zeroStorage 4 4) [.monitor true 1])
        false 2).1.userInputCounter
      = (runCalls .avr sampleAlphabet (construct .avr zeroStorage 4 4)
          [.monitor true 1]).userInputCounter :=
  ⟨by decide, by decide,
   (debounce_filtering .avr sampleAlphabet zeroStorage 4 4 2
      [.monitor true 1, .monitor true 2, .monitor true 3, .monitor false 4]
      (by decide)).2.1 0 (by decide),
   ((debounce_filtering .avr sampleAlphabet zeroStorage 4 4 2 [] (by decide)).2.2
      (runCalls .avr sampleAlphabet (construct .avr zeroStorage 4 4) [.monitor true 1])
      false 2 (by decide)).1⟩

/-- C5: a second `monitorUserInput` call with the timestamp of the call before
it changes no member and returns the value the first call returned, whatever
the two key values are; and a call whose timestamp equals `lastMillis` leaves
the state as it is and returns `newMessageReady`. -/
theorem tick_idempotent_per_timestamp (T : Target) (tbl : Nat → Char) (s : Decoder) (t : Int)
    (k1 k2 : Bool) :
    monitorUserInput T tbl (monitorUserInput T tbl s k1 t).1 k2 t = monitorUserInput T tbl s k1 t
    ∧ monitorUserInput T tbl { s with lastMillis := toULong T t } k2 t
        = ({ s with lastMillis := toULong T t }, s.newMessageReady) := by
  constructor
  · simp only [monitorUserInput]
    rw [monitorState_skip T tbl _ k2 t (monitorState_lastMillis T tbl s k1 t).symm]
  · simp only [monitorUserInput]
    rw [monitorState_skip T tbl _ k2 t rfl]

/-- C6: `acknowledgeMessage` clears `newMessageReady`, sets `userInputCounter`
to 0, leaves every other member unchanged, and is idempotent. -/
theorem acknowledgeMessage_effect (s : Decoder) :
    (acknowledgeMessage s).newMessageReady = false
    ∧ (acknowledgeMessage s).userInputCounter = 0
    ∧ (acknowledgeMessage s).decodedMessage = s.decodedMessage
    ∧ (acknowledgeMessage s).newMessageIndex = s.newMessageIndex
    ∧ (acknowledgeMessage s).decodedMessageMax = s.decodedMessageMax
    ∧ (acknowledgeMessage s).messageDecoded = s.messageDecoded
    ∧ (acknowledgeMessage s).timeUnitUpperLimitMs = s.timeUnitUpperLimitMs
    ∧ (acknowledgeMessage s).debounceIntervalMs = s.debounceIntervalMs
    ∧ (acknowledgeMessage s).finishedTypingMs = s.finishedTypingMs
    ∧ (acknowledgeMessage s).userInput = s.userInput
    ∧ (acknowledgeMessage s).userInputMax = s.userInputMax
    ∧ (acknowledgeMessage s).lastMillis = s.lastMillis
    ∧ (acknowledgeMessage s).lastUserInputMs = s.lastUserInputMs
    ∧ (acknowledgeMessage s).keyHoldCounterMs = s.keyHoldCounterMs
    ∧ (acknowledgeMessage s).lowestInputHoldMs = s.lowestInputHoldMs
    ∧ (acknowledgeMessage s).highestInputHoldMs = s.highestInputHoldMs
    ∧ (acknowledgeMessage s).keyReleaseCounterMs = s.keyReleaseCounterMs
    ∧ (acknowledgeMessage s).lowestInputReleaseMs = s.lowestInputReleaseMs
    ∧ (acknowledgeMessage s).listening = s.listening
    ∧ acknowledgeMessage (acknowledgeMessage s) = acknowledgeMessage s :=
  ⟨rfl, rfl, rfl, rfl, rfl, rfl, rfl, rfl, rfl, rfl, rfl, rfl, rfl, rfl, rfl, rfl, rfl, rfl, rfl,
   rfl⟩

/-- C7 at the failing input: a decoder constructed in storage whose
`newMessageReady` byte is set returns `true` from its very first
`monitorUserInput` call, although that call changes nothing but `lastMillis`
and no message was ever decoded. -/
theorem ready_before_any_decode (T : Target) (tbl : Nat → Char) :
    monitorUserInput T tbl (construct T dirtyStorage 16 16) false 0
      = ({ construct T dirtyStorage 16 16 with lastMillis := 0 }, true) := by
  cases T <;> rfl

/-- C8: on a `monitorUserInput` call with a new timestamp, the decoder runs and
`newMessageReady` is set exactly when the key is up, the time since
`lastUserInputMs` exceeds `finishedTypingMs` and `messageDecoded` is false: in
that case the call is the decode branch, and in every other case it leaves
`newMessageReady`, the decoded message and its size as they were.  A key-down
tick is the key-down branch, and a key-up tick at exactly `finishedTypingMs`
is the key-up branch, which increments the release counter. -/
theorem end_of_message_detection (T : Target) (tbl : Nat → Char) (s : Decoder) (k : Bool)
    (t : Int) (hnew : toULong T t ≠ s.lastMillis) :
    ((k = false ∧ s.finishedTypingMs < subULong T (toULong T t) s.lastUserInputMs
        ∧ s.messageDecoded = false) →
      monitorUserInput T tbl s k t
        = ({ decodeTick T tbl s with lastMillis := toULong T t }, true))
    ∧ (¬ (k = false ∧ s.finishedTypingMs < subULong T (toULong T t) s.lastUserInputMs
          ∧ s.messageDecoded = false) →
        (monitorUserInput T tbl s k t).1.newMessageReady = s.newMessageReady
        ∧ (monitorUserInput T tbl s k t).1.decodedMessage = s.decodedMessage
        ∧ (monitorUserInput T tbl s k t).1.newMessageIndex = s.newMessageIndex)
    ∧ (k = true →
        (monitorUserInput T tbl s k t).1
          = { keyDownTick s (toULong T t) with lastMillis := toULong T t })
    ∧ ((k = false ∧ subULong T (toULong T t) s.lastUserInputMs = s.finishedTypingMs) →
        (monitorUserInput T tbl s k t).1 = { keyUpTick s with lastMillis := toULong T t }
        ∧ (monitorUserInput T tbl s k t).1.keyReleaseCounterMs
            = u16 (s.keyReleaseCounterMs + 1)) := by
  refine ⟨?_, ?_, ?_, ?_⟩
  · rintro ⟨hk, hty, hmd⟩
    subst hk
    simp only [monitorUserInput]
    rw [monitorState_decode T tbl s t hnew hty hmd]
    rfl
  · intro hnot
    simp only [monitorUserInput]
    cases k with
    | true =>
      rw [monitorState_keyDown T tbl s t hnew]
      have := keyDownTick_config s (toULong T t)
      exact ⟨this.2.2.1, this.2.2.2.1, this.2.2.2.2⟩
    | false =>
      by_cases hty : subULong T (toULong T t) s.lastUserInputMs ≤ s.finishedTypingMs
      · rw [monitorState_keyUp T tbl s t hnew hty]
        have := keyUpTick_config s
        exact ⟨this.2.2.1, this.2.2.2.1, this.2.2.2.2⟩
      · have hty' := Nat.not_le.mp hty
        by_cases hmd : s.messageDecoded = true
        · rw [monitorState_idle T tbl s t hnew hty' hmd]
          exact ⟨rfl, rfl, rfl⟩
        · exact absurd ⟨rfl, hty', by simpa using hmd⟩ hnot
  · intro hk
    subst hk
    simp only [monitorUserInput]
    exact monitorState_keyDown T tbl s t hnew
  · rintro ⟨hk, hty⟩
    subst hk
    simp only [monitorUserInput]
    rw [monitorState_keyUp T tbl s t hnew (Nat.le_of_eq hty)]
    refine ⟨rfl, ?_⟩
    show (keyUpTick s).keyReleaseCounterMs = _
    unfold keyUpTick
    split <;> rfl

/-- Witness of C8: with `finishedTypingMs = 1`, a key-up tick 2 ms after the
last key-down tick decodes, and a key-up tick 1 ms after it still counts as
typing. -/
theorem end_of_message_detection_witness :
    (toULong .avr 3 ≠ (runCalls .avr sampleAlphabet (construct .avr zeroStorage 4 4)
        [.setDebounce 0, .setFinishedTyping 1, .monitor true 1, .monitor false 2]).lastMillis
      ∧ monitorUserInput .avr sampleAlphabet
          (runCalls .avr sampleAlphabet (construct .avr zeroStorage 4 4)
            [.setDebounce 0, .setFinishedTyping 1, .monitor true 1, .monitor false 2]) false 3
        = ({ decodeTick .avr sampleAlphabet
              (runCalls .avr sampleAlphabet (construct .avr zeroStorage 4 4)
                [.setDebounce 0, .setFinishedTyping 1, .monitor true 1, .monitor false 2]) with
             lastMillis := toULong .avr 3 }, true))
    ∧ (toULong .avr 2 ≠ (runCalls .avr sampleAlphabet (construct .avr zeroStorage 4 4)
        [.setDebounce 0, .setFinishedTyping 1, .monitor true 1]).lastMillis
      ∧ (monitorUserInput .avr sampleAlphabet
          (runCalls .avr sampleAlphabet (construct .avr zeroStorage 4 4)
            [.setDebounce 0, .setFinishedTyping 1, .monitor true 1]) false 2).1.keyReleaseCounterMs
        = u16 ((runCalls .avr sampleAlphabet (construct .avr zeroStorage 4 4)
            [.setDebounce 0, .setFinishedTyping 1, .monitor true 1]).keyReleaseCounterMs + 1)) :=
  ⟨⟨by decide,
    (end_of_message_detection .avr sampleAlphabet
      (runCalls .avr sampleAlphabet (construct .avr zeroStorage 4 4)
        [.setDebounce 0, .setFinishedTyping 1, .monitor true 1, .monitor false 2])
      false 3 (by decide)).1 ⟨rfl, by decide, by decide⟩⟩,
   ⟨by decide,
    ((end_of_message_detection .avr sampleAlphabet
      (runCalls .avr sampleAlphabet (construct .avr zeroStorage 4 4)
        [.setDebounce 0, .setFinishedTyping 1, .monitor true 1])
      false 2 (by decide)).2.2.2 ⟨rfl, by decide⟩).2⟩⟩

theorem decodeCond_iff (s : Decoder) (l : Locals) :
    decodeCond s l = true ↔ l.i < s.userInputCounter ∧ s.newMessageIndex < s.decodedMessageMax := by
  simp [decodeCond]

theorem decodeBody_step (T : Target) (tbl : Nat → Char) (s : Decoder) (l : Locals)
    (inv : LoopInv s l) (hc : decodeCond s l = true) :
    LoopInv (decodeBody T tbl s l).1 (decodeBody T tbl s l).2
    ∧ loopMeasure (decodeBody T tbl s l).1 (decodeBody T tbl s l).2 < loopMeasure s l
    ∧ SameOutside s (decodeBody T tbl s l).1
    ∧ (decodeBody T tbl s l).1.decodedMessageMax = s.decodedMessageMax := by
  obtain ⟨hev, hcnt, hcap, hidx⟩ := inv
  rw [decodeCond_iff] at hc
  obtain ⟨hi, hn⟩ := hc
  have hi2 : l.i ≤ 65534 := by omega
  unfold decodeBody
  by_cases hcl : closesChar T s l = true
  · simp only [hcl, if_true]
    have h1 : u16 (s.newMessageIndex + 1) = s.newMessageIndex + 1 := by
      unfold u16; omega
    by_cases hsp : emitsSpace T
        { s with
          decodedMessage := poke s.decodedMessage (s.newMessageIndex : Int)
            (tbl (lookupCode T s l))
          newMessageIndex := u16 (s.newMessageIndex + 1) } l = true
    · simp only [hsp, if_true]
      have hlt : s.newMessageIndex + 1 < s.decodedMessageMax := by
        simp only [emitsSpace, Bool.and_eq_true, decide_eq_true_eq, h1] at hsp
        exact hsp.1.2
      have h2 : u16 (s.newMessageIndex + 1 + 1) = s.newMessageIndex + 2 := by
        unfold u16; omega
      refine ⟨⟨?_, hcnt, hcap, ?_⟩, ?_, ?_, by trivial⟩
      · show u16 (l.i + 2) % 2 = 0
        unfold u16; omega
      · show u16 (u16 (s.newMessageIndex + 1) + 1) ≤ s.decodedMessageMax
        rw [h1, h2]; omega
      · show (s.decodedMessageMax - u16 (u16 (s.newMessageIndex + 1) + 1)) * 32768
            + (65536 - u16 (l.i + 2)) / 2 < _
        rw [h1, h2]
        unfold loopMeasure u16
        omega
      · intro j hj
        show poke (poke s.decodedMessage _ _) _ _ j = _
        rw [h1]
        unfold poke
        have e1 : ¬ j = ((s.newMessageIndex + 1 : Nat) : Int) := by omega
        have e2 : ¬ j = (s.newMessageIndex : Int) := by omega
        simp only [e1, e2, if_false]
    · simp only [hsp]
      refine ⟨⟨?_, hcnt, hcap, ?_⟩, ?_, ?_, by trivial⟩
      · show u16 (l.i + 2) % 2 = 0
        unfold u16; omega
      · show u16 (s.newMessageIndex + 1) ≤ s.decodedMessageMax
        rw [h1]; omega
      · show (s.decodedMessageMax - u16 (s.newMessageIndex + 1)) * 32768
            + (65536 - u16 (l.i + 2)) / 2 < _
        rw [h1]
        unfold loopMeasure u16
        omega
      · intro j hj
        show poke s.decodedMessage _ _ j = _
        unfold poke
        have e2 : ¬ j = (s.newMessageIndex : Int) := by omega
        simp only [e2, if_false]
  · simp only [hcl]
    have hne : l.i + 1 ≠ s.userInputCounter := by
      intro e
      apply hcl
      simp only [closesChar, Bool.or_eq_true, decide_eq_true_eq]
      left; left; omega
    refine ⟨⟨?_, hcnt, hcap, hidx⟩, ?_, ?_, by trivial⟩
    · show u16 (l.i + 2) % 2 = 0
      unfold u16; omega
    · show (s.decodedMessageMax - s.newMessageIndex) * 32768 + (65536 - u16 (l.i + 2)) / 2 < _
      unfold loopMeasure u16
      omega
    · intro j _; rfl

theorem decodeLoop_exits (T : Target) (tbl : Nat → Char) (fuel : Nat) :
    ∀ (s : Decoder) (l : Locals), LoopInv s l → loopMeasure s l ≤ fuel →
      decodeCond (decodeLoop T tbl fuel s l).1 (decodeLoop T tbl fuel s l).2 = false
      ∧ (decodeLoop T tbl fuel s l).1.newMessageIndex ≤ s.decodedMessageMax
      ∧ SameOutside s (decodeLoop T tbl fuel s l).1
      ∧ (decodeLoop T tbl fuel s l).1.decodedMessageMax = s.decodedMessageMax := by
  induction fuel with
  | zero =>
    intro s l inv hm
    refine ⟨?_, inv.index, fun j _ => rfl, rfl⟩
    show decodeCond s l = false
    rw [Bool.eq_false_iff]
    intro hc
    rw [decodeCond_iff] at hc
    have := inv.counter
    unfold loopMeasure at hm
    omega
  | succ fuel ih =>
    intro s l inv hm
    unfold decodeLoop
    by_cases hc : decodeCond s l = true
    · simp only [hc, if_true]
      obtain ⟨inv', hlt, hout, hmax⟩ := decodeBody_step T tbl s l inv hc
      obtain ⟨a, b, c, d⟩ := ih _ _ inv' (by omega)
      refine ⟨a, by rw [← hmax]; exact b, ?_, d.trans hmax⟩
      intro j hj
      rw [c j (by rw [hmax]; exact hj), hout j hj]
    · simp only [hc]
      exact ⟨by simpa using hc, inv.index, fun j _ => rfl, rfl⟩

theorem correctLowestHold_fields (T : Target) (s : Decoder) :
    (correctLowestHold T s).decodedMessageMax = s.decodedMessageMax
    ∧ (correctLowestHold T s).userInputCounter = s.userInputCounter
    ∧ (correctLowestHold T s).decodedMessage = s.decodedMessage
    ∧ (correctLowestHold T s).userInput = s.userInput
    ∧ (correctLowestHold T s).lowestInputReleaseMs = s.lowestInputReleaseMs := by
  unfold correctLowestHold
  split <;> exact ⟨rfl, rfl, rfl, rfl, rfl⟩

/-- The loop of `decodeMessage()` is left regularly, with the output index
within the capacity and nothing stored outside the buffer. -/
theorem decodeScan_exits (T : Target) (tbl : Nat → Char) (s : Decoder)
    (hcap : s.decodedMessageMax ≤ 65535) (hcnt : s.userInputCounter ≤ 65535) :
    decodeCond (decodeScan T tbl s).1 (decodeScan T tbl s).2 = false
    ∧ (decodeScan T tbl s).1.newMessageIndex ≤ s.decodedMessageMax
    ∧ SameOutside s (decodeScan T tbl s).1
    ∧ (decodeScan T tbl s).1.decodedMessageMax = s.decodedMessageMax := by
  obtain ⟨f1, f2, f3, _, _⟩ := correctLowestHold_fields T s
  have inv : LoopInv { correctLowestHold T s with newMessageIndex := 0 }
      { i := 0, charBuilderIndex := 5, charBuilder := 0 } :=
    ⟨rfl, by show (correctLowestHold T s).userInputCounter ≤ _; rw [f2]; exact hcnt,
     by show (correctLowestHold T s).decodedMessageMax ≤ _; rw [f1]; exact hcap,
     Nat.zero_le _⟩
  have hm : loopMeasure { correctLowestHold T s with newMessageIndex := 0 }
      { i := 0, charBuilderIndex := 5, charBuilder := 0 }
      ≤ decodeFuel { correctLowestHold T s with newMessageIndex := 0 } := by
    unfold loopMeasure decodeFuel
    simp only []
    omega
  obtain ⟨a, b, c, d⟩ := decodeLoop_exits T tbl _ _ _ inv hm
  refine ⟨a, Nat.le_trans b (Nat.le_of_eq f1), ?_, d.trans f1⟩
  intro j hj
  have hj' : j < 0 ∨ ((correctLowestHold T s).decodedMessageMax : Int) ≤ j := by
    rw [f1]; exact hj
  exact (c j hj').trans (congrFun f3 j)

/-- C3: for every output capacity `1 ≤ decodedMessageMax` and every content of
the sample buffer and of the trackers, the loop of `decodeMessage()` is left
regularly, the decoded length is at most `decodedMessageMax - 1`, no cell
outside `[0, decodedMessageMax)` is written, and the cell at the decoded
length holds the terminator. -/
theorem output_capacity_safety (T : Target) (tbl : Nat → Char) (s : Decoder)
    (hpos : 1 ≤ s.decodedMessageMax) (hcap : s.decodedMessageMax ≤ 65535)
    (hcnt : s.userInputCounter ≤ 65535) :
    decodeCond (decodeScan T tbl s).1 (decodeScan T tbl s).2 = false
    ∧ getDecodedMessageSize (decodeMessage T tbl s) ≤ s.decodedMessageMax - 1
    ∧ getDecodedMessage (decodeMessage T tbl s)
        (getDecodedMessageSize (decodeMessage T tbl s)) = Char.ofNat 0
    ∧ ∀ j : Int, (j < 0 ∨ (s.decodedMessageMax : Int) ≤ j) →
        getDecodedMessage (decodeMessage T tbl s) j = s.decodedMessage j := by
  obtain ⟨a, b, c, d⟩ := decodeScan_exits T tbl s hcap hcnt
  refine ⟨a, ?_⟩
  unfold getDecodedMessageSize getDecodedMessage decodeMessage terminate
  by_cases hlt : (decodeScan T tbl s).1.newMessageIndex < (decodeScan T tbl s).1.decodedMessageMax
  · simp only [hlt, if_true]
    refine ⟨by omega, by simp [poke], ?_⟩
    intro j hj
    rw [← c j hj]
    unfold poke
    have : ¬ j = ((decodeScan T tbl s).1.newMessageIndex : Int) := by omega
    simp only [this, if_false]
  · simp only [hlt, if_false]
    have e : (decodeScan T tbl s).1.newMessageIndex = s.decodedMessageMax := by omega
    have h1 : u16 ((decodeScan T tbl s).1.newMessageIndex + 65535) = s.decodedMessageMax - 1 := by
      rw [e]; unfold u16; omega
    rw [h1]
    refine ⟨le_refl _, ?_, ?_⟩
    · unfold poke
      have : ((s.decodedMessageMax - 1 : Nat) : Int)
          = ((decodeScan T tbl s).1.newMessageIndex : Int) - 1 := by omega
      simp [this]
    · intro j hj
      rw [← c j hj]
      unfold poke
      have : ¬ j = ((decodeScan T tbl s).1.newMessageIndex : Int) - 1 := by omega
      simp only [this, if_false]

theorem packCode_eq_spec (T : Target) (symbols : List Bool) (h1 : 1 ≤ symbols.length)
    (h5 : symbols.length ≤ 5) : packCode T symbols = specLookupCode symbols := by
  match symbols, h1, h5 with
  | [a], _, _ => cases T <;> cases a <;> rfl
  | [a, b], _, _ => cases T <;> cases a <;> cases b <;> rfl
  | [a, b, c], _, _ => cases T <;> cases a <;> cases b <;> cases c <;> rfl
  | [a, b, c, d], _, _ => cases T <;> cases a <;> cases b <;> cases c <;> cases d <;> rfl
  | [a, b, c, d, e], _, _ =>
    cases T <;> cases a <;> cases b <;> cases c <;> cases d <;> cases e <;> rfl
  | _ :: _ :: _ :: _ :: _ :: _ :: _, _, h => simp at h

/-! ## The loop of `decodeMessage()`, character by character -/

theorem decodeLoop_succ (T : Target) (tbl : Nat → Char) (fuel : Nat) (s : Decoder) (l : Locals) :
    decodeLoop T tbl (fuel + 1) s l
      = if decodeCond s l then
          decodeLoop T tbl fuel (decodeBody T tbl s l).1 (decodeBody T tbl s l).2
        else (s, l) := rfl

theorem decodeLoop_stop (T : Target) (tbl : Nat → Char) (fuel : Nat) (s : Decoder) (l : Locals)
    (h : decodeCond s l = false) : decodeLoop T tbl fuel s l = (s, l) := by
  cases fuel with
  | zero => rfl
  | succ f => rw [decodeLoop_succ]; simp [h]

/-- Running `a + b` passes is running `a` passes and then `b` more. -/
theorem decodeLoop_add (T : Target) (tbl : Nat → Char) (a b : Nat) :
    ∀ (s : Decoder) (l : Locals),
      decodeLoop T tbl (a + b) s l
        = decodeLoop T tbl b (decodeLoop T tbl a s l).1 (decodeLoop T tbl a s l).2 := by
  induction a with
  | zero => intro s l; simp [decodeLoop]
  | succ a ih =>
    intro s l
    rw [Nat.add_right_comm, decodeLoop_succ, decodeLoop_succ]
    by_cases hc : decodeCond s l = true
    · simp only [hc, if_true]
      exact ih _ _
    · have hc' : decodeCond s l = false := by simpa using hc
      simp only [hc', Bool.false_eq_true, if_false]
      rw [decodeLoop_stop T tbl b s l hc']

theorem classifyBit_eq (T : Target) (s : Decoder) (l : Locals) :
    classifyBit T s l
      = setBit T l.charBuilderIndex l.charBuilder
          (decide (shl1 T s.lowestInputHoldMs < s.userInput l.i)) := by
  unfold classifyBit setBit
  by_cases h : shl1 T s.lowestInputHoldMs < s.userInput l.i <;> simp [h]

theorem lookupCode_eq (T : Target) (s : Decoder) (l : Locals) :
    lookupCode T s l
      = closeCode T l.charBuilderIndex l.charBuilder
          (decide (shl1 T s.lowestInputHoldMs < s.userInput l.i)) := by
  unfold lookupCode closeCode
  rw [classifyBit_eq]

theorem shl1_of_le (T : Target) (x : Nat) (h : 2 * x ≤ 65535) : shl1 T x = 2 * x := by
  unfold shl1 mulPromoted
  split
  · rfl
  · omega

theorem decodeBody_open (T : Target) (tbl : Nat → Char) (s : Decoder) (l : Locals)
    (h : closesChar T s l = false) :
    decodeBody T tbl s l
      = (s, { i := u16 (l.i + 2), charBuilderIndex := u8 (l.charBuilderIndex + 255),
              charBuilder := classifyBit T s l }) := by
  unfold decodeBody
  simp [h]

theorem closesChar_false (T : Target) (s : Decoder) (l : Locals)
    (h1 : l.i + 1 < s.userInputCounter)
    (h2 : s.userInput (l.i + 1) ≤ shl1 T s.lowestInputReleaseMs)
    (h3 : s.newMessageIndex < s.decodedMessageMax) : closesChar T s l = false := by
  unfold closesChar
  simp only [Bool.or_eq_false_iff, decide_eq_false_iff_not]
  refine ⟨⟨by omega, by omega⟩, by omega⟩

theorem closesChar_true (T : Target) (s : Decoder) (l : Locals)
    (h : l.i + 1 = s.userInputCounter
        ∨ shl1 T s.lowestInputReleaseMs < s.userInput (l.i + 1)) : closesChar T s l = true := by
  unfold closesChar
  simp only [Bool.or_eq_true, decide_eq_true_eq]
  rcases h with h | h
  · left; left; omega
  · left; right; exact h

/-- A run of holds inside a character: every pass writes one bit and moves on. -/
theorem decodeLoop_open (T : Target) (tbl : Nat → Char) (s : Decoder)
    (hcnt : s.userInputCounter ≤ 65535) (hroom : s.newMessageIndex < s.decodedMessageMax)
    (hlow : 2 * s.lowestInputHoldMs ≤ 65535) (holds : List Nat) :
    ∀ (p idx cb : Nat),
      (∀ j, j < holds.length → s.userInput (p + 2 * j) = holds.getD j 0) →
      (∀ j, j < holds.length → p + 2 * j + 1 < s.userInputCounter
          ∧ s.userInput (p + 2 * j + 1) ≤ shl1 T s.lowestInputReleaseMs) →
      decodeLoop T tbl holds.length s { i := p, charBuilderIndex := idx, charBuilder := cb }
        = (s, { i := p + 2 * holds.length,
                charBuilderIndex := (packOpen T idx cb (holds.map (symbolOf s))).1,
                charBuilder := (packOpen T idx cb (holds.map (symbolOf s))).2 }) := by
  induction holds with
  | nil => intro p idx cb _ _; rfl
  | cons h hs ih =>
    intro p idx cb hh ho
    have h0 := ho 0 (by simp)
    have hh0 := hh 0 (by simp)
    simp only [Nat.mul_zero, Nat.add_zero, List.getD_cons_zero] at h0 hh0
    have hcond : decodeCond s { i := p, charBuilderIndex := idx, charBuilder := cb } = true := by
      rw [decodeCond_iff]; exact ⟨by show p < _; omega, hroom⟩
    have hopen := closesChar_false T s { i := p, charBuilderIndex := idx, charBuilder := cb }
      h0.1 h0.2 hroom
    rw [List.length_cons, decodeLoop_succ, hcond, if_pos rfl, decodeBody_open T tbl s _ hopen]
    have hu : u16 (p + 2) = p + 2 := by unfold u16; omega
    simp only [hu, classifyBit_eq, shl1_of_le T _ hlow, hh0]
    rw [ih (p + 2) (u8 (idx + 255)) (setBit T idx cb (decide (2 * s.lowestInputHoldMs < h)))]
    · simp only [List.map_cons, packOpen, symbolOf]
      congr 2
      omega
    · intro j hj
      have := hh (j + 1) (by simp; omega)
      simp only [List.getD_cons_succ] at this
      rw [← this]; congr 1; omega
    · intro j hj
      have := ho (j + 1) (by simp; omega)
      have e : p + 2 + 2 * j + 1 = p + 2 * (j + 1) + 1 := by omega
      rw [e]; exact this

/-- The pass that ends a character stores the table entry of its lookup code
at the output index, resets the bit position to 5 and moves the output index
on. -/
theorem decodeBody_close (T : Target) (tbl : Nat → Char) (s : Decoder) (l : Locals)
    (h : closesChar T s l = true) (hroom : s.newMessageIndex < s.decodedMessageMax)
    (hcap : s.decodedMessageMax ≤ 65535) :
    (decodeBody T tbl s l).1.decodedMessage (s.newMessageIndex : Int) = tbl (lookupCode T s l)
    ∧ (decodeBody T tbl s l).2 = { i := u16 (l.i + 2), charBuilderIndex := 5, charBuilder := 0 }
    ∧ s.newMessageIndex < (decodeBody T tbl s l).1.newMessageIndex := by
  have h1 : u16 (s.newMessageIndex + 1) = s.newMessageIndex + 1 := by unfold u16; omega
  unfold decodeBody
  simp only [h, if_true]
  split
  · rename_i hsp
    have hlt : s.newMessageIndex + 1 < s.decodedMessageMax := by
      simp only [emitsSpace, Bool.and_eq_true, decide_eq_true_eq, h1] at hsp
      exact hsp.1.2
    have h2 : u16 (s.newMessageIndex + 1 + 1) = s.newMessageIndex + 2 := by unfold u16; omega
    refine ⟨?_, rfl, ?_⟩
    · show poke (poke s.decodedMessage _ _) _ _ _ = _
      rw [h1]
      unfold poke
      have e1 : ¬ (s.newMessageIndex : Int) = ((s.newMessageIndex + 1 : Nat) : Int) := by omega
      simp only [e1, if_false, if_true]
    · show _ < u16 (u16 (s.newMessageIndex + 1) + 1)
      rw [h1, h2]; omega
  · refine ⟨?_, rfl, ?_⟩
    · show poke s.decodedMessage _ _ _ = _
      unfold poke
      simp only [if_true]
    · show _ < u16 (s.newMessageIndex + 1)
      rw [h1]; omega

/-- C9: a character of `k` holds (`1 ≤ k ≤ 5`) that starts at sample `p` with
the bit position 5 and an empty `charBuilder` is looked up in the alphabet
table with the code `sum of s_j * 2 ^ (6 - j)`, plus `2 ^ (6 - k) - 1` when the
last symbol is a dot, where `s_j = 1` exactly when hold `j` is longer than
`2 * lowestInputHoldMs` (the value in force in the loop, without overflow of
the doubling).  The holds are `init` followed by `last`; the table entry is
stored at the output index and the loop variables are reset for the next
character. -/
theorem symbol_packing_and_padding (T : Target) (tbl : Nat → Char) (s : Decoder) (p : Nat)
    (init : List Nat) (last : Nat)
    (hk : init.length ≤ 4)
    (hlow : 2 * s.lowestInputHoldMs ≤ 65535)
    (hcnt : s.userInputCounter ≤ 65535)
    (hcap : s.decodedMessageMax ≤ 65535)
    (hroom : s.newMessageIndex < s.decodedMessageMax)
    (hinit : ∀ j, j < init.length → s.userInput (p + 2 * j) = init.getD j 0)
    (hopen : ∀ j, j < init.length → p + 2 * j + 1 < s.userInputCounter
        ∧ s.userInput (p + 2 * j + 1) ≤ shl1 T s.lowestInputReleaseMs)
    (hlast : s.userInput (p + 2 * init.length) = last)
    (hin : p + 2 * init.length < s.userInputCounter)
    (hclose : p + 2 * init.length + 1 = s.userInputCounter
        ∨ shl1 T s.lowestInputReleaseMs < s.userInput (p + 2 * init.length + 1)) :
    lookupCode T s
        (decodeLoop T tbl init.length s { i := p, charBuilderIndex := 5, charBuilder := 0 }).2
      = specLookupCode ((init ++ [last]).map (symbolOf s))
    ∧ (decodeLoop T tbl (init.length + 1) s
        { i := p, charBuilderIndex := 5, charBuilder := 0 }).1.decodedMessage s.newMessageIndex
      = tbl (specLookupCode ((init ++ [last]).map (symbolOf s)))
    ∧ (decodeLoop T tbl (init.length + 1) s
        { i := p, charBuilderIndex := 5, charBuilder := 0 }).2
      = { i := u16 (p + 2 * (init.length + 1)), charBuilderIndex := 5, charBuilder := 0 }
    ∧ s.newMessageIndex
      < (decodeLoop T tbl (init.length + 1) s
          { i := p, charBuilderIndex := 5, charBuilder := 0 }).1.newMessageIndex := by
  have hrun := decodeLoop_open T tbl s hcnt hroom hlow init p 5 0 hinit hopen
  have hcode : lookupCode T s
      { i := p + 2 * init.length,
        charBuilderIndex := (packOpen T 5 0 (init.map (symbolOf s))).1,
        charBuilder := (packOpen T 5 0 (init.map (symbolOf s))).2 }
      = specLookupCode ((init ++ [last]).map (symbolOf s)) := by
    rw [lookupCode_eq, shl1_of_le T _ hlow]
    simp only [hlast]
    rw [← packCode_eq_spec T ((init ++ [last]).map (symbolOf s))
      (by simp) (by simp; omega)]
    unfold packCode
    simp [symbolOf, List.dropLast_concat]
  have hcl := closesChar_true T s
    { i := p + 2 * init.length,
      charBuilderIndex := (packOpen T 5 0 (init.map (symbolOf s))).1,
      charBuilder := (packOpen T 5 0 (init.map (symbolOf s))).2 } hclose
  have hcond : decodeCond s
      { i := p + 2 * init.length,
        charBuilderIndex := (packOpen T 5 0 (init.map (symbolOf s))).1,
        charBuilder := (packOpen T 5 0 (init.map (symbolOf s))).2 } = true := by
    rw [decodeCond_iff]; exact ⟨hin, hroom⟩
  obtain ⟨c1, c2, c3⟩ := decodeBody_close T tbl s _ hcl hroom hcap
  refine ⟨by rw [hrun]; exact hcode, ?_⟩
  rw [decodeLoop_add, hrun]
  simp only [decodeLoop_succ, hcond, if_true, decodeLoop]
  refine ⟨by rw [c1, hcode], ?_, c3⟩
  rw [c2]
  simp only [Locals.mk.injEq, and_true]
  congr 1

/-- Witness of C3: the samples of `SOS` decoded into a buffer of 3 cells give
a decoded length of at most 2 with the terminator at that index. -/
theorem output_capacity_safety_witness :
    (1 ≤ (loaded .avr sosSamples 50 150 50 3).decodedMessageMax
      ∧ (loaded .avr sosSamples 50 150 50 3).decodedMessageMax ≤ 65535
      ∧ (loaded .avr sosSamples 50 150 50 3).userInputCounter ≤ 65535)
    ∧ getDecodedMessageSize (decodeMessage .avr sampleAlphabet (loaded .avr sosSamples 50 150 50 3))
        ≤ 3 - 1
    ∧ getDecodedMessage (decodeMessage .avr sampleAlphabet (loaded .avr sosSamples 50 150 50 3))
        (getDecodedMessageSize
          (decodeMessage .avr sampleAlphabet (loaded .avr sosSamples 50 150 50 3)))
      = Char.ofNat 0 :=
  ⟨by decide,
   (output_capacity_safety .avr sampleAlphabet (loaded .avr sosSamples 50 150 50 3)
      (by decide) (by decide) (by decide)).2.1,
   (output_capacity_safety .avr sampleAlphabet (loaded .avr sosSamples 50 150 50 3)
      (by decide) (by decide) (by decide)).2.2.1⟩

/-- Witness of C9: the first character of `SOS`, three dots starting at sample
0, is looked up with the code `0b000111 = 7`. -/
theorem symbol_packing_and_padding_witness :
    ([50, 50].length ≤ 4
      ∧ 2 * (loaded .avr sosSamples 50 150 50 10).lowestInputHoldMs ≤ 65535
      ∧ (loaded .avr sosSamples 50 150 50 10).newMessageIndex
          < (loaded .avr sosSamples 50 150 50 10).decodedMessageMax
      ∧ specLookupCode (([50, 50] ++ [50]).map (symbolOf (loaded .avr sosSamples 50 150 50 10)))
          = 7)
    ∧ lookupCode .avr (loaded .avr sosSamples 50 150 50 10)
        (decodeLoop .avr sampleAlphabet [50, 50].length (loaded .avr sosSamples 50 150 50 10)
          { i := 0, charBuilderIndex := 5, charBuilder := 0 }).2
      = specLookupCode (([50, 50] ++ [50]).map (symbolOf (loaded .avr sosSamples 50 150 50 10))) :=
  ⟨by decide,
   (symbol_packing_and_padding .avr sampleAlphabet (loaded .avr sosSamples 50 150 50 10) 0
      [50, 50] 50 (by decide) (by decide) (by decide) (by decide) (by decide) (by decide)
      (by decide) (by decide) (by decide) (by decide)).1⟩

theorem LongShape.closing_pass (T : Target) (tbl : Nat → Char) (s : Decoder) (l : Locals)
    (hs : LongShape s) (hev : l.i % 2 = 0) (h2 : 2 ≤ l.i) (hi : l.i ≤ 65534)
    (hn : s.newMessageIndex < 32769) :
    decodeCond s l = true
    ∧ LongShape (decodeBody T tbl s l).1
    ∧ (decodeBody T tbl s l).1.newMessageIndex = s.newMessageIndex + 1
    ∧ (decodeBody T tbl s l).2 = { i := u16 (l.i + 2), charBuilderIndex := 5, charBuilder := 0 } := by
  obtain ⟨hc, hm, hr, hu⟩ := hs
  have h100 : shl1 T 50 = 100 := by cases T <;> rfl
  have h300 : mulPromoted T 6 50 = 300 := by cases T <;> rfl
  have hnext : l.i + 1 = 65535 ∨ s.userInput (l.i + 1) = 150 := by
    by_cases e : l.i + 1 = 65535
    · exact Or.inl e
    · right
      rw [hu]
      have e1 : ¬ (l.i + 1) % 2 = 0 := by omega
      have e2 : ¬ l.i + 1 = 1 := by omega
      simp only [e1, e2, if_false]
  have hcl : closesChar T s l = true := by
    apply closesChar_true
    rcases hnext with e | e
    · left; omega
    · right; rw [hr, h100, e]; decide
  have h1 : u16 (s.newMessageIndex + 1) = s.newMessageIndex + 1 := by unfold u16; omega
  have hsp : emitsSpace T
      { s with
        decodedMessage := poke s.decodedMessage (s.newMessageIndex : Int) (tbl (lookupCode T s l))
        newMessageIndex := u16 (s.newMessageIndex + 1) } l = false := by
    simp only [emitsSpace, Bool.and_eq_false_iff, decide_eq_false_iff_not, hc, hr, h300]
    rcases hnext with e | e
    · left; left; omega
    · right; rw [e]; decide
  refine ⟨by rw [decodeCond_iff]; omega, ?_⟩
  unfold decodeBody
  simp only [hcl, if_true, hsp, Bool.false_eq_true, if_false]
  exact ⟨⟨hc, hm, hr, hu⟩, h1, rfl⟩

theorem LongShape.opening_pass (T : Target) (tbl : Nat → Char) (s : Decoder) (idx cb : Nat)
    (hs : LongShape s) (hn : s.newMessageIndex < 32769) :
    decodeCond s { i := 0, charBuilderIndex := idx, charBuilder := cb } = true
    ∧ ∃ idx' cb', decodeBody T tbl s { i := 0, charBuilderIndex := idx, charBuilder := cb }
        = (s, { i := 2, charBuilderIndex := idx', charBuilder := cb' }) := by
  obtain ⟨hc, hm, hr, hu⟩ := hs
  have h100 : shl1 T 50 = 100 := by cases T <;> rfl
  refine ⟨by rw [decodeCond_iff]; exact ⟨by show 0 < _; omega, by omega⟩, ?_⟩
  have hop : closesChar T s { i := 0, charBuilderIndex := idx, charBuilder := cb } = false := by
    apply closesChar_false
    · show 0 + 1 < _; omega
    · rw [hr, h100, hu]
      show (if (0 + 1) % 2 = 0 then 50 else if 0 + 1 = 1 then 50 else 150) ≤ 100
      norm_num
    · omega
  rw [decodeBody_open T tbl s _ hop]
  exact ⟨_, _, rfl⟩

/-- A run of `n + 1` passes from an even position `2 ≤ i`: every pass ends a
character, and after the hold at 65534 the position wraps to 0. -/
theorem LongShape.closing_run (T : Target) (tbl : Nat → Char) (n : Nat) :
    ∀ (s : Decoder) (l : Locals), LongShape s → l.i % 2 = 0 → 2 ≤ l.i →
      l.i + 2 * (n + 1) ≤ 65536 → s.newMessageIndex + (n + 1) ≤ 32769 →
      ∃ s', LongShape s' ∧ s'.newMessageIndex = s.newMessageIndex + (n + 1)
        ∧ ∀ fuel, decodeLoop T tbl (n + 1 + fuel) s l
            = decodeLoop T tbl fuel s'
                { i := u16 (l.i + 2 * (n + 1)), charBuilderIndex := 5, charBuilder := 0 } := by
  induction n with
  | zero =>
    intro s l hs hev h2 hi hn
    obtain ⟨c, hs', hn', hl'⟩ := LongShape.closing_pass T tbl s l hs hev h2 (by omega) (by omega)
    refine ⟨(decodeBody T tbl s l).1, hs', hn', ?_⟩
    intro fuel
    rw [Nat.add_comm (0 + 1) fuel, decodeLoop_succ, c, if_pos rfl, hl']
  | succ n ih =>
    intro s l hs hev h2 hi hn
    obtain ⟨c, hs', hn', hl'⟩ := LongShape.closing_pass T tbl s l hs hev h2 (by omega) (by omega)
    have hu : u16 (l.i + 2) = l.i + 2 := by unfold u16; omega
    obtain ⟨s'', hs'', hn'', hrun⟩ := ih (decodeBody T tbl s l).1
      { i := l.i + 2, charBuilderIndex := 5, charBuilder := 0 } hs'
      (by show (l.i + 2) % 2 = 0; omega) (by show 2 ≤ l.i + 2; omega)
      (by show l.i + 2 + 2 * (n + 1) ≤ 65536; omega) (by omega)
    refine ⟨s'', hs'', by omega, ?_⟩
    intro fuel
    have e : n + 1 + 1 + fuel = (n + 1 + fuel) + 1 := by omega
    rw [e, decodeLoop_succ, c, if_pos rfl, hl', hu, hrun fuel]
    have e2 : l.i + 2 + 2 * (n + 1) = l.i + 2 * (n + 1 + 1) := by omega
    exact congrArg (fun x => decodeLoop T tbl fuel s'' ⟨u16 x, 5, 0⟩) e2

theorem longMessage_fuel (T : Target) :
    decodeFuel { correctLowestHold T (longMessage T) with newMessageIndex := 0 }
      = (1073774589 + 2 + 1 + 32767) + 1 := by
  have h : (correctLowestHold T (longMessage T)).decodedMessageMax = 32769 :=
    (correctLowestHold_fields T (longMessage T)).1
  show 32768 * ((correctLowestHold T (longMessage T)).decodedMessageMax + 1) = _
  rw [h]

theorem longMessage_shape (T : Target) :
    LongShape { correctLowestHold T (longMessage T) with newMessageIndex := 0 } := by
  obtain ⟨f1, f2, _, f4, f5⟩ := correctLowestHold_fields T (longMessage T)
  exact ⟨f2, f1, f5, f4⟩

/-- The loop of `decodeMessage()` on `longMessage` is left with the output
index at the capacity. -/
theorem longMessage_scan (T : Target) (tbl : Nat → Char) :
    (decodeScan T tbl (longMessage T)).1.newMessageIndex = 32769
    ∧ (decodeScan T tbl (longMessage T)).1.decodedMessageMax = 32769 := by
  have hs0 := longMessage_shape T
  obtain ⟨c1, i1, b1, e1⟩ := LongShape.opening_pass T tbl _ 5 0 hs0 (by show 0 < 32769; omega)
  obtain ⟨s1, hs1, n1, r1⟩ := LongShape.closing_run T tbl 32766
    { correctLowestHold T (longMessage T) with newMessageIndex := 0 }
    { i := 2, charBuilderIndex := i1, charBuilder := b1 } hs0 (by show 2 % 2 = 0; rfl)
    (Nat.le_refl 2)
    (by show 2 + 2 * (32766 + 1) ≤ 65536; omega) (by show 0 + (32766 + 1) ≤ 32769; omega)
  have n1' : s1.newMessageIndex = 32767 := by
    have : s1.newMessageIndex = 0 + (32766 + 1) := n1
    omega
  obtain ⟨c2, i2, b2, e2⟩ := LongShape.opening_pass T tbl s1 5 0 hs1 (by omega)
  obtain ⟨s2, hs2, n2, r2⟩ := LongShape.closing_run T tbl 1 s1
    { i := 2, charBuilderIndex := i2, charBuilder := b2 } hs1 (by show 2 % 2 = 0; rfl)
    (Nat.le_refl 2)
    (by show 2 + 2 * (1 + 1) ≤ 65536; omega) (by omega)
  have n2' : s2.newMessageIndex = 32769 := by omega
  have hstop : decodeCond s2 { i := u16 (2 + 2 * (1 + 1)), charBuilderIndex := 5, charBuilder := 0 }
      = false := by
    rw [Bool.eq_false_iff, Ne, decodeCond_iff, n2', hs2.capacity]
    omega
  have hw : u16 (2 + 2 * (32766 + 1)) = 0 := by unfold u16; omega
  have hscan : (decodeScan T tbl (longMessage T)).1 = s2 := by
    show (decodeLoop T tbl
      (decodeFuel { correctLowestHold T (longMessage T) with newMessageIndex := 0 })
      { correctLowestHold T (longMessage T) with newMessageIndex := 0 }
      { i := 0, charBuilderIndex := 5, charBuilder := 0 }).1 = s2
    rw [longMessage_fuel, decodeLoop_succ, c1, if_pos rfl, e1]
    have a1 : 1073774589 + 2 + 1 + 32767 = 32766 + 1 + (1073774589 + 2 + 1) := by omega
    rw [a1, r1]
    simp only [hw]
    rw [decodeLoop_succ, c2, if_pos rfl, e2]
    have a2 : 1073774589 + 2 = 1 + 1 + 1073774589 := by omega
    rw [a2, r2, decodeLoop_stop T tbl _ _ _ hstop]
  rw [hscan]
  exact ⟨n2', hs2.capacity⟩

theorem decodeMessage_size (T : Target) (tbl : Nat → Char) (s : Decoder) :
    getDecodedMessageSize (decodeMessage T tbl s)
      = (terminate (decodeScan T tbl s).1).newMessageIndex := rfl

theorem terminate_size_full (s : Decoder) (h : ¬ s.newMessageIndex < s.decodedMessageMax) :
    (terminate s).newMessageIndex = u16 (s.newMessageIndex + 65535) := by
  unfold terminate
  rw [if_neg h]

theorem terminate_size_room (s : Decoder) (h : s.newMessageIndex < s.decodedMessageMax) :
    (terminate s).newMessageIndex = s.newMessageIndex := by
  unfold terminate
  rw [if_pos h]

/-- C10 at the failing input: the 65535 samples of `longMessage` hold 32767
characters (a character ends after every hold but the first, no gap is a word
gap) and the output buffer has room for them and the terminator, yet the
decoded size is 32768: after the last hold `i += 2` wraps to 0 and the first
samples are decoded a second time. -/
theorem wrapped_decode_size (T : Target) (tbl : Nat → Char) :
    getDecodedMessageSize (decodeMessage T tbl (longMessage T)) = 32768 := by
  obtain ⟨hn, hm⟩ := longMessage_scan T tbl
  have hfull : ¬ (decodeScan T tbl (longMessage T)).1.newMessageIndex
      < (decodeScan T tbl (longMessage T)).1.decodedMessageMax := by
    rw [hn, hm]; omega
  rw [decodeMessage_size, terminate_size_full _ hfull, hn]
  rfl

theorem subULong_elapsed (T : Target) (t : Int) (e : Nat) (he : e ≤ 65535) :
    subULong T (toULong T (t + e)) (toULong T t) = e := by
  cases T <;> simp only [subULong, toULong, Target.longBits] <;> omega

theorem samples_snoc (f : Nat → Nat) (c : List Nat) (v : Nat)
    (h : ∀ j, j < c.length → f j = c.getD j 0) :
    ∀ j, j < (c ++ [v]).length → poke f c.length v j = (c ++ [v]).getD j 0 := by
  intro j hj
  simp only [List.length_append, List.length_singleton] at hj
  unfold poke
  by_cases e : j = c.length
  · subst e
    simp [List.getD_eq_getElem?_getD]
  · have hlt : j < c.length := by omega
    simp only [e, if_false]
    rw [h j hlt]
    simp [List.getD_eq_getElem?_getD, List.getElem?_append_left hlt]

/-- A key-down tick that finds no release run to commit. -/
theorem keyDown_step (T : Target) (tbl : Nat → Char) (cfg s : Decoder) (c : List Nat)
    (lo hi lr : Nat) (t : Int) (hr : Recorded cfg s c lo hi lr)
    (hrel : s.keyReleaseCounterMs = 0) (hclk : toULong T t ≠ s.lastMillis)
    (hh : s.keyHoldCounterMs < 65535) :
    Recorded cfg (monitorState T tbl s true t) c lo hi lr
    ∧ (monitorState T tbl s true t).keyHoldCounterMs = s.keyHoldCounterMs + 1
    ∧ (monitorState T tbl s true t).keyReleaseCounterMs = 0
    ∧ (monitorState T tbl s true t).lastUserInputMs = toULong T t
    ∧ (monitorState T tbl s true t).lastMillis = toULong T t := by
  obtain ⟨a1, a2, a3, a4, a5, a6, a7, a8⟩ := hr
  rw [monitorState_keyDown T tbl s t hclk]
  have hno : ¬ (s.debounceIntervalMs < s.keyReleaseCounterMs
      ∧ s.userInputCounter < s.userInputMax) := by omega
  have hu : u16 (s.keyHoldCounterMs + 1) = s.keyHoldCounterMs + 1 := by unfold u16; omega
  have e : keyDownTick s (toULong T t)
      = { s with lastUserInputMs := toULong T t, messageDecoded := false,
                 keyHoldCounterMs := s.keyHoldCounterMs + 1 } := by
    unfold keyDownTick
    simp only [hno, if_false, hu]
  rw [e]
  exact ⟨⟨a1, a2, a3, a4, a5, a6, a7, a8⟩, rfl, hrel, rfl, rfl⟩

/-- A key-down tick that commits the release run before it. -/
theorem keyDown_commit (T : Target) (tbl : Nat → Char) (cfg s : Decoder) (c : List Nat)
    (lo hi lr : Nat) (t : Int) (hr : Recorded cfg s c lo hi lr)
    (hrel : s.debounceIntervalMs < s.keyReleaseCounterMs)
    (hfit : c.length < s.userInputMax) (hmax : s.userInputMax ≤ 65535)
    (hclk : toULong T t ≠ s.lastMillis) (hh : s.keyHoldCounterMs < 65535) :
    Recorded cfg (monitorState T tbl s true t) (c ++ [s.keyReleaseCounterMs]) lo hi
      (min lr s.keyReleaseCounterMs)
    ∧ (monitorState T tbl s true t).keyHoldCounterMs = s.keyHoldCounterMs + 1
    ∧ (monitorState T tbl s true t).keyReleaseCounterMs = 0
    ∧ (monitorState T tbl s true t).lastUserInputMs = toULong T t
    ∧ (monitorState T tbl s true t).lastMillis = toULong T t := by
  obtain ⟨a1, a2, a3, a4, a5, a6, a7, a8⟩ := hr
  rw [monitorState_keyDown T tbl s t hclk]
  have hyes : s.debounceIntervalMs < s.keyReleaseCounterMs
      ∧ s.userInputCounter < s.userInputMax := ⟨hrel, by omega⟩
  have hu : u16 (s.keyHoldCounterMs + 1) = s.keyHoldCounterMs + 1 := by unfold u16; omega
  have hc : u16 (s.userInputCounter + 1) = c.length + 1 := by unfold u16; omega
  have e : keyDownTick s (toULong T t)
      = { s with lastUserInputMs := toULong T t, messageDecoded := false,
                 userInput := poke s.userInput s.userInputCounter s.keyReleaseCounterMs,
                 lowestInputReleaseMs :=
                   if s.keyReleaseCounterMs < s.lowestInputReleaseMs then s.keyReleaseCounterMs
                   else s.lowestInputReleaseMs,
                 userInputCounter := c.length + 1,
                 keyReleaseCounterMs := 0,
                 keyHoldCounterMs := s.keyHoldCounterMs + 1 } := by
    unfold keyDownTick
    simp only [hyes, and_self, if_true, hu, hc]
  rw [e]
  refine ⟨⟨a1, a2, a3, by simp, ?_, a6, a7, ?_⟩, rfl, rfl, rfl, rfl⟩
  · show ∀ j, j < (c ++ [s.keyReleaseCounterMs]).length →
      poke s.userInput s.userInputCounter s.keyReleaseCounterMs j = _
    rw [a4]
    exact samples_snoc s.userInput c _ a5
  · show (if s.keyReleaseCounterMs < s.lowestInputReleaseMs then s.keyReleaseCounterMs
      else s.lowestInputReleaseMs) = _
    rw [a8]
    split <;> omega

/-- A key-up tick inside the inactivity window that finds no hold run to
commit. -/
theorem keyUp_step (T : Target) (tbl : Nat → Char) (cfg s : Decoder) (c : List Nat)
    (lo hi lr : Nat) (t : Int) (hr : Recorded cfg s c lo hi lr)
    (hhold : s.keyHoldCounterMs = 0) (hclk : toULong T t ≠ s.lastMillis)
    (hty : subULong T (toULong T t) s.lastUserInputMs ≤ s.finishedTypingMs)
    (hh : s.keyReleaseCounterMs < 65535) :
    Recorded cfg (monitorState T tbl s false t) c lo hi lr
    ∧ (monitorState T tbl s false t).keyHoldCounterMs = 0
    ∧ (monitorState T tbl s false t).keyReleaseCounterMs = s.keyReleaseCounterMs + 1
    ∧ (monitorState T tbl s false t).lastUserInputMs = s.lastUserInputMs
    ∧ (monitorState T tbl s false t).lastMillis = toULong T t := by
  obtain ⟨a1, a2, a3, a4, a5, a6, a7, a8⟩ := hr
  rw [monitorState_keyUp T tbl s t hclk hty]
  have hno : ¬ (s.debounceIntervalMs < s.keyHoldCounterMs
      ∧ s.userInputCounter < s.userInputMax) := by omega
  have hu : u16 (s.keyReleaseCounterMs + 1) = s.keyReleaseCounterMs + 1 := by unfold u16; omega
  have e : keyUpTick s = { s with keyReleaseCounterMs := s.keyReleaseCounterMs + 1 } := by
    unfold keyUpTick
    simp only [hno, if_false, hu]
  rw [e]
  exact ⟨⟨a1, a2, a3, a4, a5, a6, a7, a8⟩, hhold, rfl, rfl, rfl⟩

/-- A key-up tick inside the inactivity window that commits the hold run
before it. -/
theorem keyUp_commit (T : Target) (tbl : Nat → Char) (cfg s : Decoder) (c : List Nat)
    (lo hi lr : Nat) (t : Int) (hr : Recorded cfg s c lo hi lr)
    (hhold : s.debounceIntervalMs < s.keyHoldCounterMs)
    (hfit : c.length < s.userInputMax) (hmax : s.userInputMax ≤ 65535)
    (hclk : toULong T t ≠ s.lastMillis)
    (hty : subULong T (toULong T t) s.lastUserInputMs ≤ s.finishedTypingMs)
    (hh : s.keyReleaseCounterMs < 65535) :
    Recorded cfg (monitorState T tbl s false t) (c ++ [s.keyHoldCounterMs])
      (min lo s.keyHoldCounterMs) (max hi s.keyHoldCounterMs) lr
    ∧ (monitorState T tbl s false t).keyHoldCounterMs = 0
    ∧ (monitorState T tbl s false t).keyReleaseCounterMs = s.keyReleaseCounterMs + 1
    ∧ (monitorState T tbl s false t).lastUserInputMs = s.lastUserInputMs
    ∧ (monitorState T tbl s false t).lastMillis = toULong T t := by
  obtain ⟨a1, a2, a3, a4, a5, a6, a7, a8⟩ := hr
  rw [monitorState_keyUp T tbl s t hclk hty]
  have hyes : s.debounceIntervalMs < s.keyHoldCounterMs
      ∧ s.userInputCounter < s.userInputMax := ⟨hhold, by omega⟩
  have hu : u16 (s.keyReleaseCounterMs + 1) = s.keyReleaseCounterMs + 1 := by unfold u16; omega
  have hc : u16 (s.userInputCounter + 1) = c.length + 1 := by unfold u16; omega
  have e : keyUpTick s
      = { s with userInput := poke s.userInput s.userInputCounter s.keyHoldCounterMs,
                 highestInputHoldMs :=
                   if s.highestInputHoldMs < s.keyHoldCounterMs then s.keyHoldCounterMs
                   else s.highestInputHoldMs,
                 lowestInputHoldMs :=
                   if s.keyHoldCounterMs < s.lowestInputHoldMs then s.keyHoldCounterMs
                   else s.lowestInputHoldMs,
                 userInputCounter := c.length + 1,
                 keyHoldCounterMs := 0,
                 keyReleaseCounterMs := s.keyReleaseCounterMs + 1 } := by
    unfold keyUpTick
    simp only [hyes, and_self, if_true, hu, hc]
  rw [e]
  refine ⟨⟨a1, a2, a3, by simp, ?_, ?_, ?_, a8⟩, rfl, rfl, rfl, rfl⟩
  · show ∀ j, j < (c ++ [s.keyHoldCounterMs]).length →
      poke s.userInput s.userInputCounter s.keyHoldCounterMs j = _
    rw [a4]
    exact samples_snoc s.userInput c _ a5
  · show (if s.keyHoldCounterMs < s.lowestInputHoldMs then s.keyHoldCounterMs
      else s.lowestInputHoldMs) = _
    rw [a6]
    split <;> omega
  · show (if s.highestInputHoldMs < s.keyHoldCounterMs then s.keyHoldCounterMs
      else s.highestInputHoldMs) = _
    rw [a7]
    split <;> omega

theorem feed_cons (T : Target) (tbl : Nat → Char) (s : Decoder) (t : Int) (k : Bool)
    (ks : List Bool) :
    feed T tbl s t (k :: ks) = feed T tbl (monitorState T tbl s k t) (t + 1) ks := rfl

theorem feed_append (T : Target) (tbl : Nat → Char) (ks : List Bool) :
    ∀ (s : Decoder) (t : Int) (ks' : List Bool),
      feed T tbl s t (ks ++ ks') = feed T tbl (feed T tbl s t ks) (t + ks.length) ks' := by
  induction ks with
  | nil => intro s t ks'; simp [feed]
  | cons k ks ih =>
    intro s t ks'
    rw [List.cons_append, feed_cons, feed_cons, ih]
    congr 1
    simp only [List.length_cons]
    push_cast
    ring

theorem keyDown_typing (T : Target) (tbl : Nat → Char) (s : Decoder) (t : Int)
    (hclk : toULong T t ≠ s.lastMillis) : (monitorState T tbl s true t).messageDecoded = false := by
  rw [monitorState_keyDown T tbl s t hclk]
  show (keyDownTick s (toULong T t)).messageDecoded = false
  unfold keyDownTick
  by_cases h : s.debounceIntervalMs < s.keyReleaseCounterMs ∧ s.userInputCounter < s.userInputMax
  · simp [h]
  · simp [h]

theorem keyUp_typing (T : Target) (tbl : Nat → Char) (s : Decoder) (t : Int)
    (hclk : toULong T t ≠ s.lastMillis)
    (hty : subULong T (toULong T t) s.lastUserInputMs ≤ s.finishedTypingMs) :
    (monitorState T tbl s false t).messageDecoded = s.messageDecoded := by
  rw [monitorState_keyUp T tbl s t hclk hty]
  show (keyUpTick s).messageDecoded = s.messageDecoded
  unfold keyUpTick
  by_cases h : s.debounceIntervalMs < s.keyHoldCounterMs ∧ s.userInputCounter < s.userInputMax
  · simp [h]
  · simp [h]

/-- Key-down ticks after the first one of a hold run only count. -/
theorem keyDown_run (T : Target) (tbl : Nat → Char) (cfg : Decoder) (c : List Nat)
    (lo hi lr : Nat) (n : Nat) :
    ∀ (s : Decoder) (hold : Nat) (tl t : Int),
      Running T cfg s c lo hi lr hold 0 tl t → hold + n ≤ 65535 →
      ∃ tl', Running T cfg (feed T tbl s t (List.replicate n true)) c lo hi lr (hold + n) 0
        tl' (t + n) ∧ (n = 0 → tl' = tl) ∧ (1 ≤ n → tl' = t + n - 1) := by
  induction n with
  | zero =>
    intro s hold tl t hr _
    refine ⟨tl, ?_, fun _ => rfl, fun h => absurd h (by omega)⟩
    simpa [feed] using hr
  | succ n ih =>
    intro s hold tl t hr hb
    obtain ⟨r1, r2, r3, r4, r5, r6⟩ := hr
    obtain ⟨b1, b2, b3, b4, b5⟩ := keyDown_step T tbl cfg s c lo hi lr t r1 r3 r5 (by omega)
    have hrun : Running T cfg (monitorState T tbl s true t) c lo hi lr (hold + 1) 0 t (t + 1) :=
      ⟨b1, by rw [b2, r2], b3, b4, by rw [b5]; exact toULong_succ_ne T t,
       keyDown_typing T tbl s t r5⟩
    obtain ⟨tl', h1, h2, h3⟩ := ih _ (hold + 1) t (t + 1) hrun (by omega)
    rw [List.replicate_succ, feed_cons]
    have e1 : hold + 1 + n = hold + (n + 1) := by omega
    have e2 : t + 1 + (n : Int) = t + ((n + 1 : Nat) : Int) := by push_cast; ring
    rw [e1, e2] at h1
    refine ⟨tl', h1, fun h => absurd h (by omega), fun _ => ?_⟩
    by_cases hn : n = 0
    · rw [h2 hn]; subst hn; simp
    · rw [h3 (by omega)]; push_cast; ring

/-- Key-up ticks inside the inactivity window after the first one of a gap only
count. -/
theorem keyUp_run (T : Target) (tbl : Nat → Char) (cfg : Decoder) (c : List Nat)
    (lo hi lr : Nat) (hfin : cfg.finishedTypingMs ≤ 65535) (n : Nat) :
    ∀ (s : Decoder) (rel e : Nat) (tl : Int),
      Running T cfg s c lo hi lr 0 rel tl (tl + e) → rel + n ≤ 65535 →
      (1 ≤ n → e + n - 1 ≤ cfg.finishedTypingMs) →
      Running T cfg (feed T tbl s (tl + e) (List.replicate n false)) c lo hi lr 0 (rel + n)
        tl (tl + e + n) := by
  induction n with
  | zero =>
    intro s rel e tl hr _ _
    simpa [feed] using hr
  | succ n ih =>
    intro s rel e tl hr hb hw
    obtain ⟨r1, r2, r3, r4, r5, r6⟩ := hr
    have hw' := hw (by omega)
    have hty : subULong T (toULong T (tl + e)) s.lastUserInputMs ≤ s.finishedTypingMs := by
      rw [r4, subULong_elapsed T tl e (by omega), r1.finished]; omega
    obtain ⟨b1, b2, b3, b4, b5⟩ := keyUp_step T tbl cfg s c lo hi lr (tl + e) r1 r2 r5 hty
      (by omega)
    have e0 : tl + (e : Int) + 1 = tl + ((e + 1 : Nat) : Int) := by push_cast; ring
    have hrun : Running T cfg (monitorState T tbl s false (tl + e)) c lo hi lr 0 (rel + 1) tl
        (tl + ((e + 1 : Nat) : Int)) :=
      ⟨b1, b2, by rw [b3, r3], by rw [b4, r4],
       by rw [b5, ← e0]; exact toULong_succ_ne T (tl + e),
       by rw [keyUp_typing T tbl s (tl + e) r5 hty]; exact r6⟩
    have h1 := ih _ (rel + 1) (e + 1) tl hrun (by omega) (fun _ => by omega)
    rw [List.replicate_succ, feed_cons, e0]
    have e1 : rel + 1 + n = rel + (n + 1) := by omega
    have e2 : tl + ((e + 1 : Nat) : Int) + (n : Int) = tl + e + ((n + 1 : Nat) : Int) := by
      push_cast; ring
    rw [e1, e2] at h1
    exact h1

/-- A gap of `r` key-up ticks after a hold run: the first tick commits the
hold, the others count. -/
theorem gap_run (T : Target) (tbl : Nat → Char) (cfg s : Decoder) (c : List Nat)
    (lo hi lr h r : Nat) (tl : Int)
    (hr : Running T cfg s c lo hi lr h 0 tl (tl + 1))
    (hfin : cfg.finishedTypingMs ≤ 65535) (hmax : cfg.userInputMax ≤ 65535)
    (hdeb : cfg.debounceIntervalMs < h) (hfit : c.length < cfg.userInputMax)
    (hr1 : 1 ≤ r) (hrf : r ≤ cfg.finishedTypingMs) :
    Running T cfg (feed T tbl s (tl + 1) (List.replicate r false)) (c ++ [h])
      (min lo h) (max hi h) lr 0 r tl (tl + 1 + r) := by
  obtain ⟨r1, r2, r3, r4, r5, r6⟩ := hr
  obtain ⟨n, rfl⟩ : ∃ n, r = n + 1 := ⟨r - 1, by omega⟩
  have hty : subULong T (toULong T (tl + 1)) s.lastUserInputMs ≤ s.finishedTypingMs := by
    have := subULong_elapsed T tl 1 (by omega)
    simp only [Nat.cast_one] at this
    rw [r4, this, r1.finished]; omega
  obtain ⟨b1, b2, b3, b4, b5⟩ := keyUp_commit T tbl cfg s c lo hi lr (tl + 1) r1
    (by rw [r1.debounce, r2]; exact hdeb) (by rw [r1.max]; exact hfit)
    (by rw [r1.max]; exact hmax) r5 hty (by omega)
  rw [r2] at b1
  have e0 : tl + 1 + 1 = tl + ((2 : Nat) : Int) := by push_cast; ring
  have hrun : Running T cfg (monitorState T tbl s false (tl + 1)) (c ++ [h]) (min lo h)
      (max hi h) lr 0 1 tl (tl + ((2 : Nat) : Int)) :=
    ⟨b1, b2, by rw [b3, r3], by rw [b4, r4],
     by rw [b5, ← e0]; exact toULong_succ_ne T (tl + 1),
     by rw [keyUp_typing T tbl s (tl + 1) r5 hty]; exact r6⟩
  have h1 := keyUp_run T tbl cfg (c ++ [h]) (min lo h) (max hi h) lr hfin n _ 1 2 tl hrun
    (by omega) (fun _ => by omega)
  rw [List.replicate_succ, feed_cons, e0]
  have e1 : 1 + n = n + 1 := by omega
  have e2 : tl + ((2 : Nat) : Int) + (n : Int) = tl + 1 + ((n + 1 : Nat) : Int) := by
    push_cast; ring
  rw [e1, e2] at h1
  exact h1

/-- A hold run of `h` key-down ticks after a gap: the first tick commits the
gap, the others count. -/
theorem hold_run (T : Target) (tbl : Nat → Char) (cfg s : Decoder) (c : List Nat)
    (lo hi lr r h : Nat) (tl t : Int)
    (hr : Running T cfg s c lo hi lr 0 r tl t)
    (hmax : cfg.userInputMax ≤ 65535)
    (hdeb : cfg.debounceIntervalMs < r) (hfit : c.length < cfg.userInputMax)
    (hh1 : 1 ≤ h) (hh : h ≤ 65535) :
    Running T cfg (feed T tbl s t (List.replicate h true)) (c ++ [r]) lo hi (min lr r) h 0
      (t + h - 1) (t + h - 1 + 1) := by
  obtain ⟨r1, r2, r3, r4, r5, r6⟩ := hr
  obtain ⟨n, rfl⟩ : ∃ n, h = n + 1 := ⟨h - 1, by omega⟩
  obtain ⟨b1, b2, b3, b4, b5⟩ := keyDown_commit T tbl cfg s c lo hi lr t r1
    (by rw [r1.debounce, r3]; exact hdeb) (by rw [r1.max]; exact hfit)
    (by rw [r1.max]; exact hmax) r5 (by omega)
  rw [r3] at b1
  have hrun : Running T cfg (monitorState T tbl s true t) (c ++ [r]) lo hi (min lr r) 1 0 t
      (t + 1) :=
    ⟨b1, by rw [b2, r2], b3, b4, by rw [b5]; exact toULong_succ_ne T t,
     keyDown_typing T tbl s t r5⟩
  obtain ⟨tl', h1, h2, h3⟩ := keyDown_run T tbl cfg (c ++ [r]) lo hi (min lr r) n _ 1 t (t + 1)
    hrun (by omega)
  rw [List.replicate_succ, feed_cons]
  have etl : tl' = t + ((n + 1 : Nat) : Int) - 1 := by
    by_cases hn : n = 0
    · rw [h2 hn]; subst hn; simp
    · rw [h3 (by omega)]; push_cast; ring
  have e1 : 1 + n = n + 1 := by omega
  have e2 : t + 1 + (n : Int) = t + ((n + 1 : Nat) : Int) - 1 + 1 := by push_cast; ring
  rw [e1, e2, etl] at h1
  exact h1

/-- The first hold run of a message, keyed into a rested decoder. -/
theorem first_hold_run (T : Target) (tbl : Nat → Char) (s : Decoder) (h : Nat) (t : Int)
    (hs : Rested s) (hclk : toULong T t ≠ s.lastMillis) (hh1 : 1 ≤ h) (hh : h ≤ 65535) :
    Running T s (feed T tbl s t (List.replicate h true)) [] UINT16_MAX 0 UINT16_MAX h 0
      (t + h - 1) (t + h - 1 + 1) := by
  obtain ⟨n, rfl⟩ : ∃ n, h = n + 1 := ⟨h - 1, by omega⟩
  have hrec : Recorded s s [] UINT16_MAX 0 UINT16_MAX :=
    ⟨rfl, rfl, rfl, hs.counter, fun j hj => absurd hj (Nat.not_lt_zero j), hs.lowestHold,
     hs.highestHold, hs.lowestRelease⟩
  obtain ⟨b1, b2, b3, b4, b5⟩ := keyDown_step T tbl s s [] UINT16_MAX 0 UINT16_MAX t hrec
    hs.release hclk (by rw [hs.hold]; omega)
  have hrun : Running T s (monitorState T tbl s true t) [] UINT16_MAX 0 UINT16_MAX 1 0 t
      (t + 1) :=
    ⟨b1, by rw [b2, hs.hold], b3, b4, by rw [b5]; exact toULong_succ_ne T t,
     keyDown_typing T tbl s t hclk⟩
  obtain ⟨tl', h1, h2, h3⟩ := keyDown_run T tbl s [] UINT16_MAX 0 UINT16_MAX n _ 1 t (t + 1)
    hrun (by omega)
  rw [List.replicate_succ, feed_cons]
  have etl : tl' = t + ((n + 1 : Nat) : Int) - 1 := by
    by_cases hn : n = 0
    · rw [h2 hn]; subst hn; simp
    · rw [h3 (by omega)]; push_cast; ring
  have e1 : 1 + n = n + 1 := by omega
  have e2 : t + 1 + (n : Int) = t + ((n + 1 : Nat) : Int) - 1 + 1 := by push_cast; ring
  rw [e1, e2, etl] at h1
  exact h1

theorem keyRuns_message (h : Nat) (rest : List (Nat × Nat)) :
    keyRuns true (messageSamples h rest)
      = List.replicate h true ++ keyRuns false (messageSamples h rest).tail := by
  cases rest with
  | nil => rfl
  | cons p rest => rfl

theorem messageSamples_length (h : Nat) (rest : List (Nat × Nat)) :
    (messageSamples h rest).length = 2 * rest.length + 1 := by
  induction rest generalizing h with
  | nil => rfl
  | cons p rest ih =>
    obtain ⟨r, h'⟩ := p
    simp only [messageSamples, List.length_cons, ih h']
    omega

/-- The rest of a message after its first hold run, followed by `k` key-up
ticks inside the inactivity window. -/
theorem message_run (T : Target) (tbl : Nat → Char) (cfg : Decoder) (k : Nat)
    (hfin : cfg.finishedTypingMs ≤ 65535) (hmax : cfg.userInputMax ≤ 65535)
    (hk1 : 1 ≤ k) (hk : k ≤ cfg.finishedTypingMs) (rest : List (Nat × Nat)) :
    ∀ (s : Decoder) (c : List Nat) (lo hi lr h : Nat) (tl : Int),
      Running T cfg s c lo hi lr h 0 tl (tl + 1) →
      (∀ x ∈ messageSamples h rest, cfg.debounceIntervalMs < x) →
      (∀ x ∈ gapsOf rest, x ≤ cfg.finishedTypingMs) →
      (∀ x ∈ holdsOf h rest, x ≤ 65535) →
      c.length + (messageSamples h rest).length ≤ cfg.userInputMax →
      ∃ tl' t', Running T cfg
        (feed T tbl s (tl + 1)
          (keyRuns false (messageSamples h rest).tail ++ List.replicate k false))
        (c ++ messageSamples h rest)
        ((holdsOf h rest).foldl min lo) ((holdsOf h rest).foldl max hi)
        ((gapsOf rest).foldl min lr) 0 k tl' t' := by
  induction rest with
  | nil =>
    intro s c lo hi lr h tl hr hdeb _ _ hfit
    have := gap_run T tbl cfg s c lo hi lr h k tl hr hfin hmax
      (hdeb h (by simp [messageSamples]))
      (by simp [messageSamples] at hfit; omega) hk1 hk
    exact ⟨tl, _, by simpa [messageSamples, keyRuns, holdsOf, gapsOf] using this⟩
  | cons p rest ih =>
    obtain ⟨r, h'⟩ := p
    intro s c lo hi lr h tl hr hdeb hgap hhold hfit
    have hlen := messageSamples_length h' rest
    simp only [messageSamples, List.length_cons] at hfit
    have d1 : cfg.debounceIntervalMs < h := hdeb h (by simp [messageSamples])
    have d2 : cfg.debounceIntervalMs < r := hdeb r (by simp [messageSamples])
    have d3 : cfg.debounceIntervalMs < h' :=
      hdeb h' (by cases rest <;> simp [messageSamples])
    have g1 : r ≤ cfg.finishedTypingMs := hgap r (by simp [gapsOf])
    have u1 : h' ≤ 65535 := hhold h' (by simp [holdsOf])
    have s1 := gap_run T tbl cfg s c lo hi lr h r tl hr hfin hmax d1 (by omega) (by omega) g1
    have s2 := hold_run T tbl cfg _ (c ++ [h]) (min lo h) (max hi h) lr r h' tl (tl + 1 + r) s1
      hmax d2 (by simp; omega) (by omega) u1
    obtain ⟨tl', t', s3⟩ := ih _ (c ++ [h] ++ [r]) (min lo h) (max hi h) (min lr r) h'
      (tl + 1 + r + h' - 1) s2
      (fun x hx => hdeb x (by simp [messageSamples]; right; right; exact hx))
      (fun x hx => hgap x (by simp [gapsOf] at hx ⊢; right; exact hx))
      (fun x hx => hhold x (by simp [holdsOf] at hx ⊢; rcases hx with hx | hx
                               · right; left; exact hx
                               · right; right; exact hx))
      (by simp; omega)
    refine ⟨tl', t', ?_⟩
    have ekeys : keyRuns false (messageSamples h ((r, h') :: rest)).tail
          ++ List.replicate k false
        = List.replicate r false ++ (List.replicate h' true
            ++ (keyRuns false (messageSamples h' rest).tail ++ List.replicate k false)) := by
      simp only [messageSamples, List.tail_cons, keyRuns, Bool.not_false, keyRuns_message,
        List.append_assoc]
    rw [ekeys, feed_append, feed_append]
    simp only [List.length_replicate]
    have et : tl + 1 + (r : Int) + (h' : Int) = tl + 1 + r + h' - 1 + 1 := by ring
    rw [et]
    have ec : c ++ messageSamples h ((r, h') :: rest) = c ++ [h] ++ [r] ++ messageSamples h' rest := by
      simp [messageSamples]
    rw [ec]
    simpa [holdsOf, gapsOf] using s3

theorem committed_of_recorded (cfg s : Decoder) (c : List Nat) (lo hi lr : Nat)
    (hr : Recorded cfg s c lo hi lr) : committed s = c := by
  unfold committed
  apply List.ext_getElem
  · simp [hr.counter]
  · intro i h1 h2
    simp only [List.getElem_map, List.getElem_range]
    rw [hr.samples i h2]
    simp [List.getD_eq_getElem?_getD, List.getElem?_eq_getElem h2]

/-- A decoder is rested after its construction. -/
theorem rested_construct (T : Target) (raw : Decoder) (userInputMax decodedMessageMax : Nat) :
    Rested (construct T raw userInputMax decodedMessageMax) :=
  ⟨rfl, rfl, rfl, rfl, rfl, rfl⟩

/-- A decoder is rested when a decode was acknowledged. -/
theorem rested_acknowledged (T : Target) (tbl : Nat → Char) (s : Decoder) (now : Nat) :
    Rested (acknowledgeMessage { decodeTick T tbl s with lastMillis := now }) :=
  ⟨rfl, rfl, rfl, rfl, rfl, rfl⟩

/-- The setters keep a decoder rested. -/
theorem rested_setters (s : Decoder) (a b c : Nat) (hs : Rested s) :
    Rested (setFinishedTypingMs (setDebounceIntervalMs (setTimeUnitUpperLimitMs s a) b) c) :=
  ⟨hs.counter, hs.hold, hs.release, hs.lowestHold, hs.highestHold, hs.lowestRelease⟩

/-- C1, amended: from a rested decoder (fresh, or acknowledged after a decode)
whose `lastMillis` differs from the first timestamp, the runs
`h₁, r₁, ..., r₍ₙ₋₁₎, hₙ` fed as one call per millisecond, all longer than
`debounceIntervalMs`, gaps at most `finishedTypingMs`, holds at most 65535 and
`2n - 1 ≤ userInputMax`, followed by `k` key-up ticks with
`1 ≤ k ≤ finishedTypingMs`, leave exactly the samples `[h₁, r₁, ..., hₙ]`
committed, `getUserInputSize() = 2n - 1`, and the trackers at the least hold,
the greatest hold and the least gap (65535 without a gap). -/
theorem sampler_records_message (T : Target) (tbl : Nat → Char) (s : Decoder) (t0 : Int)
    (h1 : Nat) (rest : List (Nat × Nat)) (k : Nat)
    (hs : Rested s) (hclk : toULong T t0 ≠ s.lastMillis)
    (hmax : s.userInputMax ≤ 65535) (hfin : s.finishedTypingMs ≤ 65535)
    (hdeb : ∀ x ∈ messageSamples h1 rest, s.debounceIntervalMs < x)
    (hgap : ∀ x ∈ gapsOf rest, x ≤ s.finishedTypingMs)
    (hhold : ∀ x ∈ holdsOf h1 rest, x ≤ 65535)
    (hfit : 2 * (rest.length + 1) - 1 ≤ s.userInputMax)
    (hk1 : 1 ≤ k) (hk : k ≤ s.finishedTypingMs) :
    committed (feed T tbl s t0 (keyRuns true (messageSamples h1 rest) ++ List.replicate k false))
      = messageSamples h1 rest
    ∧ getUserInputSize
        (feed T tbl s t0 (keyRuns true (messageSamples h1 rest) ++ List.replicate k false))
      = 2 * (rest.length + 1) - 1
    ∧ (feed T tbl s t0
        (keyRuns true (messageSamples h1 rest) ++ List.replicate k false)).lowestInputHoldMs
      = (holdsOf h1 rest).foldl min UINT16_MAX
    ∧ (feed T tbl s t0
        (keyRuns true (messageSamples h1 rest) ++ List.replicate k false)).highestInputHoldMs
      = (holdsOf h1 rest).foldl max 0
    ∧ (feed T tbl s t0
        (keyRuns true (messageSamples h1 rest) ++ List.replicate k false)).lowestInputReleaseMs
      = (gapsOf rest).foldl min UINT16_MAX := by
  have hlen := messageSamples_length h1 rest
  have hh1 : 1 ≤ h1 := by
    have := hdeb h1 (by cases rest <;> simp [messageSamples])
    omega
  have hu1 : h1 ≤ 65535 := hhold h1 (by simp [holdsOf])
  have r0 := first_hold_run T tbl s h1 t0 hs hclk hh1 hu1
  obtain ⟨tl', t', r1⟩ := message_run T tbl s k hfin hmax hk1 hk rest _ [] UINT16_MAX 0
    UINT16_MAX h1 (t0 + h1 - 1) r0 hdeb hgap hhold (by simp only [List.length_nil]; omega)
  have ekeys : feed T tbl s t0 (keyRuns true (messageSamples h1 rest) ++ List.replicate k false)
      = feed T tbl (feed T tbl s t0 (List.replicate h1 true)) (t0 + h1 - 1 + 1)
          (keyRuns false (messageSamples h1 rest).tail ++ List.replicate k false) := by
    rw [keyRuns_message, List.append_assoc, feed_append, List.length_replicate]
    congr 1
    ring
  rw [ekeys]
  have hrec := r1.recorded
  rw [List.nil_append] at hrec
  refine ⟨committed_of_recorded _ _ _ _ _ _ hrec, ?_, hrec.lowestHold, hrec.highestHold,
    hrec.lowestRelease⟩
  unfold getUserInputSize
  rw [hrec.counter, hlen]
  omega

/-- Witness of the amended C1: holds of 2 ms and 3 ms around a gap of 2 ms, with
a debounce interval of 1 ms, and one further key-up tick. -/
theorem sampler_records_message_witness :
    committed (feed .avr sampleAlphabet (setDebounceIntervalMs (construct .avr zeroStorage 8 8) 1)
        1 (keyRuns true (messageSamples 2 [(2, 3)]) ++ List.replicate 1 false))
      = [2, 2, 3]
    ∧ getUserInputSize
        (feed .avr sampleAlphabet (setDebounceIntervalMs (construct .avr zeroStorage 8 8) 1)
          1 (keyRuns true (messageSamples 2 [(2, 3)]) ++ List.replicate 1 false))
      = 3
    ∧ (feed .avr sampleAlphabet (setDebounceIntervalMs (construct .avr zeroStorage 8 8) 1)
        1 (keyRuns true (messageSamples 2 [(2, 3)])
          ++ List.replicate 1 false)).lowestInputHoldMs = 2
    ∧ (feed .avr sampleAlphabet (setDebounceIntervalMs (construct .avr zeroStorage 8 8) 1)
        1 (keyRuns true (messageSamples 2 [(2, 3)])
          ++ List.replicate 1 false)).highestInputHoldMs = 3
    ∧ (feed .avr sampleAlphabet (setDebounceIntervalMs (construct .avr zeroStorage 8 8) 1)
        1 (keyRuns true (messageSamples 2 [(2, 3)])
          ++ List.replicate 1 false)).lowestInputReleaseMs = 2 :=
  sampler_records_message .avr sampleAlphabet
    (setDebounceIntervalMs (construct .avr zeroStorage 8 8) 1) 1 2 [(2, 3)] 1
    ⟨rfl, rfl, rfl, rfl, rfl, rfl⟩ (by decide) (by decide) (by decide) (by decide) (by decide)
    (by decide) (by decide) (by decide) (by decide)

/-- C1 as stated fails: on a fresh decoder with the default configuration, a
hold of 21 ms followed by 1501 key-up ticks (which is "at least one") leaves
the sample `[21]` committed, but the tick after the inactivity window decodes
and resets the trackers, so `lowestInputHoldMs` is 65535 and
`highestInputHoldMs` is 0, not the least and greatest hold 21. -/
theorem trackers_reset_after_window :
    ((∀ x ∈ messageSamples 21 [], (construct .avr zeroStorage 8 8).debounceIntervalMs < x)
      ∧ (∀ x ∈ holdsOf 21 [], x ≤ 65535)
      ∧ 2 * 1 - 1 ≤ (construct .avr zeroStorage 8 8).userInputMax
      ∧ toULong .avr 1 ≠ (construct .avr zeroStorage 8 8).lastMillis)
    ∧ (feed .avr sampleAlphabet (construct .avr zeroStorage 8 8) 1
        (keyRuns true (messageSamples 21 []) ++ List.replicate 1501 false)).lowestInputHoldMs
      = 65535
    ∧ (feed .avr sampleAlphabet (construct .avr zeroStorage 8 8) 1
        (keyRuns true (messageSamples 21 []) ++ List.replicate 1501 false)).highestInputHoldMs
      = 0
    ∧ (holdsOf 21 []).foldl min UINT16_MAX = 21
    ∧ (holdsOf 21 []).foldl max 0 = 21 := by
  suffices key : (feed .avr sampleAlphabet (construct .avr zeroStorage 8 8) 1
        (keyRuns true (messageSamples 21 []) ++ List.replicate 1501 false)).lowestInputHoldMs
      = 65535
    ∧ (feed .avr sampleAlphabet (construct .avr zeroStorage 8 8) 1
        (keyRuns true (messageSamples 21 []) ++ List.replicate 1501 false)).highestInputHoldMs
      = 0 from ⟨by decide, key.1, key.2, rfl, rfl⟩
  have r0 := first_hold_run .avr sampleAlphabet (construct .avr zeroStorage 8 8) 21 1
    (rested_construct .avr zeroStorage 8 8) (by decide) (by decide) (by decide)
  have r1 := gap_run .avr sampleAlphabet (construct .avr zeroStorage 8 8) _ [] UINT16_MAX 0
    UINT16_MAX 21 1500 (1 + ((21 : Nat) : Int) - 1) r0 (by decide) (by decide) (by decide)
    (by decide) (by decide) (by decide)
  have ekeys : keyRuns true (messageSamples 21 []) ++ List.replicate 1501 false
      = List.replicate 21 true ++ (List.replicate 1500 false ++ [false]) := by
    rw [show (1501 : Nat) = 1500 + 1 from rfl, List.replicate_succ']
    rfl
  rw [ekeys, feed_append, feed_append]
  simp only [List.length_replicate]
  have et : (1 : Int) + ((21 : Nat) : Int) = 1 + ((21 : Nat) : Int) - 1 + 1 := by ring
  rw [et]
  obtain ⟨q1, q2, q3, q4, q5, q6⟩ := r1
  have hty : (feed .avr sampleAlphabet
      (feed .avr sampleAlphabet (construct .avr zeroStorage 8 8) 1 (List.replicate 21 true))
      (1 + ((21 : Nat) : Int) - 1 + 1) (List.replicate 1500 false)).finishedTypingMs
      < subULong .avr (toULong .avr (1 + ((21 : Nat) : Int) - 1 + 1 + ((1500 : Nat) : Int)))
          (feed .avr sampleAlphabet
            (feed .avr sampleAlphabet (construct .avr zeroStorage 8 8) 1 (List.replicate 21 true))
            (1 + ((21 : Nat) : Int) - 1 + 1) (List.replicate 1500 false)).lastUserInputMs := by
    rw [q4, q1.finished]
    decide
  rw [feed_cons, monitorState_decode .avr sampleAlphabet _ _ q5 hty q6]
  exact ⟨rfl, rfl⟩

/-- The tick that C1 leaves out: a decoder constructed in zeroed storage has
`lastMillis = 0`, so a first call with the timestamp 0 is skipped and a hold of
3 ms is committed as 2 ms. -/
theorem first_tick_skipped :
    committed (feed .avr sampleAlphabet (setDebounceIntervalMs (construct .avr zeroStorage 8 8) 1)
        0 (keyRuns true (messageSamples 3 []) ++ List.replicate 1 false))
      = [2] := by
  decide

theorem monitorState_ready (T : Target) (tbl : Nat → Char) (s : Decoder) (k : Bool) (t : Int) :
    (monitorState T tbl s k t).newMessageReady = (s.newMessageReady || decodes T s k t) := by
  unfold decodes
  by_cases h : toULong T t = s.lastMillis
  · rw [monitorState_skip T tbl s k t h]; simp [h]
  · cases k with
    | true =>
      rw [monitorState_keyDown T tbl s t h]
      show (keyDownTick s _).newMessageReady = _
      rw [(keyDownTick_config s _).2.2.1]; simp
    | false =>
      by_cases hty : subULong T (toULong T t) s.lastUserInputMs ≤ s.finishedTypingMs
      · rw [monitorState_keyUp T tbl s t h hty]
        show (keyUpTick s).newMessageReady = _
        rw [(keyUpTick_config s).2.2.1]; simp [currentlyTyping, hty]
      · have hty' := Nat.not_le.mp hty
        by_cases hmd : s.messageDecoded = true
        · rw [monitorState_idle T tbl s t h hty' hmd]; simp [hmd]
        · have hmd' : s.messageDecoded = false := by simpa using hmd
          rw [monitorState_decode T tbl s t h hty' hmd']
          simp [currentlyTyping, hty, hmd', h, decodeTick]

theorem Call.apply_ready (T : Target) (tbl : Nat → Char) (s : Decoder) (c : Call) :
    (c.apply T tbl s).newMessageReady = readyStep T s s.newMessageReady c := by
  cases c with
  | monitor k t => exact monitorState_ready T tbl s k t
  | acknowledge => rfl
  | setUpperLimit v => rfl
  | setDebounce v => rfl
  | setFinishedTyping v => rfl

/-- The flag `newMessageReady`, which `monitorUserInput` returns, follows the
bookkeeping of C7 from whatever value it had at the start. -/
theorem runCalls_ready (T : Target) (tbl : Nat → Char) (cs : List Call) :
    ∀ s : Decoder,
      (runCalls T tbl s cs).newMessageReady = readyAfter T tbl s s.newMessageReady cs := by
  induction cs with
  | nil => intro s; rfl
  | cons c cs ih =>
    intro s
    show (runCalls T tbl (c.apply T tbl s) cs).newMessageReady
      = readyAfter T tbl (c.apply T tbl s) (readyStep T s s.newMessageReady c) cs
    rw [ih, Call.apply_ready]

/-- In storage whose `newMessageReady` byte is clear C7 holds: the flag is true
exactly when a call ran the decoder and no `acknowledgeMessage` followed. -/
theorem ready_from_clear_storage (T : Target) (tbl : Nat → Char) (raw : Decoder)
    (userInputMax decodedMessageMax : Nat) (cs : List Call)
    (hraw : raw.newMessageReady = false) :
    (runCalls T tbl (construct T raw userInputMax decodedMessageMax) cs).newMessageReady
      = readyAfter T tbl (construct T raw userInputMax decodedMessageMax) false cs := by
  rw [runCalls_ready]
  exact congrArg (fun b => readyAfter T tbl (construct T raw userInputMax decodedMessageMax) b cs)
    hraw

theorem SameInput.refl (s : Decoder) : SameInput s s := ⟨rfl, rfl, rfl, rfl, rfl⟩

theorem emitFrom_congr (T : Target) (tbl : Nat → Char) (s r : Decoder) (h : SameInput s r)
    (fuel : Nat) : ∀ l : Locals, emitFrom T tbl r fuel l = emitFrom T tbl s fuel l := by
  obtain ⟨h1, h2, h3, h4, h5⟩ := h
  induction fuel with
  | zero => intro l; rfl
  | succ fuel ih =>
    intro l
    have e1 : endsChar T r l.i = endsChar T s l.i := by unfold endsChar; rw [h1, h2, h5]
    have e2 : spaceAfter T r l.i = spaceAfter T s l.i := by unfold spaceAfter; rw [h1, h2, h5]
    have e3 : classifyBit T r l = classifyBit T s l := by unfold classifyBit; rw [h1, h4]
    have e4 : lookupCode T r l = lookupCode T s l := by unfold lookupCode; rw [e3]
    unfold emitFrom
    rw [h2, e1, e2, e3, e4, ih, ih]

theorem emitFrom_done (T : Target) (tbl : Nat → Char) (s : Decoder) (fuel : Nat) (l : Locals)
    (h : ¬ l.i < s.userInputCounter) : emitFrom T tbl s fuel l = [] := by
  cases fuel with
  | zero => rfl
  | succ f => unfold emitFrom; rw [if_neg h]

/-- Enough fuel is as good as more fuel. -/
theorem emitFrom_fuel (T : Target) (tbl : Nat → Char) (s : Decoder) (fuel : Nat) :
    ∀ (fuel' : Nat) (l : Locals), s.userInputCounter ≤ l.i + 2 * fuel →
      s.userInputCounter ≤ l.i + 2 * fuel' →
      emitFrom T tbl s fuel l = emitFrom T tbl s fuel' l := by
  induction fuel with
  | zero =>
    intro fuel' l h _
    rw [emitFrom_done T tbl s 0 l (by omega), emitFrom_done T tbl s fuel' l (by omega)]
  | succ fuel ih =>
    intro fuel' l h h'
    by_cases hi : l.i < s.userInputCounter
    · obtain ⟨f', rfl⟩ : ∃ f', fuel' = f' + 1 := ⟨fuel' - 1, by omega⟩
      unfold emitFrom
      rw [if_pos hi, if_pos hi,
        ih f' { i := l.i + 2, charBuilderIndex := 5, charBuilder := 0 }
          (by show _ ≤ l.i + 2 + 2 * fuel; omega) (by show _ ≤ l.i + 2 + 2 * f'; omega),
        ih f' { i := l.i + 2, charBuilderIndex := u8 (l.charBuilderIndex + 255),
                charBuilder := classifyBit T s l }
          (by show _ ≤ l.i + 2 + 2 * fuel; omega) (by show _ ≤ l.i + 2 + 2 * f'; omega)]
    · rw [emitFrom_done T tbl s _ l hi, emitFrom_done T tbl s _ l hi]

/-- The pass that ends a character, with the state it leaves. -/
theorem decodeBody_closing (T : Target) (tbl : Nat → Char) (s : Decoder) (l : Locals)
    (he : endsChar T s l.i = true) (hroom : s.newMessageIndex < s.decodedMessageMax)
    (hcap : s.decodedMessageMax ≤ 65535) :
    decodeBody T tbl s l
      = (if spaceAfter T s l.i = true ∧ s.newMessageIndex + 1 < s.decodedMessageMax then
          { s with
            decodedMessage :=
              poke (poke s.decodedMessage (s.newMessageIndex : Int) (tbl (lookupCode T s l)))
                ((s.newMessageIndex + 1 : Nat) : Int) ' '
            newMessageIndex := s.newMessageIndex + 2 }
         else
          { s with
            decodedMessage :=
              poke s.decodedMessage (s.newMessageIndex : Int) (tbl (lookupCode T s l))
            newMessageIndex := s.newMessageIndex + 1 },
         { i := u16 (l.i + 2), charBuilderIndex := 5, charBuilder := 0 }) := by
  have hcl : closesChar T s l = true := by
    unfold closesChar
    unfold endsChar at he
    rw [he]; rfl
  have h1 : u16 (s.newMessageIndex + 1) = s.newMessageIndex + 1 := by unfold u16; omega
  have hsp : emitsSpace T
      { s with
        decodedMessage := poke s.decodedMessage (s.newMessageIndex : Int) (tbl (lookupCode T s l))
        newMessageIndex := u16 (s.newMessageIndex + 1) } l
      = decide (spaceAfter T s l.i = true ∧ s.newMessageIndex + 1 < s.decodedMessageMax) := by
    unfold emitsSpace spaceAfter
    simp only [h1]
    by_cases a : (l.i : Int) < (s.userInputCounter : Int) - 1 <;>
    by_cases b : s.newMessageIndex + 1 < s.decodedMessageMax <;>
    by_cases c : mulPromoted T 6 s.lowestInputReleaseMs < s.userInput (l.i + 1) <;>
    simp [a, b, c]
  unfold decodeBody
  simp only [hcl, if_true, hsp]
  by_cases hc : spaceAfter T s l.i = true ∧ s.newMessageIndex + 1 < s.decodedMessageMax
  · have h2 : u16 (s.newMessageIndex + 1 + 1) = s.newMessageIndex + 2 := by unfold u16; omega
    simp only [hc, and_self, decide_True, if_true, h1, h2]
    rfl
  · simp only [hc, decide_False, Bool.false_eq_true, if_false, h1]
    rfl

theorem closesChar_eq_endsChar (T : Target) (s : Decoder) (l : Locals)
    (hroom : s.newMessageIndex < s.decodedMessageMax) :
    closesChar T s l = endsChar T s l.i := by
  unfold closesChar endsChar
  have : decide (s.newMessageIndex = s.decodedMessageMax) = false := by
    simp; omega
  rw [this, Bool.or_false]

/-- What the loop of `decodeMessage()` leaves in the output buffer, for fewer
than 65535 samples: the output index advances by the length of the unbounded
emission, cut at the capacity; the cells below the old index are kept, and
the cells from the old index up to the new one hold the emission. -/
theorem decodeLoop_emits (T : Target) (tbl : Nat → Char) (fuel : Nat) :
    ∀ (s : Decoder) (l : Locals), s.userInputCounter ≤ 65534 → s.decodedMessageMax ≤ 65535 →
      s.newMessageIndex ≤ s.decodedMessageMax →
      (decodeLoop T tbl fuel s l).1.newMessageIndex
          = min (s.newMessageIndex + (emitFrom T tbl s fuel l).length) s.decodedMessageMax
      ∧ (∀ j : Int, j < s.newMessageIndex →
          (decodeLoop T tbl fuel s l).1.decodedMessage j = s.decodedMessage j)
      ∧ (∀ k : Nat, s.newMessageIndex + k < (decodeLoop T tbl fuel s l).1.newMessageIndex →
          (decodeLoop T tbl fuel s l).1.decodedMessage ((s.newMessageIndex + k : Nat) : Int)
            = (emitFrom T tbl s fuel l).getD k ' ')
      ∧ SameInput s (decodeLoop T tbl fuel s l).1 := by
  induction fuel with
  | zero =>
    intro s l _ _ hidx
    refine ⟨?_, fun _ _ => rfl, ?_, SameInput.refl s⟩
    · show s.newMessageIndex = min (s.newMessageIndex + 0) s.decodedMessageMax
      omega
    · intro k hk
      exact absurd hk (by show ¬ s.newMessageIndex + k < s.newMessageIndex; omega)
  | succ fuel ih =>
    intro s l hcnt hcap hidx
    by_cases hc : decodeCond s l = true
    · have hc' := (decodeCond_iff s l).mp hc
      obtain ⟨hi, hn⟩ := hc'
      have hu : u16 (l.i + 2) = l.i + 2 := by unfold u16; omega
      rw [decodeLoop_succ, hc, if_pos rfl]
      by_cases he : endsChar T s l.i = true
      · rw [decodeBody_closing T tbl s l he hn hcap, hu]
        have hemit : emitFrom T tbl s (fuel + 1) l
            = tbl (lookupCode T s l)
              :: ((if spaceAfter T s l.i then [' '] else [])
                  ++ emitFrom T tbl s fuel
                      { i := l.i + 2, charBuilderIndex := 5, charBuilder := 0 }) := by
          conv_lhs => unfold emitFrom
          rw [if_pos hi, he, if_pos rfl]
        rw [hemit]
        by_cases hsp : spaceAfter T s l.i = true ∧ s.newMessageIndex + 1 < s.decodedMessageMax
        · rw [if_pos hsp]
          have hsame : SameInput s
              { s with
                decodedMessage :=
                  poke (poke s.decodedMessage (s.newMessageIndex : Int) (tbl (lookupCode T s l)))
                    ((s.newMessageIndex + 1 : Nat) : Int) ' '
                newMessageIndex := s.newMessageIndex + 2 } := ⟨rfl, rfl, rfl, rfl, rfl⟩
          obtain ⟨a, b, c, d⟩ := ih
            { s with
              decodedMessage :=
                poke (poke s.decodedMessage (s.newMessageIndex : Int) (tbl (lookupCode T s l)))
                  ((s.newMessageIndex + 1 : Nat) : Int) ' '
              newMessageIndex := s.newMessageIndex + 2 }
            { i := l.i + 2, charBuilderIndex := 5, charBuilder := 0 } hcnt hcap
            (by show s.newMessageIndex + 2 ≤ s.decodedMessageMax; omega)
          rw [emitFrom_congr T tbl s _ hsame] at a c
          dsimp only at a b c ⊢
          rw [hsp.1, if_pos rfl]
          refine ⟨?_, ?_, ?_, ⟨d.userInput, d.counter, d.capacity, d.lowestHold, d.lowestRelease⟩⟩
          · rw [a]; simp only [List.length_cons, List.singleton_append]; omega
          · intro j hj
            rw [b j (by omega)]
            unfold poke
            have e1 : ¬ j = ((s.newMessageIndex + 1 : Nat) : Int) := by omega
            have e2 : ¬ j = (s.newMessageIndex : Int) := by omega
            simp only [e1, e2, if_false]
          · intro k hk
            match k with
            | 0 =>
              rw [b _ (by omega)]
              unfold poke
              have e1 : ¬ ((s.newMessageIndex + 0 : Nat) : Int)
                  = ((s.newMessageIndex + 1 : Nat) : Int) := by omega
              simp [e1]
            | 1 =>
              rw [b _ (by omega)]
              unfold poke
              simp
            | k + 2 =>
              have := c k (by omega)
              have e : s.newMessageIndex + 2 + k = s.newMessageIndex + (k + 2) := by omega
              rw [e] at this
              rw [this]
              simp
        · rw [if_neg hsp]
          have hsame : SameInput s
              { s with
                decodedMessage :=
                  poke s.decodedMessage (s.newMessageIndex : Int) (tbl (lookupCode T s l))
                newMessageIndex := s.newMessageIndex + 1 } := ⟨rfl, rfl, rfl, rfl, rfl⟩
          obtain ⟨a, b, c, d⟩ := ih
            { s with
              decodedMessage :=
                poke s.decodedMessage (s.newMessageIndex : Int) (tbl (lookupCode T s l))
              newMessageIndex := s.newMessageIndex + 1 }
            { i := l.i + 2, charBuilderIndex := 5, charBuilder := 0 } hcnt hcap
            (by show s.newMessageIndex + 1 ≤ s.decodedMessageMax; omega)
          rw [emitFrom_congr T tbl s _ hsame] at a c
          dsimp only at a b c ⊢
          refine ⟨?_, ?_, ?_, ⟨d.userInput, d.counter, d.capacity, d.lowestHold, d.lowestRelease⟩⟩
          · rw [a]
            by_cases hs : spaceAfter T s l.i = true
            · have : s.newMessageIndex + 1 = s.decodedMessageMax := by
                by_contra hne; exact hsp ⟨hs, by omega⟩
              rw [hs, if_pos rfl]
              simp only [List.length_cons, List.singleton_append]; omega
            · have hs' : spaceAfter T s l.i = false := by simpa using hs
              rw [hs']
              simp only [Bool.false_eq_true, if_false, List.nil_append, List.length_cons]; omega
          · intro j hj
            rw [b j (by omega)]
            unfold poke
            have e2 : ¬ j = (s.newMessageIndex : Int) := by omega
            simp only [e2, if_false]
          · intro k hk
            match k with
            | 0 =>
              rw [b _ (by omega)]
              unfold poke
              simp
            | k + 1 =>
              by_cases hs : spaceAfter T s l.i = true
              · exfalso
                have : s.newMessageIndex + 1 = s.decodedMessageMax := by
                  by_contra hne; exact hsp ⟨hs, by omega⟩
                rw [a] at hk
                omega
              · have hs' : spaceAfter T s l.i = false := by simpa using hs
                have := c k (by omega)
                have e : s.newMessageIndex + 1 + k = s.newMessageIndex + (k + 1) := by omega
                rw [e] at this
                rw [this, hs']
                simp
      · have he' : endsChar T s l.i = false := by simpa using he
        have hop : closesChar T s l = false := by
          rw [closesChar_eq_endsChar T s l hn]; exact he'
        rw [decodeBody_open T tbl s l hop, hu]
        have hemit : emitFrom T tbl s (fuel + 1) l
            = emitFrom T tbl s fuel
                { i := l.i + 2, charBuilderIndex := u8 (l.charBuilderIndex + 255),
                  charBuilder := classifyBit T s l } := by
          conv_lhs => unfold emitFrom
          rw [if_pos hi, he']
          simp
        rw [hemit]
        exact ih s _ hcnt hcap hidx
    · have hc' : decodeCond s l = false := by simpa using hc
      rw [decodeLoop_stop T tbl _ s l hc']
      refine ⟨?_, fun _ _ => rfl, ?_, SameInput.refl s⟩
      · by_cases hi : l.i < s.userInputCounter
        · have : ¬ s.newMessageIndex < s.decodedMessageMax := by
            intro hn; rw [(decodeCond_iff s l).mpr ⟨hi, hn⟩] at hc'; exact Bool.noConfusion hc'
          show s.newMessageIndex = _
          omega
        · rw [emitFrom_done T tbl s _ l hi]
          show s.newMessageIndex = min (s.newMessageIndex + 0) s.decodedMessageMax
          omega
      · intro k hk
        exact absurd hk (by show ¬ s.newMessageIndex + k < s.newMessageIndex; omega)

theorem unboundedText_eq (T : Target) (tbl : Nat → Char) (s : Decoder)
    (hcnt : s.userInputCounter ≤ 65534) :
    emitFrom T tbl { correctLowestHold T s with newMessageIndex := 0 }
        (decodeFuel { correctLowestHold T s with newMessageIndex := 0 })
        { i := 0, charBuilderIndex := 5, charBuilder := 0 }
      = unboundedText T tbl s := by
  obtain ⟨f1, f2, f3, f4, f5⟩ := correctLowestHold_fields T s
  have hsame : SameInput (correctLowestHold T s)
      { correctLowestHold T s with newMessageIndex := 0 } := ⟨rfl, rfl, rfl, rfl, rfl⟩
  rw [emitFrom_congr T tbl _ _ hsame]
  unfold unboundedText
  apply emitFrom_fuel
  · show (correctLowestHold T s).userInputCounter
      ≤ 0 + 2 * (32768 * ((correctLowestHold T s).decodedMessageMax + 1))
    rw [f2]
    omega
  · show (correctLowestHold T s).userInputCounter ≤ 0 + 2 * s.userInputCounter
    rw [f2]; omega

/-- The state in which the loop of `decodeMessage()` is left, for fewer than
65535 samples, in terms of the unbounded emission. -/
theorem decodeScan_text (T : Target) (tbl : Nat → Char) (s : Decoder)
    (hcnt : s.userInputCounter ≤ 65534) (hcap : s.decodedMessageMax ≤ 65535) :
    (decodeScan T tbl s).1.newMessageIndex
        = min (unboundedText T tbl s).length s.decodedMessageMax
    ∧ (∀ k : Nat, k < (decodeScan T tbl s).1.newMessageIndex →
        (decodeScan T tbl s).1.decodedMessage (k : Int) = (unboundedText T tbl s).getD k ' ')
    ∧ (decodeScan T tbl s).1.decodedMessageMax = s.decodedMessageMax := by
  obtain ⟨f1, f2, f3, f4, f5⟩ := correctLowestHold_fields T s
  obtain ⟨a, b, c, d⟩ := decodeLoop_emits T tbl
    (decodeFuel { correctLowestHold T s with newMessageIndex := 0 })
    { correctLowestHold T s with newMessageIndex := 0 }
    { i := 0, charBuilderIndex := 5, charBuilder := 0 }
    (by show (correctLowestHold T s).userInputCounter ≤ _; rw [f2]; exact hcnt)
    (by show (correctLowestHold T s).decodedMessageMax ≤ _; rw [f1]; exact hcap)
    (Nat.zero_le _)
  rw [unboundedText_eq T tbl s hcnt] at a c
  have a' : (decodeScan T tbl s).1.newMessageIndex
      = min (0 + (unboundedText T tbl s).length) (correctLowestHold T s).decodedMessageMax := a
  rw [f1, Nat.zero_add] at a'
  refine ⟨a', ?_, d.capacity.trans f1⟩
  intro k hk
  have := c k (by show 0 + k < (decodeScan T tbl s).1.newMessageIndex; omega)
  rw [← this]
  show _ = (decodeScan T tbl s).1.decodedMessage ((0 + k : Nat) : Int)
  rw [Nat.zero_add]

/-- For fewer than 65535 samples `decodeMessage()` yields the unbounded
emission cut to `decodedMessageMax - 1` characters, followed by the
terminator. -/
theorem decodeMessage_text (T : Target) (tbl : Nat → Char) (s : Decoder)
    (hcnt : s.userInputCounter ≤ 65534) (hpos : 1 ≤ s.decodedMessageMax)
    (hcap : s.decodedMessageMax ≤ 65535) :
    getDecodedMessageSize (decodeMessage T tbl s)
        = min (unboundedText T tbl s).length (s.decodedMessageMax - 1)
    ∧ decodedText (decodeMessage T tbl s)
        = (unboundedText T tbl s).take (s.decodedMessageMax - 1) ++ [Char.ofNat 0] := by
  obtain ⟨a, c, d⟩ := decodeScan_text T tbl s hcnt hcap
  have hsize : getDecodedMessageSize (decodeMessage T tbl s)
      = min (unboundedText T tbl s).length (s.decodedMessageMax - 1) := by
    rw [decodeMessage_size]
    by_cases hroom : (decodeScan T tbl s).1.newMessageIndex
        < (decodeScan T tbl s).1.decodedMessageMax
    · rw [terminate_size_room _ hroom]; rw [d] at hroom; omega
    · rw [terminate_size_full _ hroom]; rw [d] at hroom; unfold u16; omega
  have hcells : ∀ k : Nat, k < getDecodedMessageSize (decodeMessage T tbl s) →
      (decodeMessage T tbl s).decodedMessage (k : Int) = (unboundedText T tbl s).getD k ' ' := by
    intro k hk
    rw [hsize] at hk
    rw [← c k (by omega)]
    unfold decodeMessage terminate
    split
    · show poke _ _ _ _ = _
      unfold poke
      have : ¬ (k : Int) = ((decodeScan T tbl s).1.newMessageIndex : Int) := by omega
      simp only [this, if_false]
    · show poke _ _ _ _ = _
      unfold poke
      have : ¬ (k : Int) = ((decodeScan T tbl s).1.newMessageIndex : Int) - 1 := by omega
      simp only [this, if_false]
  have hterm : (decodeMessage T tbl s).decodedMessage
      ((getDecodedMessageSize (decodeMessage T tbl s) : Nat) : Int) = Char.ofNat 0 := by
    unfold getDecodedMessageSize decodeMessage terminate
    split
    · show poke _ _ _ _ = _
      unfold poke; simp
    · rename_i hfull
      rw [d] at hfull
      have e : u16 ((decodeScan T tbl s).1.newMessageIndex + 65535)
          = (decodeScan T tbl s).1.newMessageIndex - 1 := by unfold u16; omega
      show poke _ _ _ ((u16 _ : Nat) : Int) = _
      rw [e]
      unfold poke
      have : (((decodeScan T tbl s).1.newMessageIndex - 1 : Nat) : Int)
          = ((decodeScan T tbl s).1.newMessageIndex : Int) - 1 := by omega
      simp [this]
  refine ⟨hsize, ?_⟩
  unfold decodedText decodedPrefix
  have hsz : (decodeMessage T tbl s).newMessageIndex
      = getDecodedMessageSize (decodeMessage T tbl s) := rfl
  rw [hsz]
  apply List.ext_getElem
  · simp [hsize]; omega
  · intro j h1 h2
    simp only [List.getElem_map, List.getElem_range]
    by_cases hj : j < getDecodedMessageSize (decodeMessage T tbl s)
    · rw [hcells j hj]
      rw [hsize] at hj
      have hjM : j < (unboundedText T tbl s).length := by omega
      have hjt : j < ((unboundedText T tbl s).take (s.decodedMessageMax - 1)).length := by
        rw [List.length_take]; omega
      rw [List.getElem_append_left hjt, List.getElem_take, List.getD_eq_getElem?_getD,
        List.getElem?_eq_getElem hjM]
      rfl
    · simp only [List.length_map, List.length_range] at h1
      have ej : j = getDecodedMessageSize (decodeMessage T tbl s) := by omega
      have hjt : ((unboundedText T tbl s).take (s.decodedMessageMax - 1)).length ≤ j := by
        rw [List.length_take, ej, hsize]; omega
      rw [List.getElem_append_right hjt]
      simp only [List.getElem_singleton]
      rw [← hterm]
      congr 2

theorem packOpen_snoc (T : Target) (acc : List Bool) (b : Bool) :
    ∀ idx cb : Nat,
      packOpen T idx cb (acc ++ [b])
        = (u8 ((packOpen T idx cb acc).1 + 255),
           setBit T (packOpen T idx cb acc).1 (packOpen T idx cb acc).2 b) := by
  induction acc with
  | nil => intro idx cb; rfl
  | cons a acc ih => intro idx cb; exact ih _ _

theorem packCode_snoc (T : Target) (acc : List Bool) (b : Bool) :
    packCode T (acc ++ [b])
      = closeCode T (packOpen T 5 0 acc).1 (packOpen T 5 0 acc).2 b := by
  unfold packCode
  simp [List.dropLast_concat]

theorem mulPromoted_of_le (T : Target) (k x : Nat) (h : k * x ≤ 65535) :
    mulPromoted T k x = k * x := by
  unfold mulPromoted
  split
  · rfl
  · omega

/-- The unbounded emission follows the boundary rule: from a position at which
the symbols `acc` of the current character have been written, for the
samples `h, r₁, h₂, ...` up to the end of the committed samples. -/
theorem emitFrom_pieces (T : Target) (tbl : Nat → Char) (s : Decoder)
    (hm : 6 * s.lowestInputReleaseMs ≤ 65535) (rest : List (Nat × Nat)) :
    ∀ (acc : List Bool) (h i fuel : Nat),
      (∀ k, k < (messageSamples h rest).length →
          s.userInput (i + k) = (messageSamples h rest).getD k 0) →
      s.userInputCounter = i + (messageSamples h rest).length →
      rest.length < fuel →
      emitFrom T tbl s fuel
          { i := i, charBuilderIndex := (packOpen T 5 0 acc).1,
            charBuilder := (packOpen T 5 0 acc).2 }
        = (specPieces (dashAt T s) s.lowestInputReleaseMs acc h rest).map
            (Piece.renderPacked T tbl) := by
  have h2 : shl1 T s.lowestInputReleaseMs = 2 * s.lowestInputReleaseMs :=
    mulPromoted_of_le T 2 _ (by omega)
  have h6 : mulPromoted T 6 s.lowestInputReleaseMs = 6 * s.lowestInputReleaseMs :=
    mulPromoted_of_le T 6 _ hm
  induction rest with
  | nil =>
    intro acc h i fuel hs hc hf
    obtain ⟨f, rfl⟩ : ∃ f, fuel = f + 1 := ⟨fuel - 1, by omega⟩
    simp only [messageSamples, List.length_singleton] at hs hc
    have h0 := hs 0 (by omega)
    simp only [Nat.add_zero, List.getD_cons_zero] at h0
    have he : endsChar T s i = true := by
      unfold endsChar
      simp only [Bool.or_eq_true, decide_eq_true_eq]
      left; omega
    have hsp : spaceAfter T s i = false := by
      unfold spaceAfter
      simp only [Bool.and_eq_false_iff, decide_eq_false_iff_not]
      left; omega
    unfold emitFrom
    rw [if_pos (by show i < s.userInputCounter; omega)]
    simp only [he, hsp, if_true, Bool.false_eq_true, if_false, List.nil_append]
    rw [emitFrom_done T tbl s f _ (by show ¬ i + 2 < s.userInputCounter; omega)]
    rw [lookupCode_eq]
    simp only [h0, specPieces, List.map_cons, List.map_nil, Piece.renderPacked, packCode_snoc,
      dashAt]
  | cons p rest ih =>
    obtain ⟨r, h'⟩ := p
    intro acc h i fuel hs hc hf
    obtain ⟨f, rfl⟩ : ∃ f, fuel = f + 1 := ⟨fuel - 1, by omega⟩
    simp only [messageSamples, List.length_cons] at hs hc hf
    have h0 := hs 0 (by omega)
    have h1 := hs 1 (by omega)
    simp only [Nat.add_zero, List.getD_cons_zero, List.getD_cons_succ] at h0 h1
    have hs' : ∀ k, k < (messageSamples h' rest).length →
        s.userInput (i + 2 + k) = (messageSamples h' rest).getD k 0 := by
      intro k hk
      have := hs (k + 2) (by omega)
      simp only [List.getD_cons_succ] at this
      rw [← this]; congr 1; omega
    have hc' : s.userInputCounter = i + 2 + (messageSamples h' rest).length := by omega
    have hlen := messageSamples_length h' rest
    have hsp : spaceAfter T s i = decide (6 * s.lowestInputReleaseMs < r) := by
      unfold spaceAfter
      rw [h6, h1]
      have : decide ((i : Int) < (s.userInputCounter : Int) - 1) = true := by
        simp only [decide_eq_true_eq]; omega
      rw [this, Bool.true_and]
    unfold emitFrom
    rw [if_pos (by show i < s.userInputCounter; omega)]
    by_cases hb : 2 * s.lowestInputReleaseMs < r
    · have he : endsChar T s i = true := by
        unfold endsChar
        simp only [Bool.or_eq_true, decide_eq_true_eq]
        right; rw [h2, h1]; exact hb
      simp only [he, if_true]
      have := ih [] h' (i + 2) f hs' hc' (by omega)
      simp only [packOpen] at this
      rw [this, lookupCode_eq, hsp]
      simp only [h0, specPieces, hb, if_true, List.map_cons, List.map_append,
        Piece.renderPacked, packCode_snoc, dashAt]
      by_cases h6r : 6 * s.lowestInputReleaseMs < r
      · simp [h6r, Piece.renderPacked]
      · simp [h6r]
    · have he : endsChar T s i = false := by
        unfold endsChar
        simp only [Bool.or_eq_false_iff, decide_eq_false_iff_not]
        refine ⟨by omega, ?_⟩
        rw [h2, h1]; exact hb
      simp only [he, Bool.false_eq_true, if_false]
      have := ih (acc ++ [dashAt T s h]) h' (i + 2) f hs' hc' (by omega)
      rw [packOpen_snoc] at this
      simp only [] at this
      rw [classifyBit_eq]
      simp only [h0]
      rw [show decide (shl1 T s.lowestInputHoldMs < h) = dashAt T s h from rfl, this]
      simp only [specPieces, hb, if_false]

theorem specPieces_nonempty (dash : Nat → Bool) (m : Nat) (rest : List (Nat × Nat)) :
    ∀ (acc : List Bool) (h : Nat) (symbols : List Bool),
      Piece.char symbols ∈ specPieces dash m acc h rest → 1 ≤ symbols.length := by
  induction rest with
  | nil =>
    intro acc h symbols hp
    simp only [specPieces, List.mem_singleton, Piece.char.injEq] at hp
    rw [hp]; simp
  | cons p rest ih =>
    obtain ⟨r, h'⟩ := p
    intro acc h symbols hp
    unfold specPieces at hp
    split at hp
    · simp only [List.mem_cons, Piece.char.injEq, List.mem_append] at hp
      rcases hp with hp | hp | hp
      · rw [hp]; simp
      · split at hp <;> simp at hp
      · exact ih _ _ _ hp
    · exact ih _ _ _ hp

theorem render_eq_renderPacked (T : Target) (tbl : Nat → Char) (pieces : List Piece)
    (hne : ∀ symbols, Piece.char symbols ∈ pieces → 1 ≤ symbols.length)
    (hshort : ∀ p ∈ pieces, p.short = true) :
    pieces.map (Piece.renderPacked T tbl) = pieces.map (Piece.render tbl) := by
  apply List.map_congr_left
  intro p hp
  cases p with
  | space => rfl
  | char symbols =>
    have h5 := hshort _ hp
    simp only [Piece.short, decide_eq_true_eq] at h5
    simp only [Piece.renderPacked, Piece.render, packCode_eq_spec T symbols (hne _ hp) h5]

/-- The boundary rule of C10 for fewer than 65535 samples: with the committed
samples `[h₁, r₁, ..., hₙ]`, `6 * lowestInputReleaseMs` not overflowing, at
most five holds in every character and room for the whole output,
`decodeMessage()` yields exactly the pieces of the boundary rule, followed by
the terminator. -/
theorem boundaries_below_wrap (T : Target) (tbl : Nat → Char) (s : Decoder) (h1 : Nat)
    (rest : List (Nat × Nat))
    (hs : ∀ k, k < (messageSamples h1 rest).length →
      s.userInput k = (messageSamples h1 rest).getD k 0)
    (hc : s.userInputCounter = 2 * rest.length + 1)
    (hcnt : s.userInputCounter ≤ 65534)
    (hm : 6 * s.lowestInputReleaseMs ≤ 65535)
    (hshort : ∀ p ∈ specPieces (dashAt T (correctLowestHold T s)) s.lowestInputReleaseMs [] h1
      rest, p.short = true)
    (hroom : (specPieces (dashAt T (correctLowestHold T s)) s.lowestInputReleaseMs [] h1
      rest).length < s.decodedMessageMax)
    (hcap : s.decodedMessageMax ≤ 65535) :
    decodedText (decodeMessage T tbl s)
        = (specPieces (dashAt T (correctLowestHold T s)) s.lowestInputReleaseMs [] h1 rest).map
            (Piece.render tbl) ++ [Char.ofNat 0]
    ∧ getDecodedMessageSize (decodeMessage T tbl s)
        = (specPieces (dashAt T (correctLowestHold T s)) s.lowestInputReleaseMs [] h1
            rest).length := by
  obtain ⟨f1, f2, f3, f4, f5⟩ := correctLowestHold_fields T s
  have hlen := messageSamples_length h1 rest
  have hemit : unboundedText T tbl s
      = (specPieces (dashAt T (correctLowestHold T s)) s.lowestInputReleaseMs [] h1 rest).map
          (Piece.render tbl) := by
    rw [← render_eq_renderPacked T tbl _ (specPieces_nonempty _ _ rest [] h1) hshort]
    have := emitFrom_pieces T tbl (correctLowestHold T s) (by rw [f5]; exact hm) rest [] h1 0
      s.userInputCounter
      (fun k hk => by rw [f4, Nat.zero_add]; exact hs k hk)
      (by rw [f2, hlen, hc]; omega) (by omega)
    rw [f5] at this
    exact this
  obtain ⟨a, b⟩ := decodeMessage_text T tbl s hcnt (by omega) hcap
  rw [hemit] at a b
  rw [List.length_map] at a
  refine ⟨?_, by rw [a]; omega⟩
  rw [b, List.take_of_length_le (by rw [List.length_map]; omega)]

/-- The pieces that the boundary rule assigns to the scenario of C10. -/
theorem sos_pieces (T : Target) :
    specPieces (dashAt T (correctLowestHold T (loaded T sosSamples 50 150 50 10))) 50 []
        50 [(50, 50), (50, 50), (150, 150), (50, 150), (50, 150), (150, 50), (50, 50), (50, 50)]
      = [.char [false, false, false], .char [true, true, true], .char [false, false, false]]
    ∧ specPieces (dashAt T (correctLowestHold T (loaded T sosWideSamples 50 150 50 10)))
        50 [] 50
        [(50, 50), (50, 50), (150, 150), (50, 150), (50, 150), (350, 50), (50, 50), (50, 50)]
      = [.char [false, false, false], .char [true, true, true], .space,
         .char [false, false, false]] := by
  cases T <;> decide

/-- The scenario of C10 for every target and every alphabet table: the samples
of `SOS` decode to the table entries of the codes 7, 56, 7 and the terminator;
with one gap of 150 ms widened to 350 ms there is exactly one space, at that
gap. -/
theorem sos_text (T : Target) (tbl : Nat → Char) :
    decodedText (decodeMessage T tbl (loaded T sosSamples 50 150 50 10))
      = [tbl 7, tbl 56, tbl 7, Char.ofNat 0]
    ∧ decodedText (decodeMessage T tbl (loaded T sosWideSamples 50 150 50 10))
      = [tbl 7, tbl 56, ' ', tbl 7, Char.ofNat 0] := by
  have h1 := (boundaries_below_wrap T tbl (loaded T sosSamples 50 150 50 10) 50
    [(50, 50), (50, 50), (150, 150), (50, 150), (50, 150), (150, 50), (50, 50), (50, 50)]
    (by cases T <;> decide) (by cases T <;> decide) (by cases T <;> decide) (by cases T <;> decide) (by cases T <;> decide) (by cases T <;> decide)
    (by cases T <;> decide)).1
  have h2 := (boundaries_below_wrap T tbl (loaded T sosWideSamples 50 150 50 10) 50
    [(50, 50), (50, 50), (150, 150), (50, 150), (50, 150), (350, 50), (50, 50), (50, 50)]
    (by cases T <;> decide) (by cases T <;> decide) (by cases T <;> decide) (by cases T <;> decide) (by cases T <;> decide) (by cases T <;> decide)
    (by cases T <;> decide)).1
  have e1 : (loaded T sosSamples 50 150 50 10).lowestInputReleaseMs = 50 := rfl
  have e2 : (loaded T sosWideSamples 50 150 50 10).lowestInputReleaseMs = 50 := rfl
  rw [e1, (sos_pieces T).1] at h1
  rw [e2, (sos_pieces T).2] at h2
  exact ⟨h1, h2⟩

theorem decodeLoop_position (T : Target) (tbl : Nat → Char) (fuel : Nat) :
    ∀ (s : Decoder) (l : Locals), l.i % 2 = 0 → l.i < 65536 →
      (decodeLoop T tbl fuel s l).2.i % 2 = 0 ∧ (decodeLoop T tbl fuel s l).2.i < 65536 := by
  induction fuel with
  | zero => intro s l h1 h2; exact ⟨h1, h2⟩
  | succ fuel ih =>
    intro s l h1 h2
    rw [decodeLoop_succ]
    split
    · apply ih
      · unfold decodeBody; split <;> (show u16 (l.i + 2) % 2 = 0; unfold u16; omega)
      · unfold decodeBody; split <;> (show u16 (l.i + 2) < 65536; unfold u16; omega)
    · exact ⟨h1, h2⟩

/-- With 65535 committed samples the loop of `decodeMessage()` only ends when
the output buffer is full, whatever its capacity: without a capacity bound it
would not end. -/
theorem full_sample_buffer_fills_output (T : Target) (tbl : Nat → Char) (s : Decoder)
    (hcnt : s.userInputCounter = 65535) (hcap : s.decodedMessageMax ≤ 65535) :
    (decodeScan T tbl s).1.newMessageIndex = s.decodedMessageMax := by
  obtain ⟨a, b, _, d⟩ := decodeScan_exits T tbl s hcap (by omega)
  obtain ⟨p1, p2⟩ := decodeLoop_position T tbl
    (decodeFuel { correctLowestHold T s with newMessageIndex := 0 })
    { correctLowestHold T s with newMessageIndex := 0 }
    { i := 0, charBuilderIndex := 5, charBuilder := 0 } rfl (by show 0 < 65536; omega)
  obtain ⟨n, m, hfr⟩ := decodeLoop_frame T tbl
    (decodeFuel { correctLowestHold T s with newMessageIndex := 0 })
    { correctLowestHold T s with newMessageIndex := 0 }
    { i := 0, charBuilderIndex := 5, charBuilder := 0 }
  have hc : (decodeScan T tbl s).1.userInputCounter = 65535 := by
    show (decodeLoop T tbl _ _ _).1.userInputCounter = 65535
    rw [hfr]
    show (correctLowestHold T s).userInputCounter = 65535
    rw [(correctLowestHold_fields T s).2.1, hcnt]
  have hi : (decodeScan T tbl s).2.i < (decodeScan T tbl s).1.userInputCounter := by
    rw [hc]
    have q1 : (decodeScan T tbl s).2.i % 2 = 0 := p1
    have q2 : (decodeScan T tbl s).2.i < 65536 := p2
    omega
  have hno : ¬ (decodeScan T tbl s).1.newMessageIndex < (decodeScan T tbl s).1.decodedMessageMax := by
    intro hn
    rw [(decodeCond_iff _ _).mpr ⟨hi, hn⟩] at a
    exact Bool.noConfusion a
  rw [d] at hno
  omega

theorem monitorState_keeps_samples (T : Target) (tbl : Nat → Char) (s : Decoder) (k : Bool)
    (t : Int) (hmax : s.userInputMax ≤ 65535) :
    s.userInputCounter ≤ (monitorState T tbl s k t).userInputCounter
    ∧ ∀ j, j < s.userInputCounter → (monitorState T tbl s k t).userInput j = s.userInput j := by
  rcases monitorState_cases T tbl s k t with e | e | ⟨_, e⟩ | ⟨_, e⟩ | ⟨_, e⟩ <;> rw [e]
  · exact ⟨Nat.le_refl _, fun _ _ => rfl⟩
  · exact ⟨Nat.le_refl _, fun _ _ => rfl⟩
  · refine ⟨?_, ?_⟩
    · show _ ≤ (keyDownTick s _).userInputCounter
      rw [keyDownTick_counter]
      split
      · unfold u16; omega
      · exact Nat.le_refl _
    · intro j hj
      show (keyDownTick s _).userInput j = _
      rw [keyDownTick_userInput]
      split
      · unfold poke
        have : ¬ j = s.userInputCounter := by omega
        simp only [this, if_false]
      · rfl
  · refine ⟨?_, ?_⟩
    · show _ ≤ (keyUpTick s).userInputCounter
      rw [keyUpTick_counter]
      split
      · unfold u16; omega
      · exact Nat.le_refl _
    · intro j hj
      show (keyUpTick s).userInput j = _
      rw [keyUpTick_userInput]
      split
      · unfold poke
        have : ¬ j = s.userInputCounter := by omega
        simp only [this, if_false]
      · rfl
  · refine ⟨Nat.le_of_eq (decodeTick_samples T tbl s).1.symm, ?_⟩
    intro j _
    show (decodeTick T tbl s).userInput j = _
    rw [(decodeTick_samples T tbl s).2.1]

/-- Calls other than `acknowledgeMessage` never lower the sample count and
never change a committed sample. -/
theorem runCalls_keeps_samples (T : Target) (tbl : Nat → Char) (cs : List Call) :
    ∀ s : Decoder, s.userInputMax ≤ 65535 → (∀ c ∈ cs, c ≠ Call.acknowledge) →
      s.userInputCounter ≤ (runCalls T tbl s cs).userInputCounter
      ∧ ∀ j, j < s.userInputCounter → (runCalls T tbl s cs).userInput j = s.userInput j := by
  induction cs with
  | nil => intro s _ _; exact ⟨Nat.le_refl _, fun _ _ => rfl⟩
  | cons c cs ih =>
    intro s hmax hcs
    have hc := hcs c (List.mem_cons_self _ _)
    have step : s.userInputCounter ≤ (c.apply T tbl s).userInputCounter
        ∧ ∀ j, j < s.userInputCounter → (c.apply T tbl s).userInput j = s.userInput j := by
      cases c with
      | monitor k t => exact monitorState_keeps_samples T tbl s k t hmax
      | acknowledge => exact absurd rfl hc
      | setUpperLimit v => exact ⟨Nat.le_refl _, fun _ _ => rfl⟩
      | setDebounce v => exact ⟨Nat.le_refl _, fun _ _ => rfl⟩
      | setFinishedTyping v => exact ⟨Nat.le_refl _, fun _ _ => rfl⟩
    obtain ⟨a, b⟩ := ih (c.apply T tbl s) (by rw [Call.apply_userInputMax]; exact hmax)
      (fun c' hc' => hcs c' (List.mem_cons_of_mem _ hc'))
    refine ⟨Nat.le_trans step.1 a, ?_⟩
    intro j hj
    show (runCalls T tbl (c.apply T tbl s) cs).userInput j = _
    rw [b j (by omega), step.2 j hj]

/-- C19: `decodeMessage()` and the tick that invokes it leave
`userInputCounter` and the sample buffer unchanged; `acknowledgeMessage` sets
the count to 0; and no sequence of other calls lowers the count or changes a
sample committed before, so the samples of a message keyed after a decode
without an acknowledgement are stored after the samples of the message before
it and the next decode reads both. -/
theorem decoding_keeps_samples (T : Target) (tbl : Nat → Char) (s : Decoder)
    (hmax : s.userInputMax ≤ 65535) :
    ((decodeMessage T tbl s).userInputCounter = s.userInputCounter
      ∧ (decodeMessage T tbl s).userInput = s.userInput)
    ∧ ((decodeTick T tbl s).userInputCounter = s.userInputCounter
      ∧ (decodeTick T tbl s).userInput = s.userInput)
    ∧ (∀ t, decodes T s false t = true →
        (monitorUserInput T tbl s false t).1.userInputCounter = s.userInputCounter
        ∧ (monitorUserInput T tbl s false t).1.userInput = s.userInput)
    ∧ (acknowledgeMessage s).userInputCounter = 0
    ∧ ∀ cs : List Call, (∀ c ∈ cs, c ≠ Call.acknowledge) →
        s.userInputCounter ≤ (runCalls T tbl s cs).userInputCounter
        ∧ ∀ j, j < s.userInputCounter → (runCalls T tbl s cs).userInput j = s.userInput j := by
  obtain ⟨n, m, low, h⟩ := decodeMessage_frame T tbl s
  refine ⟨by rw [h]; exact ⟨rfl, rfl⟩,
    ⟨(decodeTick_samples T tbl s).1, (decodeTick_samples T tbl s).2.1⟩, ?_, rfl,
    fun cs hcs => runCalls_keeps_samples T tbl cs s hmax hcs⟩
  intro t hd
  simp only [decodes, Bool.and_eq_true, decide_eq_true_eq, Bool.not_eq_true', currentlyTyping,
    decide_eq_false_iff_not, Bool.not_false] at hd
  obtain ⟨⟨⟨h1, _⟩, h3⟩, h4⟩ := hd
  show (monitorState T tbl s false t).userInputCounter = _ ∧ (monitorState T tbl s false t).userInput = _
  rw [monitorState_decode T tbl s t h1 (by omega) h4]
  exact ⟨(decodeTick_samples T tbl s).1, (decodeTick_samples T tbl s).2.1⟩

/-- Witness of C19: a hold of 2 ms is decoded, and a second hold of 2 ms keyed
without an acknowledgement is committed behind it, so that the second decode
finds the samples `[2, 2]`. -/
theorem decoding_keeps_samples_witness :
    ((runCalls .avr sampleAlphabet (construct .avr zeroStorage 8 8) firstMessageCalls).userInputMax
        ≤ 65535
      ∧ (∀ c ∈ secondMessageCalls, c ≠ Call.acknowledge)
      ∧ committed (runCalls .avr sampleAlphabet (construct .avr zeroStorage 8 8) firstMessageCalls)
          = [2]
      ∧ committed (runCalls .avr sampleAlphabet
          (runCalls .avr sampleAlphabet (construct .avr zeroStorage 8 8) firstMessageCalls)
          secondMessageCalls) = [2, 2])
    ∧ (runCalls .avr sampleAlphabet (construct .avr zeroStorage 8 8)
        firstMessageCalls).userInputCounter
      ≤ (runCalls .avr sampleAlphabet
          (runCalls .avr sampleAlphabet (construct .avr zeroStorage 8 8) firstMessageCalls)
          secondMessageCalls).userInputCounter :=
  ⟨by decide,
   ((decoding_keeps_samples .avr sampleAlphabet
      (runCalls .avr sampleAlphabet (construct .avr zeroStorage 8 8) firstMessageCalls)
      (by decide)).2.2.2.2 secondMessageCalls (by decide)).1⟩

theorem subULong_span (T : Target) (tl t : Int) (h1 : tl ≤ t)
    (h2 : t - tl < (2 ^ T.longBits : Nat)) :
    subULong T (toULong T t) (toULong T tl) = (t - tl).toNat := by
  cases T <;> simp only [subULong, toULong, Target.longBits] at h2 ⊢ <;> omega

/-- Key-up ticks outside the inactivity window change nothing but `lastMillis`
once the message is decoded. -/
theorem idle_ticks (T : Target) (tbl : Nat → Char) (ts : List Int) :
    ∀ s : Decoder, s.messageDecoded = true →
      (∀ t ∈ ts, s.finishedTypingMs < subULong T (toULong T t) s.lastUserInputMs) →
      ∃ m, runCalls T tbl s (ts.map (Call.monitor false)) = { s with lastMillis := m } := by
  induction ts with
  | nil => intro s _ _; exact ⟨s.lastMillis, rfl⟩
  | cons t ts ih =>
    intro s hmd hts
    have ht := hts t (List.mem_cons_self _ _)
    have hrest : ∀ t' ∈ ts, s.finishedTypingMs < subULong T (toULong T t') s.lastUserInputMs :=
      fun t' h' => hts t' (List.mem_cons_of_mem _ h')
    show ∃ m, runCalls T tbl (monitorState T tbl s false t) (ts.map (Call.monitor false)) = _
    by_cases hclk : toULong T t = s.lastMillis
    · rw [monitorState_skip T tbl s false t hclk]
      exact ih s hmd hrest
    · rw [monitorState_idle T tbl s t hclk ht hmd]
      obtain ⟨m, hm⟩ := ih { s with lastMillis := toULong T t } hmd hrest
      exact ⟨m, by rw [hm]⟩

/-- C16: when a key-up tick triggers the decoder, the state after that
`monitorUserInput` call has both run counters at 0, `messageDecoded` and
`newMessageReady` set and the trackers at 65535, 0 and 65535, and the call
returns true.  Consequently further key-up ticks, whose timestamps do not
decrease and lie less than the range of `long` after the last key-down tick,
change nothing except `lastMillis`, and none of them runs the decoder. -/
theorem post_decode_reset (T : Target) (tbl : Nat → Char) (s : Decoder) (t : Int)
    (hdec : decodes T s false t = true) :
    ((monitorUserInput T tbl s false t).2 = true
      ∧ (monitorUserInput T tbl s false t).1.keyHoldCounterMs = 0
      ∧ (monitorUserInput T tbl s false t).1.keyReleaseCounterMs = 0
      ∧ (monitorUserInput T tbl s false t).1.messageDecoded = true
      ∧ (monitorUserInput T tbl s false t).1.newMessageReady = true
      ∧ (monitorUserInput T tbl s false t).1.lowestInputHoldMs = 65535
      ∧ (monitorUserInput T tbl s false t).1.highestInputHoldMs = 0
      ∧ (monitorUserInput T tbl s false t).1.lowestInputReleaseMs = 65535)
    ∧ ∀ (tl : Int) (ts : List Int), s.lastUserInputMs = toULong T tl → tl ≤ t →
        (∀ t' ∈ ts, t ≤ t' ∧ t' - tl < (2 ^ T.longBits : Nat)) →
        (∃ m, runCalls T tbl (monitorUserInput T tbl s false t).1 (ts.map (Call.monitor false))
            = { (monitorUserInput T tbl s false t).1 with lastMillis := m })
        ∧ ∀ t', decodes T
            (runCalls T tbl (monitorUserInput T tbl s false t).1 (ts.map (Call.monitor false)))
            false t' = false := by
  simp only [decodes, Bool.and_eq_true, decide_eq_true_eq, Bool.not_eq_true', currentlyTyping,
    decide_eq_false_iff_not, Bool.not_false] at hdec
  obtain ⟨⟨⟨h1, _⟩, h3⟩, h4⟩ := hdec
  have h3' : s.finishedTypingMs < subULong T (toULong T t) s.lastUserInputMs := by omega
  have e : (monitorUserInput T tbl s false t).1
      = { decodeTick T tbl s with lastMillis := toULong T t } :=
    monitorState_decode T tbl s t h1 h3' h4
  obtain ⟨n, m, low, hfr⟩ := decodeMessage_frame T tbl s
  have hfin : (monitorUserInput T tbl s false t).1.finishedTypingMs = s.finishedTypingMs := by
    rw [e]
    show (decodeMessage T tbl s).finishedTypingMs = _
    rw [hfr]
  have hlast : (monitorUserInput T tbl s false t).1.lastUserInputMs = s.lastUserInputMs := by
    rw [e]
    show (decodeMessage T tbl s).lastUserInputMs = _
    rw [hfr]
  have hmd : (monitorUserInput T tbl s false t).1.messageDecoded = true := by rw [e]; rfl
  refine ⟨?_, ?_⟩
  · have hr : (monitorUserInput T tbl s false t).2
        = (monitorUserInput T tbl s false t).1.newMessageReady := rfl
    rw [hr, e]
    exact ⟨rfl, rfl, rfl, rfl, rfl, rfl, rfl, rfl⟩
  · intro tl ts hl htl hts
    have key : ∃ m, runCalls T tbl (monitorUserInput T tbl s false t).1
        (ts.map (Call.monitor false))
          = { (monitorUserInput T tbl s false t).1 with lastMillis := m } := by
      apply idle_ticks T tbl ts _ hmd
      intro t' ht'
      obtain ⟨a, b⟩ := hts t' ht'
      rw [hfin, hlast, hl, subULong_span T tl t' (by omega) b]
      rw [hl, subULong_span T tl t htl (by omega)] at h3'
      omega
    refine ⟨key, ?_⟩
    intro t'
    obtain ⟨m', hm'⟩ := key
    rw [hm']
    simp only [decodes, hmd, Bool.not_true, Bool.and_false]

/-- Witness of C16: with a debounce interval of 1 ms and an inactivity window
of 3 ms, a hold of 2 ms is decoded by the key-up tick at 6 ms, and the key-up
ticks at 7, 8 and 9 ms change nothing but `lastMillis`. -/
theorem post_decode_reset_witness :
    decodes .avr (runCalls .avr sampleAlphabet (construct .avr zeroStorage 8 8)
        [.setDebounce 1, .setFinishedTyping 3, .monitor true 1, .monitor true 2,
         .monitor false 3, .monitor false 4, .monitor false 5]) false 6 = true
    ∧ ∃ m, runCalls .avr sampleAlphabet
        (monitorUserInput .avr sampleAlphabet
          (runCalls .avr sampleAlphabet (construct .avr zeroStorage 8 8)
            [.setDebounce 1, .setFinishedTyping 3, .monitor true 1, .monitor true 2,
             .monitor false 3, .monitor false 4, .monitor false 5]) false 6).1
        ([7, 8, 9].map (Call.monitor false))
        = { (monitorUserInput .avr sampleAlphabet
              (runCalls .avr sampleAlphabet (construct .avr zeroStorage 8 8)
                [.setDebounce 1, .setFinishedTyping 3, .monitor true 1, .monitor true 2,
                 .monitor false 3, .monitor false 4, .monitor false 5]) false 6).1 with
            lastMillis := m } :=
  ⟨by decide,
   ((post_decode_reset .avr sampleAlphabet
      (runCalls .avr sampleAlphabet (construct .avr zeroStorage 8 8)
        [.setDebounce 1, .setFinishedTyping 3, .monitor true 1, .monitor true 2,
         .monitor false 3, .monitor false 4, .monitor false 5]) 6 (by decide)).2
      2 [7, 8, 9] (by decide) (by decide) (by decide)).1⟩

/-- C18 at the failing input: seven holds of 50 ms with gaps of 50 ms are seven
dots of one character.  The loop of `decodeMessage()` reaches the pass for the
seventh hold (`i = 12`) with `charBuilderIndex = 255`, outside `0..5`: the
decrement at the end of the sixth pass wraps the `uint8_t` from 0.  That pass
runs, and it takes the branch that ends the character, which evaluates
`charBuilder >> charBuilderIndex` with the shift count 255. -/
theorem shift_position_leaves_range (T : Target) (tbl : Nat → Char) :
    decodeLoop T tbl 6 (sevenDots T) { i := 0, charBuilderIndex := 5, charBuilder := 0 }
      = (sevenDots T, { i := 12, charBuilderIndex := 255, charBuilder := 0 })
    ∧ decodeScan T tbl (loaded T sevenDotSamples 50 50 50 16)
      = decodeLoop T tbl (decodeFuel (sevenDots T) - 6) (sevenDots T)
          { i := 12, charBuilderIndex := 255, charBuilder := 0 }
    ∧ decodeCond (sevenDots T) { i := 12, charBuilderIndex := 255, charBuilder := 0 } = true
    ∧ closesChar T (sevenDots T) { i := 12, charBuilderIndex := 255, charBuilder := 0 }
      = true := by
  have h6 : decodeLoop T tbl 6 (sevenDots T) { i := 0, charBuilderIndex := 5, charBuilder := 0 }
      = (sevenDots T, { i := 12, charBuilderIndex := 255, charBuilder := 0 }) := by
    have h := decodeLoop_open T tbl (sevenDots T) (by cases T <;> decide)
      (by cases T <;> decide) (by cases T <;> decide) [50, 50, 50, 50, 50, 50] 0 5 0
      (by cases T <;> decide) (by cases T <;> decide)
    have hp : packOpen T 5 0 ([50, 50, 50, 50, 50, 50].map (symbolOf (sevenDots T))) = (255, 0) := by
      cases T <;> decide
    rw [hp] at h
    exact h
  refine ⟨h6, ?_, by cases T <;> decide, by cases T <;> decide⟩
  have hf : decodeFuel (sevenDots T) = 6 + (decodeFuel (sevenDots T) - 6) := by
    unfold decodeFuel; omega
  have e : decodeScan T tbl (loaded T sevenDotSamples 50 50 50 16)
      = decodeLoop T tbl (decodeFuel (sevenDots T)) (sevenDots T)
          { i := 0, charBuilderIndex := 5, charBuilder := 0 } := by
    unfold decodeScan sevenDots
    rfl
  rw [e]
  conv => lhs; rw [hf]
  rw [decodeLoop_add, h6]

/-- C12 at the failing input: the holds of 90 ms and 150 ms are close together
(150 ≤ 2 * 90), and the hold of 150 ms is not below the limit of 100 ms, yet
the decoder registers it as a dit: the lowest hold is below the limit, so the
degenerate-input correction does not apply, and 150 does not exceed twice the
lowest hold.  The decoded character is the table entry of the code 15 (two
dits); with the hold of 150 ms as a dah the code is 16. -/
theorem hold_above_limit_registered_as_dit (T : Target) (tbl : Nat → Char) :
    ((nearLimitMessage T).highestInputHoldMs ≤ 2 * (nearLimitMessage T).lowestInputHoldMs
      ∧ (nearLimitMessage T).userInput 2 = 150
      ∧ (nearLimitMessage T).timeUnitUpperLimitMs ≤ (nearLimitMessage T).userInput 2)
    ∧ dashAt T (correctLowestHold T (nearLimitMessage T)) ((nearLimitMessage T).userInput 2)
        = false
    ∧ decodedText (decodeMessage T tbl (nearLimitMessage T)) = [tbl 15, Char.ofNat 0]
    ∧ specLookupCode [false, false] = 15 ∧ specLookupCode [false, true] = 16 := by
  refine ⟨by cases T <;> decide, by cases T <;> decide, ?_, by decide, by decide⟩
  have h := (boundaries_below_wrap T tbl (nearLimitMessage T) 90 [(50, 150)]
    (by cases T <;> decide) (by cases T <;> decide) (by cases T <;> decide)
    (by cases T <;> decide) (by cases T <;> decide) (by cases T <;> decide)
    (by cases T <;> decide)).1
  have e : (nearLimitMessage T).lowestInputReleaseMs = 50 := rfl
  have hp : specPieces (dashAt T (correctLowestHold T (nearLimitMessage T))) 50 [] 90 [(50, 150)]
      = [.char [false, false]] := by cases T <;> decide
  rw [e, hp] at h
  exact h

theorem decodeMessage_lowestHold (T : Target) (tbl : Nat → Char) (s : Decoder) :
    (decodeMessage T tbl s).lowestInputHoldMs = (correctLowestHold T s).lowestInputHoldMs := by
  unfold decodeMessage decodeScan
  obtain ⟨n, m, h⟩ := decodeLoop_frame T tbl
    (decodeFuel { correctLowestHold T s with newMessageIndex := 0 })
    { correctLowestHold T s with newMessageIndex := 0 }
    { i := 0, charBuilderIndex := 5, charBuilder := 0 }
  simp only [] at h ⊢
  rw [h]
  unfold terminate
  split <;> rfl

/-- The five dashes of `fiveDashSamples` decode to the single lookup code
`0b111110 = 62`, for every target and every alphabet table. -/
theorem five_dashes_text (T : Target) (tbl : Nat → Char) :
    decodedText (decodeMessage T tbl (loaded T fiveDashSamples 150 150 150 10))
      = [tbl 62, Char.ofNat 0] := by
  have h := (boundaries_below_wrap T tbl (loaded T fiveDashSamples 150 150 150 10) 150
    [(150, 150), (150, 150), (150, 150), (150, 150)]
    (by cases T <;> decide) (by cases T <;> decide) (by cases T <;> decide)
    (by cases T <;> decide) (by cases T <;> decide) (by cases T <;> decide)
    (by cases T <;> decide)).1
  have e : (loaded T fiveDashSamples 150 150 150 10).lowestInputReleaseMs = 150 := rfl
  have hp : specPieces (dashAt T (correctLowestHold T (loaded T fiveDashSamples 150 150 150 10)))
      150 [] 150 [(150, 150), (150, 150), (150, 150), (150, 150)]
      = [.char [true, true, true, true, true]] := by cases T <;> decide
  rw [e, hp] at h
  exact h

/-- The degenerate-input correction where it works: when the lowest hold is not below
`timeUnitUpperLimitMs` and the highest hold is at most twice the lowest,
`decodeMessage()` classifies every hold that is positive and not below the
lowest hold (every committed hold of a recorded message) as a dash, and every
pass of its loop over such a hold sets the bit.  It forces `lowestInputHoldMs`
to 0 when all holds are equal, when twice the lowest hold fits 16 bits, or when
`int` is wider than 16 bits. -/
theorem degenerate_input_all_dashes (T : Target) (tbl : Nat → Char) (s : Decoder)
    (hlim : s.timeUnitUpperLimitMs ≤ s.lowestInputHoldMs)
    (hclose : s.highestInputHoldMs ≤ 2 * s.lowestInputHoldMs)
    (hlow : s.lowestInputHoldMs ≤ 65535) :
    ((s.highestInputHoldMs = s.lowestInputHoldMs ∨ 2 * s.lowestInputHoldMs ≤ 65535
        ∨ 16 < T.intBits) →
      (decodeMessage T tbl s).lowestInputHoldMs = 0)
    ∧ (∀ hold, 0 < hold → s.lowestInputHoldMs ≤ hold →
        dashAt T (correctLowestHold T s) hold = true)
    ∧ (∀ l : Locals, 0 < s.userInput l.i → s.lowestInputHoldMs ≤ s.userInput l.i →
        classifyBit T (correctLowestHold T s) l
          = u8 (l.charBuilder ||| shlUL T l.charBuilderIndex)) := by
  have hforce : (s.highestInputHoldMs = s.lowestInputHoldMs ∨ 2 * s.lowestInputHoldMs ≤ 65535
      ∨ 16 < T.intBits) → (correctLowestHold T s).lowestInputHoldMs = 0 := by
    intro h
    have hc : s.highestInputHoldMs = s.lowestInputHoldMs
        ∨ s.highestInputHoldMs ≤ shl1 T s.lowestInputHoldMs := by
      rcases h with h | h | h
      · exact Or.inl h
      · right; rw [shl1_of_le T _ h]; exact hclose
      · right
        unfold shl1 mulPromoted
        rw [if_pos h]
        exact hclose
    unfold correctLowestHold
    rw [if_pos ⟨hlim, hc⟩]
  have hdash : ∀ hold, 0 < hold → s.lowestInputHoldMs ≤ hold →
      shl1 T (correctLowestHold T s).lowestInputHoldMs < hold := by
    intro hold hpos hge
    unfold correctLowestHold
    split
    · show shl1 T 0 < hold
      rw [shl1_of_le T 0 (by omega)]
      omega
    · rename_i hno
      show shl1 T s.lowestInputHoldMs < hold
      by_cases h2 : 2 * s.lowestInputHoldMs ≤ 65535
      · exact absurd ⟨hlim, Or.inr (by rw [shl1_of_le T _ h2]; exact hclose)⟩ hno
      · by_cases h16 : 16 < T.intBits
        · exfalso
          apply hno
          refine ⟨hlim, Or.inr ?_⟩
          unfold shl1 mulPromoted
          rw [if_pos h16]
          exact hclose
        · unfold shl1 mulPromoted
          rw [if_neg h16]
          omega
  refine ⟨fun h => by rw [decodeMessage_lowestHold]; exact hforce h, ?_, ?_⟩
  · intro hold hpos hge
    unfold dashAt
    exact decide_eq_true (hdash hold hpos hge)
  · intro l hpos hge
    unfold classifyBit
    rw [(correctLowestHold_fields T s).2.2.2.1, if_pos (hdash _ hpos hge)]

/-- The scenario of five equal holds: five holds of 150 ms with uniform gaps and the default
limit of 100 ms: the lowest hold is forced to 0, a hold of 150 ms is a dash,
and the message decodes to the table entry of the single code 62. -/
theorem degenerate_input_all_dashes_witness :
    ((loaded .avr fiveDashSamples 150 150 150 10).timeUnitUpperLimitMs
        ≤ (loaded .avr fiveDashSamples 150 150 150 10).lowestInputHoldMs
      ∧ (loaded .avr fiveDashSamples 150 150 150 10).highestInputHoldMs
        ≤ 2 * (loaded .avr fiveDashSamples 150 150 150 10).lowestInputHoldMs)
    ∧ (decodeMessage .avr sampleAlphabet
        (loaded .avr fiveDashSamples 150 150 150 10)).lowestInputHoldMs = 0
    ∧ dashAt .avr (correctLowestHold .avr (loaded .avr fiveDashSamples 150 150 150 10)) 150
        = true
    ∧ decodedText (decodeMessage .avr sampleAlphabet (loaded .avr fiveDashSamples 150 150 150 10))
        = [sampleAlphabet 62, Char.ofNat 0] :=
  ⟨by decide,
   (degenerate_input_all_dashes .avr sampleAlphabet (loaded .avr fiveDashSamples 150 150 150 10)
      (by decide) (by decide) (by decide)).1 (Or.inl rfl),
   (degenerate_input_all_dashes .avr sampleAlphabet (loaded .avr fiveDashSamples 150 150 150 10)
      (by decide) (by decide) (by decide)).2.1 150 (by decide) (by decide),
   five_dashes_text .avr sampleAlphabet⟩

/-- C11 at the failing input: on a target with an `int` of 16 bits, the holds of
40000 ms and 50000 ms satisfy `lowest ≥ limit` and `2 * lowest ≥ highest`, so
`decodeMessage()` has to force `lowestInputHoldMs` to 0, as the comment at its
head says.  It leaves it at 40000: `lowestInputHoldMs << 1` wraps to 14464,
which is below the highest hold, so the guard is false.  On a target with an
`int` of 32 bits the same input is forced to 0.  Both holds are still
dashes. -/
theorem lowest_hold_kept_on_wrap :
    ((slowMessage .avr).timeUnitUpperLimitMs ≤ (slowMessage .avr).lowestInputHoldMs
      ∧ (slowMessage .avr).highestInputHoldMs ≤ 2 * (slowMessage .avr).lowestInputHoldMs)
    ∧ shl1 .avr (slowMessage .avr).lowestInputHoldMs = 14464
    ∧ (decodeMessage .avr sampleAlphabet (slowMessage .avr)).lowestInputHoldMs = 40000
    ∧ dashAt .avr (correctLowestHold .avr (slowMessage .avr)) 40000 = true
    ∧ dashAt .avr (correctLowestHold .avr (slowMessage .avr)) 50000 = true
    ∧ (decodeMessage .ilp32 sampleAlphabet (slowMessage .ilp32)).lowestInputHoldMs = 0 := by
  refine ⟨by decide, by decide, ?_, by decide, by decide, ?_⟩
  · rw [decodeMessage_lowestHold]
    decide
  · rw [decodeMessage_lowestHold]
    decide

/-! ## Runs that the debounce interval absorbs -/

theorem keyUpTick_absorb (s : Decoder) (h : s.keyHoldCounterMs ≤ s.debounceIntervalMs) :
    keyUpTick s = { s with keyReleaseCounterMs := u16 (s.keyReleaseCounterMs + 1) } := by
  have hno : ¬ (s.debounceIntervalMs < s.keyHoldCounterMs
      ∧ s.userInputCounter < s.userInputMax) := by omega
  unfold keyUpTick
  simp only [hno, if_false]

/-- A key-up tick inside the inactivity window that finds a hold run not longer
than the debounce interval. -/
theorem keyUp_absorb (T : Target) (tbl : Nat → Char) (cfg s : Decoder) (c : List Nat)
    (lo hi lr : Nat) (t : Int) (hr : Recorded cfg s c lo hi lr)
    (hhold : s.keyHoldCounterMs ≤ s.debounceIntervalMs) (hclk : toULong T t ≠ s.lastMillis)
    (hty : subULong T (toULong T t) s.lastUserInputMs ≤ s.finishedTypingMs)
    (hh : s.keyReleaseCounterMs < 65535) :
    Recorded cfg (monitorState T tbl s false t) c lo hi lr
    ∧ (monitorState T tbl s false t).keyHoldCounterMs = s.keyHoldCounterMs
    ∧ (monitorState T tbl s false t).keyReleaseCounterMs = s.keyReleaseCounterMs + 1
    ∧ (monitorState T tbl s false t).lastUserInputMs = s.lastUserInputMs
    ∧ (monitorState T tbl s false t).lastMillis = toULong T t := by
  obtain ⟨a1, a2, a3, a4, a5, a6, a7, a8⟩ := hr
  rw [monitorState_keyUp T tbl s t hclk hty, keyUpTick_absorb s hhold]
  have hu : u16 (s.keyReleaseCounterMs + 1) = s.keyReleaseCounterMs + 1 := by unfold u16; omega
  exact ⟨⟨a1, a2, a3, a4, a5, a6, a7, a8⟩, rfl, hu, rfl, rfl⟩

/-- Key-up ticks inside the inactivity window behind a hold run not longer than
the debounce interval only count: the hold counter keeps its value. -/
theorem keyUp_absorb_run (T : Target) (tbl : Nat → Char) (cfg : Decoder) (c : List Nat)
    (lo hi lr hold : Nat) (hfin : cfg.finishedTypingMs ≤ 65535)
    (hhold : hold ≤ cfg.debounceIntervalMs) (n : Nat) :
    ∀ (s : Decoder) (rel e : Nat) (tl : Int),
      Running T cfg s c lo hi lr hold rel tl (tl + e) → rel + n ≤ 65535 →
      (1 ≤ n → e + n - 1 ≤ cfg.finishedTypingMs) →
      Running T cfg (feed T tbl s (tl + e) (List.replicate n false)) c lo hi lr hold (rel + n)
        tl (tl + e + n) := by
  induction n with
  | zero =>
    intro s rel e tl hr _ _
    simpa [feed] using hr
  | succ n ih =>
    intro s rel e tl hr hb hw
    obtain ⟨r1, r2, r3, r4, r5, r6⟩ := hr
    have hw' := hw (by omega)
    have hty : subULong T (toULong T (tl + e)) s.lastUserInputMs ≤ s.finishedTypingMs := by
      rw [r4, subULong_elapsed T tl e (by omega), r1.finished]; omega
    obtain ⟨b1, b2, b3, b4, b5⟩ := keyUp_absorb T tbl cfg s c lo hi lr (tl + e) r1
      (by rw [r2, r1.debounce]; exact hhold) r5 hty (by omega)
    have e0 : tl + (e : Int) + 1 = tl + ((e + 1 : Nat) : Int) := by push_cast; ring
    have hrun : Running T cfg (monitorState T tbl s false (tl + e)) c lo hi lr hold (rel + 1) tl
        (tl + ((e + 1 : Nat) : Int)) :=
      ⟨b1, by rw [b2, r2], by rw [b3, r3], by rw [b4, r4],
       by rw [b5, ← e0]; exact toULong_succ_ne T (tl + e),
       by rw [keyUp_typing T tbl s (tl + e) r5 hty]; exact r6⟩
    have h1 := ih _ (rel + 1) (e + 1) tl hrun (by omega) (fun _ => by omega)
    rw [List.replicate_succ, feed_cons, e0]
    have e1 : rel + 1 + n = rel + (n + 1) := by omega
    have e2 : tl + ((e + 1 : Nat) : Int) + (n : Int) = tl + e + ((n + 1 : Nat) : Int) := by
      push_cast; ring
    rw [e1, e2] at h1
    exact h1

/-- The sampler behind a bounce: on a fresh decoder with the default
configuration, one key-down tick at 1 ms and 21 key-up ticks leave nothing
committed, the hold counter at 1 and the release counter at 21; the key-down
tick at 23 ms commits the release run as the first sample. -/
theorem bounce_then_press (T : Target) (tbl : Nat → Char) :
    Running T (construct T zeroStorage 8 8)
      (feed T tbl (construct T zeroStorage 8 8) 1 (keyRuns true [1, 21])) []
      UINT16_MAX 0 UINT16_MAX 1 21 1 23
    ∧ Recorded (construct T zeroStorage 8 8)
        (feed T tbl (construct T zeroStorage 8 8) 1 (keyRuns true [1, 21, 1])) [21]
        UINT16_MAX 0 21
    ∧ (feed T tbl (construct T zeroStorage 8 8) 1 (keyRuns true [1, 21, 1])).keyHoldCounterMs
        = 2 := by
  have r0 := first_hold_run T tbl (construct T zeroStorage 8 8) 1 1
    (rested_construct T zeroStorage 8 8) (by cases T <;> decide) (by decide) (by decide)
  have e0 : (1 : Int) + ((1 : Nat) : Int) - 1 = 1 := by norm_num
  rw [e0] at r0
  have r1 := keyUp_absorb_run T tbl (construct T zeroStorage 8 8) [] UINT16_MAX 0 UINT16_MAX 1
    (by cases T <;> decide) (by cases T <;> decide) 21 _ 0 1 1 (by simpa using r0) (by decide)
    (fun _ => by cases T <;> decide)
  have e1 : (1 : Int) + ((1 : Nat) : Int) + ((21 : Nat) : Int) = 23 := by norm_num
  have e2 : (1 : Int) + ((1 : Nat) : Int) = 1 + 1 := by norm_num
  have e3 : (0 : Nat) + 21 = 21 := rfl
  rw [e1, e2, e3] at r1
  have k1 : keyRuns true [1, 21] = List.replicate 1 true ++ List.replicate 21 false := by
    simp [keyRuns]
  have k2 : keyRuns true [1, 21, 1]
      = (List.replicate 1 true ++ List.replicate 21 false) ++ [true] := by
    simp [keyRuns]
  have f1 : feed T tbl (construct T zeroStorage 8 8) 1
      (List.replicate 1 true ++ List.replicate 21 false)
      = feed T tbl (feed T tbl (construct T zeroStorage 8 8) 1 (List.replicate 1 true)) (1 + 1)
          (List.replicate 21 false) := by
    rw [feed_append]
    rfl
  have hrun : Running T (construct T zeroStorage 8 8)
      (feed T tbl (construct T zeroStorage 8 8) 1 (keyRuns true [1, 21])) []
      UINT16_MAX 0 UINT16_MAX 1 21 1 23 := by
    rw [k1, f1]
    exact r1
  refine ⟨hrun, ?_⟩
  have f2 : feed T tbl (construct T zeroStorage 8 8) 1 (keyRuns true [1, 21, 1])
      = monitorState T tbl (feed T tbl (construct T zeroStorage 8 8) 1 (keyRuns true [1, 21]))
          true 23 := by
    rw [k2, feed_append, ← k1]
    rfl
  rw [f2]
  obtain ⟨q1, q2, q3, q4, q5, q6⟩ := hrun
  obtain ⟨b1, b2, b3, b4, b5⟩ := keyDown_commit T tbl (construct T zeroStorage 8 8) _ []
    UINT16_MAX 0 UINT16_MAX 23 q1 (by rw [q1.debounce, q3]; cases T <;> decide)
    (by rw [q1.max]; cases T <;> decide) (by rw [q1.max]; cases T <;> decide) q5
    (by rw [q2]; decide)
  rw [q3] at b1
  exact ⟨b1, by rw [b2, q2]⟩

/-- C15 at the failing input: on a fresh decoder with the default debounce
interval of 20 ms, one key-down tick, 21 key-up ticks and one key-down tick,
with the timestamps 1, 2, ..., 23.  Before the last tick nothing is committed
(`userInputCounter = 0`, even), the hold counter is 1 and the release counter
is 21; the last tick, a key-down tick, commits the release run: the sample at
the even index 0 is the Release duration 21. -/
theorem release_committed_at_even_index (T : Target) (tbl : Nat → Char) :
    ((feed T tbl (construct T zeroStorage 8 8) 1 (keyRuns true [1, 21])).userInputCounter = 0
      ∧ (feed T tbl (construct T zeroStorage 8 8) 1 (keyRuns true [1, 21])).keyHoldCounterMs = 1
      ∧ (feed T tbl (construct T zeroStorage 8 8) 1 (keyRuns true [1, 21])).keyReleaseCounterMs
          = 21)
    ∧ committed (feed T tbl (construct T zeroStorage 8 8) 1 (keyRuns true [1, 21, 1])) = [21]
    ∧ getUserInputSize (feed T tbl (construct T zeroStorage 8 8) 1 (keyRuns true [1, 21, 1])) = 1
    ∧ (feed T tbl (construct T zeroStorage 8 8) 1
        (keyRuns true [1, 21, 1])).lowestInputReleaseMs = 21
    ∧ (feed T tbl (construct T zeroStorage 8 8) 1
        (keyRuns true [1, 21, 1])).keyHoldCounterMs = 2 := by
  obtain ⟨hrun, hrec, hhold⟩ := bounce_then_press T tbl
  exact ⟨⟨hrun.recorded.counter, hrun.holdCounter, hrun.releaseCounter⟩,
    committed_of_recorded _ _ _ _ _ _ hrec, hrec.counter, hrec.lowestRelease, hhold⟩

/-- C20 at the failing input: a hold of 2 ms, a gap of 2 ms and a bounce of
1 ms (debounce interval 1 ms, inactivity window 3 ms) leave the two samples
`[2, 2]` committed, an even number.  The key-up tick at 9 ms decodes them with
an output capacity of 8 and returns true, but the decoded size is 0 and the
message is empty: the loop visits only `i = 0`, where `i == userInputCounter - 1`
is false and the gap is not a character gap, so the character of the hold is
never stored. -/
theorem even_sample_count_decodes_nothing (T : Target) :
    (committed (runCalls T sampleAlphabet (construct T zeroStorage 8 8) trailingBounceCalls)
        = [2, 2]
      ∧ decodes T (runCalls T sampleAlphabet (construct T zeroStorage 8 8) trailingBounceCalls)
          false 9 = true
      ∧ (runCalls T sampleAlphabet (construct T zeroStorage 8 8)
          trailingBounceCalls).decodedMessageMax = 8)
    ∧ (monitorUserInput T sampleAlphabet
        (runCalls T sampleAlphabet (construct T zeroStorage 8 8) trailingBounceCalls)
        false 9).2 = true
    ∧ getDecodedMessageSize (monitorUserInput T sampleAlphabet
        (runCalls T sampleAlphabet (construct T zeroStorage 8 8) trailingBounceCalls)
        false 9).1 = 0
    ∧ getDecodedMessage (monitorUserInput T sampleAlphabet
        (runCalls T sampleAlphabet (construct T zeroStorage 8 8) trailingBounceCalls)
        false 9).1 0 = Char.ofNat 0
    ∧ getUserInputSize (monitorUserInput T sampleAlphabet
        (runCalls T sampleAlphabet (construct T zeroStorage 8 8) trailingBounceCalls)
        false 9).1 = 2 := by
  cases T <;> decide

/-- The decoder leaves an even number of samples undecoded at the end for
every target and alphabet table: with the committed samples `[50, 50]` (a hold
and a gap of 50 ms), the default configuration and an output capacity of 10,
`decodeMessage()` yields the empty message. -/
theorem hold_before_trailing_gap_lost (T : Target) (tbl : Nat → Char) :
    getDecodedMessageSize (decodeMessage T tbl (loaded T [50, 50] 50 50 50 10)) = 0
    ∧ decodedText (decodeMessage T tbl (loaded T [50, 50] 50 50 50 10)) = [Char.ofNat 0] := by
  have hM : unboundedText T tbl (loaded T [50, 50] 50 50 50 10) = [] := by
    cases T <;> rfl
  obtain ⟨a, b⟩ := decodeMessage_text T tbl (loaded T [50, 50] 50 50 50 10)
    (by cases T <;> decide) (by cases T <;> decide) (by cases T <;> decide)
  rw [hM] at a b
  exact ⟨by rw [a]; rfl, by rw [b]; rfl⟩

/-! ## A message of one hold, end to end -/

theorem monitorState_limits (T : Target) (tbl : Nat → Char) (s : Decoder) (k : Bool) (t : Int) :
    (monitorState T tbl s k t).decodedMessageMax = s.decodedMessageMax
    ∧ (monitorState T tbl s k t).timeUnitUpperLimitMs = s.timeUnitUpperLimitMs := by
  rcases monitorState_cases T tbl s k t with h | h | ⟨_, h⟩ | ⟨_, h⟩ | ⟨_, h⟩ <;> rw [h]
  · exact ⟨rfl, rfl⟩
  · exact ⟨rfl, rfl⟩
  · show (keyDownTick s _).decodedMessageMax = _ ∧ (keyDownTick s _).timeUnitUpperLimitMs = _
    unfold keyDownTick
    by_cases h : s.debounceIntervalMs < s.keyReleaseCounterMs ∧ s.userInputCounter < s.userInputMax
    · simp [h]
    · simp [h]
  · show (keyUpTick s).decodedMessageMax = _ ∧ (keyUpTick s).timeUnitUpperLimitMs = _
    unfold keyUpTick
    by_cases h : s.debounceIntervalMs < s.keyHoldCounterMs ∧ s.userInputCounter < s.userInputMax
    · simp [h]
    · simp [h]
  · obtain ⟨n, m, low, hfr⟩ := decodeMessage_frame T tbl s
    show (decodeMessage T tbl s).decodedMessageMax = _
      ∧ (decodeMessage T tbl s).timeUnitUpperLimitMs = _
    rw [hfr]
    exact ⟨rfl, rfl⟩

theorem feed_limits (T : Target) (tbl : Nat → Char) (ks : List Bool) :
    ∀ (s : Decoder) (t : Int),
      (feed T tbl s t ks).decodedMessageMax = s.decodedMessageMax
      ∧ (feed T tbl s t ks).timeUnitUpperLimitMs = s.timeUnitUpperLimitMs := by
  induction ks with
  | nil => intro s t; exact ⟨rfl, rfl⟩
  | cons k ks ih =>
    intro s t
    rw [feed_cons]
    obtain ⟨a, b⟩ := ih (monitorState T tbl s k t) (t + 1)
    obtain ⟨c, d⟩ := monitorState_limits T tbl s k t
    exact ⟨a.trans c, b.trans d⟩

/-- The message decoded from a single committed sample that is classified as a
dot: the table entry of the code `0b011111 = 31`. -/
theorem single_dot_text (T : Target) (tbl : Nat → Char) (s : Decoder)
    (hc : s.userInputCounter = 1)
    (hdot : ¬ shl1 T (correctLowestHold T s).lowestInputHoldMs < s.userInput 0) :
    unboundedText T tbl s = [tbl 31] := by
  obtain ⟨f1, f2, f3, f4, f5⟩ := correctLowestHold_fields T s
  have hcode : lookupCode T (correctLowestHold T s)
      { i := 0, charBuilderIndex := 5, charBuilder := 0 } = 31 := by
    rw [lookupCode_eq]
    have : decide (shl1 T (correctLowestHold T s).lowestInputHoldMs
        < (correctLowestHold T s).userInput 0) = false := by
      rw [f4]; exact decide_eq_false hdot
    show closeCode T 5 0 (decide (shl1 T (correctLowestHold T s).lowestInputHoldMs
        < (correctLowestHold T s).userInput 0)) = 31
    rw [this]
    cases T <;> rfl
  unfold unboundedText
  rw [hc]
  unfold emitFrom
  have h1 : (0 : Nat) < (correctLowestHold T s).userInputCounter := by rw [f2, hc]; omega
  have h2 : endsChar T (correctLowestHold T s) 0 = true := by
    unfold endsChar
    rw [f2, hc]
    simp
  have h3 : spaceAfter T (correctLowestHold T s) 0 = false := by
    unfold spaceAfter
    rw [f2, hc]
    simp
  simp only [h1, if_true, h2, h3, hcode, Bool.false_eq_true, if_false, List.nil_append]
  unfold emitFrom
  rfl

/-- The message decoded when nothing is committed is empty. -/
theorem no_sample_text (T : Target) (tbl : Nat → Char) (s : Decoder)
    (hc : s.userInputCounter = 0) : unboundedText T tbl s = [] := by
  unfold unboundedText
  rw [hc]
  rfl

theorem decodeTick_text (T : Target) (tbl : Nat → Char) (s : Decoder) (now : Nat) :
    getDecodedMessageSize { decodeTick T tbl s with lastMillis := now }
      = getDecodedMessageSize (decodeMessage T tbl s)
    ∧ decodedText { decodeTick T tbl s with lastMillis := now }
      = decodedText (decodeMessage T tbl s) := by
  obtain ⟨n, m, low, hfr⟩ := decodeMessage_frame T tbl s
  unfold decodeTick
  rw [hfr]
  exact ⟨rfl, rfl⟩

/-- A single short hold, end to end, when the first tick is not skipped: from a
rested decoder whose `lastMillis` differs from the first timestamp, `h`
key-down ticks with `debounceIntervalMs < h < timeUnitUpperLimitMs` followed by
`finishedTypingMs + 1` key-up ticks make the last call decode: the flag is set,
the decoded size is 1 and the message is the table entry of the code 31
followed by the terminator. -/
theorem single_dot_message (T : Target) (tbl : Nat → Char) (s : Decoder) (t0 : Int) (h : Nat)
    (hs : Rested s) (hclk : toULong T t0 ≠ s.lastMillis)
    (hmax1 : 1 ≤ s.userInputMax) (hmax : s.userInputMax ≤ 65535)
    (hcap2 : 2 ≤ s.decodedMessageMax) (hcap : s.decodedMessageMax ≤ 65535)
    (hfin1 : 1 ≤ s.finishedTypingMs) (hfin : s.finishedTypingMs ≤ 65535)
    (hdeb : s.debounceIntervalMs < h) (hlim : h < s.timeUnitUpperLimitMs)
    (h2 : 2 * h ≤ 65535) :
    (feed T tbl s t0
        (List.replicate h true ++ List.replicate (s.finishedTypingMs + 1) false)).newMessageReady
      = true
    ∧ getDecodedMessageSize (feed T tbl s t0
        (List.replicate h true ++ List.replicate (s.finishedTypingMs + 1) false)) = 1
    ∧ decodedText (feed T tbl s t0
        (List.replicate h true ++ List.replicate (s.finishedTypingMs + 1) false))
      = [tbl 31, Char.ofNat 0]
    ∧ committed (feed T tbl s t0
        (List.replicate h true ++ List.replicate (s.finishedTypingMs + 1) false)) = [h] := by
  have r0 := first_hold_run T tbl s h t0 hs hclk (by omega) (by omega)
  have r1 := gap_run T tbl s _ [] UINT16_MAX 0 UINT16_MAX h s.finishedTypingMs (t0 + h - 1) r0
    hfin hmax hdeb (by simp only [List.length_nil]; omega) hfin1 (Nat.le_refl _)
  have ekeys : List.replicate h true ++ List.replicate (s.finishedTypingMs + 1) false
      = List.replicate h true ++ (List.replicate s.finishedTypingMs false ++ [false]) := by
    rw [List.replicate_succ']
  rw [ekeys, feed_append, feed_append]
  simp only [List.length_replicate]
  have et : t0 + (h : Int) = t0 + (h : Int) - 1 + 1 := by ring
  rw [et]
  obtain ⟨lim1, lim2⟩ := feed_limits T tbl (List.replicate s.finishedTypingMs false)
    (feed T tbl s t0 (List.replicate h true)) (t0 + (h : Int) - 1 + 1)
  obtain ⟨lim3, lim4⟩ := feed_limits T tbl (List.replicate h true) s t0
  generalize feed T tbl (feed T tbl s t0 (List.replicate h true)) (t0 + (h : Int) - 1 + 1)
    (List.replicate s.finishedTypingMs false) = S2 at r1 lim1 lim2 ⊢
  obtain ⟨q1, q2, q3, q4, q5, q6⟩ := r1
  have hty : S2.finishedTypingMs
      < subULong T (toULong T (t0 + (h : Int) - 1 + 1 + (s.finishedTypingMs : Int)))
          S2.lastUserInputMs := by
    rw [q4, q1.finished, subULong_span T _ _ (by omega) (by cases T <;> simp [Target.longBits] <;> omega)]
    omega
  rw [feed_cons]
  have efeed : feed T tbl (monitorState T tbl S2 false
      (t0 + (h : Int) - 1 + 1 + (s.finishedTypingMs : Int)))
      (t0 + (h : Int) - 1 + 1 + (s.finishedTypingMs : Int) + 1) []
      = monitorState T tbl S2 false (t0 + (h : Int) - 1 + 1 + (s.finishedTypingMs : Int)) := rfl
  rw [efeed, monitorState_decode T tbl S2 _ q5 hty q6]
  obtain ⟨d1, d2⟩ := decodeTick_text T tbl S2
    (toULong T (t0 + (h : Int) - 1 + 1 + (s.finishedTypingMs : Int)))
  have hcnt : S2.userInputCounter = 1 := by rw [q1.counter]; rfl
  have hu0 : S2.userInput 0 = h := by
    have := q1.samples 0 (by simp)
    simpa using this
  have hlow : S2.lowestInputHoldMs = h := by
    rw [q1.lowestHold]
    unfold UINT16_MAX
    omega
  have hcorr : correctLowestHold T S2 = S2 := by
    unfold correctLowestHold
    rw [if_neg]
    rw [hlow, lim2, lim4]
    omega
  have hM : unboundedText T tbl S2 = [tbl 31] := by
    apply single_dot_text T tbl S2 hcnt
    rw [hcorr, hlow, hu0, shl1_of_le T h h2]
    omega
  obtain ⟨a, b⟩ := decodeMessage_text T tbl S2 (by rw [hcnt]; omega)
    (by rw [lim1, lim3]; omega) (by rw [lim1, lim3]; exact hcap)
  rw [hM] at a b
  rw [lim1, lim3] at a b
  refine ⟨rfl, ?_, ?_, ?_⟩
  · rw [d1, a]
    simp only [List.length_singleton]
    omega
  · rw [d2, b, List.take_of_length_le (by simp only [List.length_singleton]; omega)]
    rfl
  · have hcm : committed { decodeTick T tbl S2 with
        lastMillis := toULong T (t0 + (h : Int) - 1 + 1 + (s.finishedTypingMs : Int)) }
        = committed S2 := by
      unfold committed
      show (List.range (decodeTick T tbl S2).userInputCounter).map (decodeTick T tbl S2).userInput
        = _
      rw [(decodeTick_samples T tbl S2).1, (decodeTick_samples T tbl S2).2.1]
    rw [hcm, committed_of_recorded _ _ _ _ _ _ q1]
    rfl

/-- The run of the failing input of C13 up to the decode: the first tick has
the timestamp that `lastMillis` holds and is skipped, so that the 21 key-down
ticks leave the hold counter at 20, which the 1500 key-up ticks inside the
inactivity window never commit. -/
theorem skipped_tick_run (T : Target) (tbl : Nat → Char) :
    Running T (construct T zeroStorage 8 8)
      (feed T tbl (construct T zeroStorage 8 8) 0
        (List.replicate 21 true ++ List.replicate 1500 false)) []
      UINT16_MAX 0 UINT16_MAX 20 1500 20 1521 := by
  have hskip : monitorState T tbl (construct T zeroStorage 8 8) true 0
      = construct T zeroStorage 8 8 :=
    monitorState_skip T tbl _ true 0 (by cases T <;> rfl)
  have r0 := first_hold_run T tbl (construct T zeroStorage 8 8) 20 1
    (rested_construct T zeroStorage 8 8) (by cases T <;> decide) (by decide) (by decide)
  have e0 : (1 : Int) + ((20 : Nat) : Int) - 1 = 20 := by norm_num
  rw [e0] at r0
  have r1 := keyUp_absorb_run T tbl (construct T zeroStorage 8 8) [] UINT16_MAX 0 UINT16_MAX 20
    (by cases T <;> decide) (by cases T <;> decide) 1500 _ 0 1 20 (by simpa using r0)
    (by decide) (fun _ => by cases T <;> decide)
  have e1 : (20 : Int) + ((1 : Nat) : Int) + ((1500 : Nat) : Int) = 1521 := by norm_num
  have e2 : (20 : Int) + ((1 : Nat) : Int) = 20 + 1 := by norm_num
  have e3 : (0 : Nat) + 1500 = 1500 := rfl
  rw [e1, e2, e3] at r1
  have k1 : List.replicate 21 true ++ List.replicate 1500 false
      = true :: (List.replicate 20 true ++ List.replicate 1500 false) := rfl
  rw [k1, feed_cons, hskip, feed_append]
  simp only [List.length_replicate]
  have e4 : (0 : Int) + 1 = 1 := by norm_num
  have e5 : (1 : Int) + ((20 : Nat) : Int) = 20 + 1 := by norm_num
  rw [e4, e5]
  exact r1

/-- C13 at the failing input: a decoder constructed by `MorseCodeDecoder(8, 8)`
in zeroed storage (where `lastMillis`, which the constructor does not assign,
is 0), fed 21 key-down ticks with the timestamps 0, ..., 20 and 1501 key-up
ticks.  The last call decodes and returns true, but the decoded size is 0 and
the message is empty, and no sample was committed: the first tick is skipped
because its timestamp equals `lastMillis`, and the remaining hold of 20 ms does
not exceed the debounce interval.  With the timestamps 1, ..., 21 for the same
key-down ticks the message is the table entry of the code 31, size 1. -/
theorem single_dot_lost_when_first_tick_skipped (T : Target) (tbl : Nat → Char) :
    ((feed T tbl (construct T zeroStorage 8 8) 0
        (List.replicate 21 true ++ List.replicate 1501 false)).newMessageReady = true
      ∧ getDecodedMessageSize (feed T tbl (construct T zeroStorage 8 8) 0
          (List.replicate 21 true ++ List.replicate 1501 false)) = 0
      ∧ decodedText (feed T tbl (construct T zeroStorage 8 8) 0
          (List.replicate 21 true ++ List.replicate 1501 false)) = [Char.ofNat 0]
      ∧ getUserInputSize (feed T tbl (construct T zeroStorage 8 8) 0
          (List.replicate 21 true ++ List.replicate 1501 false)) = 0)
    ∧ (getDecodedMessageSize (feed T tbl (construct T zeroStorage 8 8) 1
          (List.replicate 21 true ++ List.replicate 1501 false)) = 1
      ∧ decodedText (feed T tbl (construct T zeroStorage 8 8) 1
          (List.replicate 21 true ++ List.replicate 1501 false)) = [tbl 31, Char.ofNat 0]) := by
  refine ⟨?_, ?_⟩
  · have hrun := skipped_tick_run T tbl
    have ekeys : List.replicate 21 true ++ List.replicate 1501 false
        = (List.replicate 21 true ++ List.replicate 1500 false) ++ [false] := by
      have e1501 : List.replicate 1501 false = List.replicate 1500 false ++ [false] := by
        rw [show (1501 : Nat) = 1500 + 1 from rfl, List.replicate_succ']
      rw [e1501, List.append_assoc]
    rw [ekeys, feed_append]
    have elen : ((List.replicate 21 true ++ List.replicate 1500 false).length : Int) = 1521 := by
      rw [List.length_append, List.length_replicate, List.length_replicate]
      norm_num
    rw [elen]
    obtain ⟨lim1, _⟩ := feed_limits T tbl (List.replicate 21 true ++ List.replicate 1500 false)
      (construct T zeroStorage 8 8) 0
    generalize feed T tbl (construct T zeroStorage 8 8) 0
      (List.replicate 21 true ++ List.replicate 1500 false) = S2 at hrun lim1 ⊢
    obtain ⟨q1, q2, q3, q4, q5, q6⟩ := hrun
    have e0 : (0 : Int) + 1521 = 1521 := by norm_num
    rw [e0] at *
    have hty : S2.finishedTypingMs < subULong T (toULong T 1521) S2.lastUserInputMs := by
      have := subULong_elapsed T 20 1501 (by decide)
      have e1 : (20 : Int) + ((1501 : Nat) : Int) = 1521 := by norm_num
      rw [e1] at this
      rw [q4, this, q1.finished]
      cases T <;> decide
    have efeed : feed T tbl S2 1521 [false] = monitorState T tbl S2 false 1521 := rfl
    rw [efeed, monitorState_decode T tbl S2 _ q5 hty q6]
    obtain ⟨d1, d2⟩ := decodeTick_text T tbl S2 (toULong T 1521)
    have hcnt : S2.userInputCounter = 0 := q1.counter
    have hmax : S2.decodedMessageMax = 8 := by rw [lim1]; cases T <;> rfl
    obtain ⟨a, b⟩ := decodeMessage_text T tbl S2 (by rw [hcnt]; omega) (by rw [hmax]; omega)
      (by rw [hmax]; omega)
    rw [no_sample_text T tbl S2 hcnt] at a b
    refine ⟨rfl, ?_, ?_, ?_⟩
    · rw [d1, a, List.length_nil, Nat.zero_min]
    · rw [d2, b, List.take_nil, List.nil_append]
    · show (decodeTick T tbl S2).userInputCounter = 0
      rw [(decodeTick_samples T tbl S2).1, hcnt]
  · have h := single_dot_message T tbl (construct T zeroStorage 8 8) 1 21
      (rested_construct T zeroStorage 8 8) (by cases T <;> decide) (by cases T <;> decide)
      (by cases T <;> decide) (by cases T <;> decide) (by cases T <;> decide)
      (by cases T <;> decide) (by cases T <;> decide) (by cases T <;> decide)
      (by cases T <;> decide) (by decide)
    have e : (construct T zeroStorage 8 8).finishedTypingMs + 1 = 1501 := rfl
    rw [e] at h
    exact ⟨h.2.1, h.2.2.1⟩

end MorseCodeDecoder
